import Mathlib

/-!
# mine-net: structural validator (`nbt/scan.go`) and packet framer (`protocol/encoder.go`)

A shallow embedding of the two source files and theorems about them.

Conventions of the embedding
* A byte is a `Fin 256`; a Go `[]byte` is a `List Byte`.
* Go `int` is taken to be 64 bits wide, so `int(uint32(..))` is never negative.  Every `int`
  the scanner computes is a sum of a cursor that is at most `len(buf)` and a length that is
  below `2^35`; a slice is far shorter than `2^63 - 2^35` bytes, so no sum wraps and the
  integers are modelled by `Nat` without a modulus.
* The scanner object `*scanner` is passed explicitly: the buffer is a parameter, the cursor
  `s.at` is an argument `pos` and is part of every result.
* The mutual recursion of `scan`, `list` and `compound` is driven by a fuel argument that
  decreases on every call of `scan` and on every turn of the `compound` loop; the `for` loop of
  `list` recurses on its counter.  Running out of fuel is a separate result (`Res.timeout`),
  an index out of range is a separate result (`Res.crash`).
-/

/-- One octet. -/
abbrev Byte := Fin 256

namespace nbt

/-- Modelled from the spec: the thirteen tag kinds, in the order the spec lists them
(End = 0x00, ..., LongArray = 12); the constant declarations are not part of `scan.go`. -/
def tagEnd : Byte := 0
/-- Modelled from the spec: tag kind Byte. -/
def tagByte : Byte := 1
/-- Modelled from the spec: tag kind Short. -/
def tagShort : Byte := 2
/-- Modelled from the spec: tag kind Int. -/
def tagInt : Byte := 3
/-- Modelled from the spec: tag kind Long. -/
def tagLong : Byte := 4
/-- Modelled from the spec: tag kind Float. -/
def tagFloat : Byte := 5
/-- Modelled from the spec: tag kind Double. -/
def tagDouble : Byte := 6
/-- Modelled from the spec: tag kind ByteArray. -/
def tagByteArray : Byte := 7
/-- Modelled from the spec: tag kind String. -/
def tagString : Byte := 8
/-- Modelled from the spec: tag kind List. -/
def tagList : Byte := 9
/-- Modelled from the spec: tag kind Compound. -/
def tagCompound : Byte := 10
/-- Modelled from the spec: tag kind IntArray. -/
def tagIntArray : Byte := 11
/-- Modelled from the spec: tag kind LongArray. -/
def tagLongArray : Byte := 12

/-- The three errors `scan.go` can return. -/
inductive ScanError
  /-- The error of `checkValid`: "data must always start with a compound tag". -/
  | entry
  /-- The error `io.ErrUnexpectedEOF`. -/
  | unexpectedEOF
  /-- The error "nbt: unknown tag id at %v", with the cursor it prints. -/
  | unknownTag (pos : Nat)
  deriving DecidableEq

/-- Result of running a scanner method: the returned error (if any) together with the value
of the cursor `s.at` when the method returns. -/
inductive Res
  /-- The method returned `nil`; `pos` is the cursor. -/
  | ok (pos : Nat)
  /-- The method returned the error `e`; `pos` is the cursor. -/
  | fail (e : ScanError) (pos : Nat)
  /-- A slice index was out of range (a Go run-time panic). -/
  | crash
  /-- The fuel of the embedding ran out. -/
  | timeout
  deriving DecidableEq

/-- The function `tagPayload`. -/
def tagPayload (id : Byte) : Nat :=
  if id = tagByte then 1
  else if id = tagShort then 2
  else if id = tagInt ∨ id = tagFloat then 4
  else if id = tagLong ∨ id = tagDouble then 8
  else 0

/-- The function `arrayTagPayload`. -/
def arrayTagPayload (id : Byte) : Nat :=
  if id = tagByteArray then 1
  else if id = tagIntArray then 4
  else if id = tagLongArray then 8
  else 0

/-- The expression `int(uint16(b0)<<8 | uint16(b1))`. -/
def be16 (b0 b1 : Byte) : Nat :=
  (b0.val <<< 8) ||| b1.val

/-- The expression `int(uint32(b0)<<24 | uint32(b1)<<16 | uint32(b2)<<8 | uint32(b3))`. -/
def be32 (b0 b1 b2 b3 : Byte) : Nat :=
  (b0.val <<< 24) ||| (b1.val <<< 16) ||| (b2.val <<< 8) ||| b3.val

/-- The method `scanner.read32` at cursor `pos`: `Except.ok (value, new cursor)`, or the result
with which the caller returns (`io.ErrUnexpectedEOF` with the cursor unchanged). -/
def read32 (buf : List Byte) (pos : Nat) : Except Res (Nat × Nat) :=
  if pos + 4 > buf.length then .error (.fail .unexpectedEOF pos)
  else
    match buf[pos]?, buf[pos + 1]?, buf[pos + 2]?, buf[pos + 3]? with
    | some b0, some b1, some b2, some b3 => .ok (be32 b0 b1 b2 b3, pos + 4)
    | _, _, _, _ => .error .crash

/-- The `for i := 0; i < length; i++` loop of `scanner.list`: `step` is `s.scan(id)`, the first
argument is the number of turns left. -/
def listLoop (step : Nat → Res) : Nat → Nat → Res
  | 0, pos => .ok pos
  | n + 1, pos =>
    match step pos with
    | .ok pos1 => listLoop step n pos1
    | r => r

/-- The method `scanner.list`; `scanId` is the method `scanner.scan`. -/
def list (scanId : Byte → Nat → Res) (buf : List Byte) (pos : Nat) : Res :=
  if pos + 1 > buf.length then .fail .unexpectedEOF pos
  else
    match buf[pos]? with
    | none => .crash
    | some id =>
      match read32 buf (pos + 1) with
      | .error r => r
      | .ok (length, pos1) =>
        if id = tagEnd ∨ length = 0 then .ok pos1
        else listLoop (scanId id) length pos1

mutual
/-- The method `scanner.scan`, with fuel. -/
def scan (buf : List Byte) : Nat → Byte → Nat → Res
  | 0, _, _ => .timeout
  | fuel + 1, id, pos =>
    if id = tagByte ∨ id = tagShort ∨ id = tagInt ∨ id = tagLong ∨ id = tagFloat
        ∨ id = tagDouble then
      if pos + tagPayload id > buf.length then .fail .unexpectedEOF pos
      else .ok (pos + tagPayload id)
    else if id = tagString then
      if pos + 2 > buf.length then .fail .unexpectedEOF pos
      else
        match buf[pos]?, buf[pos + 1]? with
        | some b0, some b1 =>
          if pos + 2 + be16 b0 b1 > buf.length then .fail .unexpectedEOF (pos + 2)
          else .ok (pos + 2 + be16 b0 b1)
        | _, _ => .crash
    else if id = tagList then list (scan buf fuel) buf pos
    else if id = tagCompound then compound buf fuel pos
    else if id = tagByteArray ∨ id = tagIntArray ∨ id = tagLongArray then
      match read32 buf pos with
      | .error r => r
      | .ok (length, pos1) =>
        if pos1 + length * arrayTagPayload id > buf.length then .fail .unexpectedEOF pos1
        else .ok (pos1 + length * arrayTagPayload id)
    else .fail (.unknownTag pos) pos
/-- The method `scanner.compound`, with fuel: one turn of its `for` loop per unit. -/
def compound (buf : List Byte) : Nat → Nat → Res
  | 0, _ => .timeout
  | fuel + 1, pos =>
    if pos + 1 > buf.length then
      if pos = 0 then .crash
      else
        match buf[pos - 1]? with
        | none => .crash
        | some b => if b = tagEnd then .ok pos else .fail .unexpectedEOF pos
    else
      match buf[pos]? with
      | none => .crash
      | some id =>
        if id = tagEnd then .ok (pos + 1)
        else if pos + 1 + 2 > buf.length then .fail .unexpectedEOF (pos + 1)
        else
          match buf[pos + 1]?, buf[pos + 1 + 1]? with
          | some b0, some b1 =>
            if pos + 1 + 2 + be16 b0 b1 > buf.length then .fail .unexpectedEOF (pos + 1 + 2)
            else
              match scan buf fuel id (pos + 1 + 2 + be16 b0 b1) with
              | .ok pos1 => compound buf fuel pos1
              | r => r
          | _, _ => .crash
end

/-- The function `checkValid`, with the final cursor: the scanner starts at cursor 0 with
enough fuel for any buffer of this length. -/
def checkValid (data : List Byte) : Res :=
  if data.length < 4 ∨ data[0]? ≠ some tagCompound then .fail .entry 0
  else
    match data[0]? with
    | some b => scan data (data.length + 2) b 0
    | none => .crash

/-- The method returned, with or without an error: neither a crash nor a fuel timeout. -/
def Res.Returned : Res → Prop
  | .ok _ => True
  | .fail _ _ => True
  | .crash => False
  | .timeout => False

/-- The cursor discipline: the result is not a crash, and the cursor of a returned result lies
between `lo` and `hi`. -/
def Res.InBounds (lo hi : Nat) : Res → Prop
  | .ok c => lo ≤ c ∧ c ≤ hi
  | .fail _ c => lo ≤ c ∧ c ≤ hi
  | .crash => False
  | .timeout => True

/-! ### The tagged-tree format as the spec words it

The definitions below follow the spec (section 3 "Tag kind", section 6 "Tagged-tree byte
format"), not `scan.go`: they are the yardstick the scanner is compared with. -/

/-- Spec catalog: the fixed payload width of the kinds Byte, Short, Int, Long, Float, Double
(1, 2, 4, 8, 4, 8); no width for the other kinds. -/
def specFixedWidth (id : Byte) : Option Nat :=
  if id = tagByte then some 1
  else if id = tagShort then some 2
  else if id = tagInt then some 4
  else if id = tagLong then some 8
  else if id = tagFloat then some 4
  else if id = tagDouble then some 8
  else none

/-- Spec catalog: the element width of the kinds ByteArray, IntArray, LongArray (1, 4, 8). -/
def specElementWidth (id : Byte) : Option Nat :=
  if id = tagByteArray then some 1
  else if id = tagIntArray then some 4
  else if id = tagLongArray then some 8
  else none

/-- Spec: a big-endian 16-bit length. -/
def specLen16 (hi lo : Byte) : Nat := hi.val * 256 + lo.val

/-- Spec: a big-endian 32-bit count. -/
def specCount32 (b0 b1 b2 b3 : Byte) : Nat :=
  b0.val * 16777216 + b1.val * 65536 + b2.val * 256 + b3.val

/-- Syntactic categories of the format. -/
inductive Cat
  /-- The value (payload) of one tag of kind `id`. -/
  | value (id : Byte)
  /-- The `n` consecutive values of kind `id` that a list holds. -/
  | elems (id : Byte) (n : Nat)
  /-- The body of a compound: its entries up to and including the closing End byte. -/
  | body

/-- Spec grammar: `WF c bs` says that the bytes `bs` are exactly one well-formed phrase of
category `c`.  Strings are `uint16 length || bytes`; arrays are `int32 count || count × width
bytes`; lists are `kindByte || int32 count || count × value`, empty when the kind is End or the
count is 0; compounds are entries `kindByte, name:String, value` closed by one End byte. -/
inductive WF : Cat → List Byte → Prop
  | fixed (id : Byte) (w : Nat) (bs : List Byte) :
      specFixedWidth id = some w → bs.length = w → WF (.value id) bs
  | string (hi lo : Byte) (cs : List Byte) :
      cs.length = specLen16 hi lo → WF (.value tagString) (hi :: lo :: cs)
  | array (id : Byte) (w : Nat) (b0 b1 b2 b3 : Byte) (bs : List Byte) :
      specElementWidth id = some w → bs.length = specCount32 b0 b1 b2 b3 * w →
      WF (.value id) (b0 :: b1 :: b2 :: b3 :: bs)
  | listEmpty (id b0 b1 b2 b3 : Byte) :
      id = tagEnd ∨ specCount32 b0 b1 b2 b3 = 0 →
      WF (.value tagList) [id, b0, b1, b2, b3]
  | listElems (id b0 b1 b2 b3 : Byte) (es : List Byte) :
      id ≠ tagEnd → specCount32 b0 b1 b2 b3 ≠ 0 →
      WF (.elems id (specCount32 b0 b1 b2 b3)) es →
      WF (.value tagList) (id :: b0 :: b1 :: b2 :: b3 :: es)
  | compound (bs : List Byte) : WF .body bs → WF (.value tagCompound) bs
  | elemsNil (id : Byte) : WF (.elems id 0) []
  | elemsCons (id : Byte) (n : Nat) (v rest : List Byte) :
      WF (.value id) v → WF (.elems id n) rest → WF (.elems id (n + 1)) (v ++ rest)
  | bodyEnd : WF .body [tagEnd]
  | bodyEntry (id hi lo : Byte) (name v rest : List Byte) :
      id ≠ tagEnd → name.length = specLen16 hi lo → WF (.value id) v → WF .body rest →
      WF .body (id :: hi :: lo :: (name ++ (v ++ rest)))

/-- Spec: the bytes are exactly one well-formed root compound: the Compound kind byte, a name
String, and a compound body closed by its End byte. -/
def WFRoot (bs : List Byte) : Prop :=
  ∃ hi lo name body, name.length = specLen16 hi lo ∧ WF .body body
    ∧ bs = tagCompound :: hi :: lo :: (name ++ body)

/-- Spec: the buffer starts with a well-formed root compound. -/
def StartsWithRoot (buf : List Byte) : Prop :=
  ∃ root rest, WFRoot root ∧ buf = root ++ rest

/-- The scanner method that reads a phrase of the given category. -/
def runCat (buf : List Byte) (fuel : Nat) : Cat → Nat → Res
  | .value id, pos => scan buf fuel id pos
  | .elems id n, pos => listLoop (scan buf fuel id) n pos
  | .body, pos => compound buf fuel pos

/-- The kind byte is one of the twelve kinds that `scan` has a case for. -/
def KnownKind (id : Byte) : Prop :=
  (id = tagByte ∨ id = tagShort ∨ id = tagInt ∨ id = tagLong ∨ id = tagFloat ∨ id = tagDouble)
    ∨ id = tagString ∨ id = tagList ∨ id = tagCompound
    ∨ (id = tagByteArray ∨ id = tagIntArray ∨ id = tagLongArray)

/-- The results a method can have when it is entered with the cursor at the end `n` of the
buffer: success without moving, the unexpected-end-of-data error, or no fuel. -/
def Res.AtEnd (n : Nat) (r : Res) : Prop :=
  r = .timeout ∨ r = .ok n ∨ ∃ c, r = .fail .unexpectedEOF c

/-- How the result `rP` on a buffer cut to `n` bytes relates to a successful result `rB` on the
whole buffer: the same success when the cursor stayed within the first `n` bytes, and otherwise
a result of the kind `Res.AtEnd`. -/
def Res.Trunc (n : Nat) (rB rP : Res) : Prop :=
  ∀ c, rB = .ok c → rP = .timeout ∨ (c ≤ n ∧ rP = .ok c) ∨ (n < c ∧ rP.AtEnd n)

/-- Spec: a big-endian 32-bit count read as a signed (two's complement) number. -/
def specSignedCount32 (b0 b1 b2 b3 : Byte) : Int :=
  if specCount32 b0 b1 b2 b3 < 2147483648 then (specCount32 b0 b1 b2 b3 : Int)
  else (specCount32 b0 b1 b2 b3 : Int) - 4294967296

/-! ### The scanner with a record of the kind bytes `compound` reads

The definitions below are `listLoop`, `list`, `scan` and `compound` again, returning next to the
result the offsets at which `compound` executed `id := s.buf[s.at]`, in the order of the run.
`scanT_compoundT_fst` shows that the results are those of `scan` and `compound`. -/

/-- The loop of `scanner.list`, with the record of its steps. -/
def listLoopT (step : Nat → Res × List Nat) : Nat → Nat → Res × List Nat
  | 0, pos => (.ok pos, [])
  | n + 1, pos =>
    match step pos with
    | (.ok pos1, t) => ((listLoopT step n pos1).1, t ++ (listLoopT step n pos1).2)
    | r => r

/-- The method `scanner.list`, with the record of the scans of its elements. -/
def listT (scanId : Byte → Nat → Res × List Nat) (buf : List Byte) (pos : Nat) :
    Res × List Nat :=
  if pos + 1 > buf.length then (.fail .unexpectedEOF pos, [])
  else
    match buf[pos]? with
    | none => (.crash, [])
    | some id =>
      match read32 buf (pos + 1) with
      | .error r => (r, [])
      | .ok (length, pos1) =>
        if id = tagEnd ∨ length = 0 then (.ok pos1, [])
        else listLoopT (scanId id) length pos1

mutual
/-- The method `scanner.scan`, with the record: only its List and Compound cases reach
`compound`. -/
def scanT (buf : List Byte) : Nat → Byte → Nat → Res × List Nat
  | 0, _, _ => (.timeout, [])
  | fuel + 1, id, pos =>
    if id = tagList then listT (scanT buf fuel) buf pos
    else if id = tagCompound then compoundT buf fuel pos
    else (scan buf (fuel + 1) id pos, [])
/-- The method `scanner.compound`, with the record: a turn of the loop that reads a kind byte
at `pos` puts `pos` in front of what the rest of the run records. -/
def compoundT (buf : List Byte) : Nat → Nat → Res × List Nat
  | 0, _ => (.timeout, [])
  | fuel + 1, pos =>
    if pos + 1 > buf.length then (compound buf (fuel + 1) pos, [])
    else
      match buf[pos]? with
      | none => (.crash, [])
      | some id =>
        if id = tagEnd then (.ok (pos + 1), [pos])
        else if pos + 1 + 2 > buf.length then (.fail .unexpectedEOF (pos + 1), [pos])
        else
          match buf[pos + 1]?, buf[pos + 1 + 1]? with
          | some b0, some b1 =>
            if pos + 1 + 2 + be16 b0 b1 > buf.length then
              (.fail .unexpectedEOF (pos + 1 + 2), [pos])
            else
              match scanT buf fuel id (pos + 1 + 2 + be16 b0 b1) with
              | (.ok pos1, t) =>
                ((compoundT buf fuel pos1).1, pos :: (t ++ (compoundT buf fuel pos1).2))
              | (r, t) => (r, pos :: t)
          | _, _ => (.crash, [pos])
end

/-- The offsets at which the scan that `checkValid` starts reads a kind byte in `compound`. -/
def kindReads (data : List Byte) : List Nat :=
  (scanT data (data.length + 2) tagCompound 0).2

/-- The result of a run with its record: at every recorded offset that holds a kind byte above
12, the result of the run is the result of the single loop turn at that offset, and the offset
is the last one recorded; a run out of fuel is set aside. -/
def Blames (buf : List Byte) (rt : Res × List Nat) : Prop :=
  rt.1 = .timeout
    ∨ ∀ p ∈ rt.2, ∀ id : Byte, buf[p]? = some id → 12 < id.val →
        rt.1 = compound buf 2 p ∧ ∃ before, rt.2 = before ++ [p]

/-! ### The scanner with a record of the tests that found the end of the buffer

The definitions below are `read32`, `list`, `scan` and `compound` once more, returning next to
the result every test `s.at + n > len(s.buf)` that held during the run, in the order of the run.
`scanS_compoundS_fst` shows that the results are those of `scan` and `compound`. -/

/-- A test `s.at + n > len(s.buf)` of `scan.go` that held. -/
inductive PastEnd
  /-- The test `s.at+1 > len(s.buf)` at the head of the loop of `compound`, at cursor `pos`. -/
  | loopHead (pos : Nat)
  /-- Any other test `s.at+n > len(s.buf)`, at cursor `pos`: those of `scan`, `list` and
  `read32`, and the two of `compound` for the name of an entry. -/
  | read (pos n : Nat)
  deriving DecidableEq

/-- The cursor at the test. -/
def PastEnd.pos : PastEnd → Nat
  | .loopHead pos => pos
  | .read pos _ => pos

/-- The number of bytes the test asked for. -/
def PastEnd.need : PastEnd → Nat
  | .loopHead _ => 1
  | .read _ n => n

/-- The method `scanner.read32`, with the record. -/
def read32S (buf : List Byte) (pos : Nat) : Except (Res × List PastEnd) (Nat × Nat) :=
  if pos + 4 > buf.length then .error (.fail .unexpectedEOF pos, [.read pos 4])
  else
    match buf[pos]?, buf[pos + 1]?, buf[pos + 2]?, buf[pos + 3]? with
    | some b0, some b1, some b2, some b3 => .ok (be32 b0 b1 b2 b3, pos + 4)
    | _, _, _, _ => .error (.crash, [])

/-- The loop of `scanner.list`, with the record of its steps. -/
def listLoopS (step : Nat → Res × List PastEnd) : Nat → Nat → Res × List PastEnd
  | 0, pos => (.ok pos, [])
  | n + 1, pos =>
    match step pos with
    | (.ok pos1, t) => ((listLoopS step n pos1).1, t ++ (listLoopS step n pos1).2)
    | r => r

/-- The method `scanner.list`, with the record. -/
def listS (scanId : Byte → Nat → Res × List PastEnd) (buf : List Byte) (pos : Nat) :
    Res × List PastEnd :=
  if pos + 1 > buf.length then (.fail .unexpectedEOF pos, [.read pos 1])
  else
    match buf[pos]? with
    | none => (.crash, [])
    | some id =>
      match read32S buf (pos + 1) with
      | .error r => r
      | .ok (length, pos1) =>
        if id = tagEnd ∨ length = 0 then (.ok pos1, [])
        else listLoopS (scanId id) length pos1

mutual
/-- The method `scanner.scan`, with the record. -/
def scanS (buf : List Byte) : Nat → Byte → Nat → Res × List PastEnd
  | 0, _, _ => (.timeout, [])
  | fuel + 1, id, pos =>
    if id = tagByte ∨ id = tagShort ∨ id = tagInt ∨ id = tagLong ∨ id = tagFloat
        ∨ id = tagDouble then
      if pos + tagPayload id > buf.length then
        (.fail .unexpectedEOF pos, [.read pos (tagPayload id)])
      else (.ok (pos + tagPayload id), [])
    else if id = tagString then
      if pos + 2 > buf.length then (.fail .unexpectedEOF pos, [.read pos 2])
      else
        match buf[pos]?, buf[pos + 1]? with
        | some b0, some b1 =>
          if pos + 2 + be16 b0 b1 > buf.length then
            (.fail .unexpectedEOF (pos + 2), [.read (pos + 2) (be16 b0 b1)])
          else (.ok (pos + 2 + be16 b0 b1), [])
        | _, _ => (.crash, [])
    else if id = tagList then listS (scanS buf fuel) buf pos
    else if id = tagCompound then compoundS buf fuel pos
    else if id = tagByteArray ∨ id = tagIntArray ∨ id = tagLongArray then
      match read32S buf pos with
      | .error r => r
      | .ok (length, pos1) =>
        if pos1 + length * arrayTagPayload id > buf.length then
          (.fail .unexpectedEOF pos1, [.read pos1 (length * arrayTagPayload id)])
        else (.ok (pos1 + length * arrayTagPayload id), [])
    else (.fail (.unknownTag pos) pos, [])
/-- The method `scanner.compound`, with the record. -/
def compoundS (buf : List Byte) : Nat → Nat → Res × List PastEnd
  | 0, _ => (.timeout, [])
  | fuel + 1, pos =>
    if pos + 1 > buf.length then
      if pos = 0 then (.crash, [])
      else
        match buf[pos - 1]? with
        | none => (.crash, [])
        | some b =>
          if b = tagEnd then (.ok pos, [.loopHead pos])
          else (.fail .unexpectedEOF pos, [.loopHead pos])
    else
      match buf[pos]? with
      | none => (.crash, [])
      | some id =>
        if id = tagEnd then (.ok (pos + 1), [])
        else if pos + 1 + 2 > buf.length then (.fail .unexpectedEOF (pos + 1), [.read (pos + 1) 2])
        else
          match buf[pos + 1]?, buf[pos + 1 + 1]? with
          | some b0, some b1 =>
            if pos + 1 + 2 + be16 b0 b1 > buf.length then
              (.fail .unexpectedEOF (pos + 1 + 2), [.read (pos + 1 + 2) (be16 b0 b1)])
            else
              match scanS buf fuel id (pos + 1 + 2 + be16 b0 b1) with
              | (.ok pos1, t) =>
                ((compoundS buf fuel pos1).1, t ++ (compoundS buf fuel pos1).2)
              | r => r
          | _, _ => (.crash, [])
end

/-- The tests that found the end of the buffer during the scan that `checkValid` starts. -/
def pastEnds (data : List Byte) : List PastEnd :=
  (scanS data (data.length + 2) tagCompound 0).2

/-- The test really asked for bytes past the end; at the head of the loop of `compound`, the
byte `buf[at-1]` that is then read exists. -/
def PastEnd.Sound (buf : List Byte) : PastEnd → Prop
  | .loopHead pos => buf.length < pos + 1 ∧ 0 < pos ∧ ∃ b, buf[pos - 1]? = some b
  | .read pos n => buf.length < pos + n

/-- The tests after which the code returns `io.ErrUnexpectedEOF`: all of them, except the one at
the head of the loop of `compound` when the byte before the cursor is `0x00`. -/
def PastEnd.Fatal (buf : List Byte) : PastEnd → Prop
  | .loopHead pos => buf[pos - 1]? ≠ some tagEnd
  | .read _ _ => True

/-- The result of a run with its record: every recorded test asked for bytes past the end, and
a recorded test after which the code returns `io.ErrUnexpectedEOF` is the last one recorded and
the run ends with that error at the cursor of the test; a run out of fuel is set aside. -/
def Surfaces (buf : List Byte) (rt : Res × List PastEnd) : Prop :=
  rt.1 = .timeout
    ∨ ∀ ev ∈ rt.2, ev.Sound buf
        ∧ (ev.Fatal buf → rt.1 = .fail .unexpectedEOF ev.pos ∧ ∃ before, rt.2 = before ++ [ev])

end nbt

/-!
## The packet framer (`protocol/encoder.go`)

Conventions of the embedding
* `bytes.Buffer` is a pair of lists: `data`, the logical contents (what `Bytes()` returns; the
  encoder never reads from the buffer, so its read offset stays 0), and `spare`, the storage
  between the length and the capacity.  Slicing `Bytes()` up to the capacity, as `Encode` does,
  reads `data ++ spare`.
* A reallocation gives zeroed spare storage; its capacity is the one `bytes.Buffer` asks for
  (the larger of `len + n` and `2 * cap`), without the rounding of the allocator.
* A slice index out of range and a nil `compressor` are run-time panics: the result `none`.
* The packet, the packet writer, the compressor and the cipher are collaborators that are not
  part of `encoder.go`; they are parameters, described by what they append and return.
-/

namespace protocol

/-- An error value returned by a collaborator; the encoder only passes it on. -/
structure Error where
  /-- Identity of the error value. -/
  code : Nat
  deriving DecidableEq

/-- Modelled from the spec: the growable byte region `bytes.Buffer` of the Go library (the
"Buffer + Cursor" of the data model), as logical contents plus spare capacity. -/
structure Buffer where
  /-- The logical contents, `Bytes()`. -/
  data : List Byte
  /-- The storage between `Len()` and `Cap()`. -/
  spare : List Byte
  deriving DecidableEq

/-- Modelled from the spec: `Buffer.Len`. -/
def Buffer.Len (b : Buffer) : Nat := b.data.length

/-- Modelled from the spec: `Buffer.Cap`. -/
def Buffer.Cap (b : Buffer) : Nat := b.data.length + b.spare.length

/-- Modelled from the spec: the whole storage, `Bytes()[0:Cap()]`. -/
def Buffer.store (b : Buffer) : List Byte := b.data ++ b.spare

/-- Modelled from the spec: `Buffer.Grow(n)`: room for `n` more bytes without changing the
logical length; the storage is kept when it is large enough and replaced by a zeroed one
otherwise. -/
def Buffer.Grow (b : Buffer) (n : Nat) : Buffer :=
  if n ≤ b.spare.length then b
  else { data := b.data, spare := List.replicate (max (b.Len + n) (2 * b.Cap) - b.Len) 0 }

/-- Modelled from the spec: `Buffer.Write(p)`: grow if needed, then copy `p` to the end. -/
def Buffer.Write (b : Buffer) (p : List Byte) : Buffer :=
  { data := (b.Grow p.length).data ++ p, spare := (b.Grow p.length).spare.drop p.length }

/-- Modelled from the spec: `Buffer.WriteByte(c)`. -/
def Buffer.WriteByte (b : Buffer) (c : Byte) : Buffer := b.Write [c]

/-- Modelled from the spec: `Buffer.Truncate(n)`: keep the first `n` bytes and the storage;
a panic when `n` exceeds the length. -/
def Buffer.Truncate (b : Buffer) (n : Nat) : Option Buffer :=
  if n ≤ b.Len then some { data := b.data.take n, spare := b.data.drop n ++ b.spare }
  else none

/-- Modelled from the spec: `Buffer.Reset()`: empty the buffer, keep the storage. -/
def Buffer.Reset (b : Buffer) : Buffer := { data := [], spare := b.data ++ b.spare }

/-- Modelled from the spec: the slice expression `b.Bytes()[lo:hi]`, legal up to the capacity;
a panic otherwise. -/
def Buffer.slice (b : Buffer) (lo hi : Nat) : Option (List Byte) :=
  if lo ≤ hi ∧ hi ≤ b.Cap then some ((b.store.take hi).drop lo) else none

/-- Modelled from the spec: `copy(b.Bytes()[lo:b.Cap()], src)`: the overlap-safe block move of
`min(Cap - lo, len(src))` bytes into the storage at offset `lo`. -/
def Buffer.copyAt (b : Buffer) (lo : Nat) (src : List Byte) : Buffer :=
  { data := (b.store.take lo ++ src.take (min (b.Cap - lo) src.length)
        ++ b.store.drop (lo + min (b.Cap - lo) src.length)).take b.Len,
    spare := (b.store.take lo ++ src.take (min (b.Cap - lo) src.length)
        ++ b.store.drop (lo + min (b.Cap - lo) src.length)).drop b.Len }

/-- What one step of a writer did: the bytes it appended to the buffer and the error it
returned. -/
structure WriteStep where
  /-- The bytes appended. -/
  out : List Byte
  /-- The error returned, if any. -/
  err : Option Error

/-- Modelled from the spec: a packet (`packet.Packet`): its opcode `ID()` and the effect of its
own `Encode(pw)` on the writer. -/
structure Packet where
  /-- The opcode, `pk.ID()`. -/
  ID : Int
  /-- The effect of `pk.Encode(pw)`. -/
  Encode : WriteStep

/-- Modelled from the spec: the packet-writer capability (`packet.Writer`), of which the
encoder uses `VarInt`. -/
structure PacketWriter where
  /-- The effect of `pw.VarInt(n)`. -/
  VarInt : Int → WriteStep

/-- What the compressor did with one payload. -/
structure ZResult where
  /-- The error of `compressor.Write`, if any. -/
  writeErr : Option Error
  /-- The error of `compressor.Flush`, if any. -/
  flushErr : Option Error
  /-- The contents of the scratch buffer after `Write` and `Flush`. -/
  out : List Byte

/-- Modelled from the spec: the compressor capability (`zlib.Writer`) writing into a scratch
buffer obtained empty from the pool: after `Reset` its output depends on the payload only. -/
structure Compressor where
  /-- `Reset(scratch)`, `Write(payload)`, `Flush()`. -/
  run : List Byte → ZResult

/-- Modelled from the spec: the stream-cipher capability (`crypto.CFB8`): a keystream state and
the transformation of one byte, which yields the output byte and the next state. -/
structure CFB8 where
  /-- The running keystream state. -/
  state : List Byte
  /-- One byte of `XORKeyStream`. -/
  step : List Byte → Byte → Byte × List Byte

/-- Modelled from the spec: `XORKeyStream(data, data)`: the bytes in order, the state carried
from each byte to the next. -/
def CFB8.XORKeyStream (c : CFB8) : List Byte → List Byte × CFB8
  | [] => ([], c)
  | x :: xs =>
    ((c.step c.state x).1 :: (XORKeyStream { c with state := (c.step c.state x).2 } xs).1,
      (XORKeyStream { c with state := (c.step c.state x).2 } xs).2)

/-- The struct `Encoder`. -/
structure Encoder where
  /-- The accumulation buffer. -/
  buf : Buffer
  /-- The cipher, `nil` until `EnableEncryption`. -/
  cipher : Option CFB8
  /-- The compressor, `nil` until `EnableCompression`. -/
  compressor : Option Compressor
  /-- The compression threshold, `-1` when compression is disabled. -/
  threshold : Int
  /-- The reserved header width. -/
  headerSize : Nat

/-- The function `NewEncoder`. -/
def NewEncoder : Encoder :=
  { buf := { data := [], spare := List.replicate 4096 0 }
    cipher := none
    compressor := none
    threshold := -1
    headerSize := 3 }

/-- The method `EnableEncryption`; `c` is `crypto.NewCFB8(block, iv, false)`. -/
def Encoder.EnableEncryption (enc : Encoder) (c : CFB8) : Encoder :=
  { enc with cipher := some c }

/-- The method `EnableCompression`; `z` is `zlib.NewWriter(nil)`. -/
def Encoder.EnableCompression (enc : Encoder) (z : Compressor) (threshold : Int) : Encoder :=
  { enc with compressor := some z, threshold := threshold, headerSize := 3 + 5 }

/-- The loop of `writeVarInt` on `ux`. -/
def writeVarIntLoop (b : Buffer) (ux : Nat) : Buffer :=
  if 0x80 ≤ ux then
    writeVarIntLoop (b.WriteByte ((Fin.ofNat (ux &&& 0x7F) : Byte) ||| 0x80)) (ux >>> 7)
  else b.WriteByte (Fin.ofNat ux)
termination_by ux
decreasing_by
  rw [Nat.shiftRight_eq_div_pow]
  omega

/-- The function `writeVarInt`: `ux := uint32(n)`, then the loop. -/
def writeVarInt (b : Buffer) (n : Int) : Buffer :=
  writeVarIntLoop b (n % 4294967296).toNat

/-- The bytes the loop of `writeVarInt` writes for `ux`. -/
def varIntBytes (ux : Nat) : List Byte :=
  if 0x80 ≤ ux then ((Fin.ofNat (ux &&& 0x7F) : Byte) ||| 0x80) :: varIntBytes (ux >>> 7)
  else [Fin.ofNat ux]
termination_by ux
decreasing_by
  rw [Nat.shiftRight_eq_div_pow]
  omega

/-- The bytes `writeVarInt` writes for `n`: the varint of `uint32(n)`. -/
def varInt (n : Int) : List Byte := varIntBytes (n % 4294967296).toNat

/-- The function `varIntSize`. -/
def varIntSize (n : Int) : Nat :=
  if 0x80 ≤ n then varIntSize (n >>> (7 : Nat)) + 1 else 1
termination_by n.toNat
decreasing_by
  rw [Int.shiftRight_eq_div_pow]
  omega

/-- The method `writeHeader`. -/
def Encoder.writeHeader (enc : Encoder) (pkLen dataLen : Int) : Encoder :=
  if dataLen ≠ -1 then { enc with buf := writeVarInt (writeVarInt enc.buf pkLen) dataLen }
  else { enc with buf := writeVarInt enc.buf pkLen }

/-- The method `compress` on the payload bytes: the returned error and the encoder afterwards,
or `none` for a panic. -/
def Encoder.compress (enc : Encoder) (payload : List Byte) : Option (Encoder × Option Error) :=
  match enc.compressor with
  | none => none
  | some z =>
    match (z.run payload).writeErr with
    | some e => some (enc, some e)
    | none =>
      match (z.run payload).flushErr with
      | some e => some (enc, some e)
      | none =>
        some ({ enc.writeHeader ((z.run payload).out.length + varIntSize payload.length)
                  payload.length with
                buf := (enc.writeHeader ((z.run payload).out.length + varIntSize payload.length)
                  payload.length).buf.Write (z.run payload).out }, none)

/-- The method `Encode`: the returned error and the encoder afterwards, or `none` for a
panic. -/
def Encoder.Encode (enc : Encoder) (pw : PacketWriter) (pk : Packet) :
    Option (Encoder × Option Error) :=
  let start := enc.buf.Len
  let b1 := enc.buf.Write (pw.VarInt pk.ID).out
  match (pw.VarInt pk.ID).err with
  | some e => some ({ enc with buf := b1 }, some e)
  | none =>
    let b2 := b1.Write pk.Encode.out
    match pk.Encode.err with
    | some e => some ({ enc with buf := b2 }, some e)
    | none =>
      let pkLen := b2.Len - start
      let b3 := b2.Grow enc.headerSize
      match b3.slice (start + enc.headerSize) b3.Cap, b3.slice start (start + pkLen) with
      | some _, some src =>
        let b4 := b3.copyAt (start + enc.headerSize) src
        let start1 := start + enc.headerSize
        match b4.Truncate (b4.Len - pkLen) with
        | none => none
        | some b5 =>
          if enc.threshold ≠ -1 ∧ enc.threshold ≤ (pkLen : Int) then
            match b5.slice start1 (start1 + pkLen) with
            | none => none
            | some payload => Encoder.compress { enc with buf := b5 } payload
          else
            let enc6 := Encoder.writeHeader { enc with buf := b5 } pkLen
              (if enc.threshold ≠ -1 then 0 else -1)
            match enc6.buf.slice start1 (start1 + pkLen) with
            | none => none
            | some p => some ({ enc6 with buf := enc6.buf.Write p }, none)
      | _, _ => none

/-- The method `Flush`: the returned bytes and the encoder afterwards.  The returned slice is
the buffer's own storage, which the cipher transforms in place. -/
def Encoder.Flush (enc : Encoder) : List Byte × Encoder :=
  match enc.cipher with
  | none => (enc.buf.data, { enc with buf := enc.buf.Reset })
  | some c =>
    ((c.XORKeyStream enc.buf.data).1,
      { enc with
        buf := { data := [], spare := (c.XORKeyStream enc.buf.data).1 ++ enc.buf.spare }
        cipher := some (c.XORKeyStream enc.buf.data).2 })

/-- Modelled from the spec: a packet writer whose `VarInt` writes the varint of its argument
and returns no error. -/
def specWriter : PacketWriter := { VarInt := fun n => { out := varInt n, err := none } }

/-- Spec: the number a varint stands for: little-endian groups of 7 data bits, the sum of
`(b_i AND 0x7F) * 128^i`. -/
def specVarIntValue : List Byte → Nat
  | [] => 0
  | b :: bs => (b.val &&& 0x7F) + 128 * specVarIntValue bs

/-- Spec: the continuation bits of a varint: the high bit is set in every byte but the last and
clear in the last. -/
def specVarIntShape : List Byte → Prop
  | [] => False
  | [b] => b.val < 128
  | b :: c :: bs => 128 ≤ b.val ∧ specVarIntShape (c :: bs)

/-- A run of `Encode` calls that all return nil: the encoder after them and, in call order, the
frames, a frame being the bytes by which a call made the buffer longer.  `none` when a call
returns an error or panics. -/
def Encoder.encodeAll (pw : PacketWriter) :
    Encoder → List Packet → Option (Encoder × List (List Byte))
  | enc, [] => some (enc, [])
  | enc, pk :: pks =>
    match enc.Encode pw pk with
    | some (enc1, none) =>
      match Encoder.encodeAll pw enc1 pks with
      | some (enc2, frames) => some (enc2, enc1.buf.data.drop enc.buf.data.length :: frames)
      | none => none
    | _ => none

end protocol

namespace nbt

/-! ### Arithmetic of the big-endian decoders -/

theorem be16_eq (b0 b1 : Byte) : be16 b0 b1 = b0.val * 256 + b1.val := by
  unfold be16
  have h1 : b1.val < 2 ^ 8 := b1.isLt
  rw [Nat.shiftLeft_eq, Nat.mul_comm, ← Nat.mul_add_lt_is_or h1, Nat.mul_comm]

theorem be16_lt (b0 b1 : Byte) : be16 b0 b1 < 65536 := by
  rw [be16_eq]
  have h0 := b0.isLt
  have h1 := b1.isLt
  omega

theorem be32_eq (b0 b1 b2 b3 : Byte) :
    be32 b0 b1 b2 b3 = b0.val * 16777216 + b1.val * 65536 + b2.val * 256 + b3.val := by
  unfold be32
  have h0 := b0.isLt
  have h1 := b1.isLt
  have h2 := b2.isLt
  have h3 : b3.val < 2 ^ 8 := b3.isLt
  have e1 : (b0.val <<< 24) ||| (b1.val <<< 16) = 2 ^ 16 * (b0.val * 256 + b1.val) := by
    have hb : b1.val <<< 16 < 2 ^ 24 := by rw [Nat.shiftLeft_eq]; omega
    rw [Nat.shiftLeft_eq b0.val, Nat.mul_comm, ← Nat.mul_add_lt_is_or hb, Nat.shiftLeft_eq]
    omega
  have e2 : 2 ^ 16 * (b0.val * 256 + b1.val) ||| (b2.val <<< 8)
      = 2 ^ 8 * (b0.val * 65536 + b1.val * 256 + b2.val) := by
    have hb : b2.val <<< 8 < 2 ^ 16 := by rw [Nat.shiftLeft_eq]; omega
    rw [← Nat.mul_add_lt_is_or hb, Nat.shiftLeft_eq]
    omega
  rw [e1, e2, ← Nat.mul_add_lt_is_or h3]
  omega

theorem be32_lt (b0 b1 b2 b3 : Byte) : be32 b0 b1 b2 b3 < 4294967296 := by
  rw [be32_eq]
  have h0 := b0.isLt
  have h1 := b1.isLt
  have h2 := b2.isLt
  have h3 := b3.isLt
  omega

/-! ### Reading inside the buffer -/

theorem getElem?_some_of_lt (buf : List Byte) (i : Nat) (h : i < buf.length) :
    ∃ b, buf[i]? = some b :=
  ⟨buf[i], List.getElem?_eq_getElem h⟩

theorem getElem?_append_add (pre post : List Byte) (k : Nat) :
    (pre ++ post)[pre.length + k]? = post[k]? := by
  rw [List.getElem?_append_right (Nat.le_add_right _ _)]
  simp

theorem getElem?_append_len (pre post : List Byte) :
    (pre ++ post)[pre.length]? = post[0]? := by
  simpa using getElem?_append_add pre post 0

/-- The method `read32` inside the buffer: it decodes the four bytes and advances by 4. -/
theorem read32_ok (buf : List Byte) (pos : Nat) (h : pos + 4 ≤ buf.length) :
    ∃ b0 b1 b2 b3, buf[pos]? = some b0 ∧ buf[pos + 1]? = some b1 ∧ buf[pos + 2]? = some b2
      ∧ buf[pos + 3]? = some b3 ∧ read32 buf pos = .ok (be32 b0 b1 b2 b3, pos + 4) := by
  obtain ⟨b0, e0⟩ := getElem?_some_of_lt buf pos (by omega)
  obtain ⟨b1, e1⟩ := getElem?_some_of_lt buf (pos + 1) (by omega)
  obtain ⟨b2, e2⟩ := getElem?_some_of_lt buf (pos + 2) (by omega)
  obtain ⟨b3, e3⟩ := getElem?_some_of_lt buf (pos + 3) (by omega)
  refine ⟨b0, b1, b2, b3, e0, e1, e2, e3, ?_⟩
  unfold read32
  rw [if_neg (by omega), e0, e1, e2, e3]

theorem read32_eof (buf : List Byte) (pos : Nat) (h : buf.length < pos + 4) :
    read32 buf pos = .error (.fail .unexpectedEOF pos) := by
  unfold read32
  rw [if_pos (by omega)]

/-- Every outcome of `read32`: the truncation error with the cursor unchanged, or a value
below `2^32` with the cursor advanced by 4 and still inside the buffer. -/
theorem read32_cases (buf : List Byte) (pos : Nat) :
    read32 buf pos = .error (.fail .unexpectedEOF pos)
      ∨ ∃ v, read32 buf pos = .ok (v, pos + 4) ∧ pos + 4 ≤ buf.length ∧ v < 4294967296 := by
  by_cases h : pos + 4 ≤ buf.length
  · obtain ⟨b0, b1, b2, b3, -, -, -, -, e⟩ := read32_ok buf pos h
    exact Or.inr ⟨_, e, h, be32_lt b0 b1 b2 b3⟩
  · exact Or.inl (read32_eof buf pos (by omega))

/-! ### Cursor discipline -/

theorem Res.InBounds.mono {lo lo1 hi : Nat} {r : Res} (h : r.InBounds lo hi) (hl : lo1 ≤ lo) :
    r.InBounds lo1 hi := by
  cases r <;> simp only [Res.InBounds] at h ⊢ <;> omega

theorem listLoop_inBounds (step : Nat → Res) (hi : Nat)
    (hstep : ∀ p, p ≤ hi → (step p).InBounds p hi) :
    ∀ n p, p ≤ hi → (listLoop step n p).InBounds p hi := by
  intro n
  induction n with
  | zero => intro p hp; simp [listLoop, Res.InBounds, hp]
  | succ n ih =>
    intro p hp
    have h1 := hstep p hp
    rw [listLoop]
    cases hs : step p with
    | ok p1 =>
      rw [hs] at h1
      simp only [Res.InBounds] at h1
      exact (ih p1 h1.2).mono h1.1
    | fail e c => rw [hs] at h1; exact h1
    | crash => rw [hs] at h1; exact h1
    | timeout => trivial

theorem list_inBounds (scanId : Byte → Nat → Res) (buf : List Byte)
    (hscan : ∀ id p, p ≤ buf.length → (scanId id p).InBounds p buf.length) :
    ∀ pos, pos ≤ buf.length → (list scanId buf pos).InBounds pos buf.length := by
  intro pos hp
  unfold list
  split
  · simp [Res.InBounds, hp]
  · rename_i hlt
    obtain ⟨id, e0⟩ := getElem?_some_of_lt buf pos (by omega)
    rw [e0]
    rcases read32_cases buf (pos + 1) with e | ⟨v, e, hle, -⟩
    · rw [e]; simp only [Res.InBounds]; omega
    · rw [e]
      simp only
      split
      · simp only [Res.InBounds]; omega
      · exact (listLoop_inBounds (scanId id) buf.length (hscan id) v (pos + 1 + 4) hle).mono
          (by omega)

theorem scan_compound_inBounds (buf : List Byte) (hne : 0 < buf.length) :
    ∀ fuel, (∀ id pos, pos ≤ buf.length → (scan buf fuel id pos).InBounds pos buf.length)
      ∧ (∀ pos, pos ≤ buf.length → (compound buf fuel pos).InBounds pos buf.length) := by
  intro fuel
  induction fuel with
  | zero => exact ⟨fun _ _ _ => by rw [scan]; trivial, fun _ _ => by rw [compound]; trivial⟩
  | succ f ih =>
    obtain ⟨ihs, ihc⟩ := ih
    constructor
    · intro id pos hp
      rw [scan]
      split
      · split <;> simp only [Res.InBounds] <;> omega
      · split
        · split
          · simp only [Res.InBounds]; omega
          · obtain ⟨b0, e0⟩ := getElem?_some_of_lt buf pos (by omega)
            obtain ⟨b1, e1⟩ := getElem?_some_of_lt buf (pos + 1) (by omega)
            rw [e0, e1]
            simp only
            split <;> simp only [Res.InBounds] <;> omega
        · split
          · exact list_inBounds (scan buf f) buf ihs pos hp
          · split
            · exact ihc pos hp
            · split
              · rcases read32_cases buf pos with e | ⟨v, e, hle, -⟩
                · rw [e]; simp only [Res.InBounds]; omega
                · rw [e]
                  simp only
                  split <;> simp only [Res.InBounds] <;> omega
              · simp only [Res.InBounds]; omega
    · intro pos hp
      rw [compound]
      split
      · have hpe : pos = buf.length := by omega
        rw [if_neg (by omega)]
        obtain ⟨b, e⟩ := getElem?_some_of_lt buf (pos - 1) (by omega)
        rw [e]
        simp only
        split <;> simp only [Res.InBounds] <;> omega
      · obtain ⟨id, e⟩ := getElem?_some_of_lt buf pos (by omega)
        rw [e]
        simp only
        split
        · simp only [Res.InBounds]; omega
        · split
          · simp only [Res.InBounds]; omega
          · obtain ⟨b0, e0⟩ := getElem?_some_of_lt buf (pos + 1) (by omega)
            obtain ⟨b1, e1⟩ := getElem?_some_of_lt buf (pos + 1 + 1) (by omega)
            rw [e0, e1]
            simp only
            split
            · simp only [Res.InBounds]; omega
            · rename_i hle
              have h1 := ihs id (pos + 1 + 2 + be16 b0 b1) (by omega)
              cases hs : scan buf f id (pos + 1 + 2 + be16 b0 b1) with
              | ok p1 =>
                rw [hs] at h1
                simp only [Res.InBounds] at h1
                exact (ihc p1 h1.2).mono (by omega)
              | fail e c =>
                rw [hs] at h1
                simp only [Res.InBounds] at h1 ⊢
                omega
              | crash => rw [hs] at h1; exact h1
              | timeout => trivial

/-! ### The fuel suffices -/

theorem listLoop_ne_timeout (step : Nat → Res) (lo hi : Nat)
    (hstep : ∀ p, p ≤ hi → (step p).InBounds p hi)
    (hnt : ∀ p, lo ≤ p → p ≤ hi → step p ≠ .timeout) :
    ∀ n p, lo ≤ p → p ≤ hi → listLoop step n p ≠ .timeout := by
  intro n
  induction n with
  | zero => intro p _ _; simp [listLoop]
  | succ n ih =>
    intro p hl hp
    have h1 := hstep p hp
    have h2 := hnt p hl hp
    rw [listLoop]
    cases hs : step p with
    | ok p1 =>
      rw [hs] at h1
      simp only [Res.InBounds] at h1
      exact ih p1 (by omega) h1.2
    | fail e c => simp
    | crash => simp
    | timeout => exact absurd hs h2

theorem scan_compound_ne_timeout (buf : List Byte) (hne : 0 < buf.length) :
    ∀ fuel, (∀ id pos, pos ≤ buf.length → buf.length + 2 ≤ fuel + pos →
        scan buf fuel id pos ≠ .timeout)
      ∧ (∀ pos, pos ≤ buf.length → buf.length + 1 ≤ fuel + pos →
        compound buf fuel pos ≠ .timeout) := by
  intro fuel
  induction fuel with
  | zero => exact ⟨fun _ _ _ _ => by omega, fun _ _ _ => by omega⟩
  | succ f ih =>
    obtain ⟨ihs, ihc⟩ := ih
    have hb := scan_compound_inBounds buf hne f
    constructor
    · intro id pos hp hf
      rw [scan]
      split
      · split <;> simp
      · split
        · split
          · simp
          · obtain ⟨b0, e0⟩ := getElem?_some_of_lt buf pos (by omega)
            obtain ⟨b1, e1⟩ := getElem?_some_of_lt buf (pos + 1) (by omega)
            rw [e0, e1]
            simp only
            split <;> simp
        · split
          · unfold list
            split
            · simp
            · obtain ⟨id1, e0⟩ := getElem?_some_of_lt buf pos (by omega)
              rw [e0]
              rcases read32_cases buf (pos + 1) with e | ⟨v, e, hle, -⟩
              · rw [e]; simp
              · rw [e]
                simp only
                split
                · simp
                · exact listLoop_ne_timeout (scan buf f id1) (pos + 1 + 4) buf.length
                    (hb.1 id1) (fun p hl hp1 => ihs id1 p hp1 (by omega)) v (pos + 1 + 4)
                    (Nat.le_refl _) hle
          · split
            · exact ihc pos hp (by omega)
            · split
              · rcases read32_cases buf pos with e | ⟨v, e, hle, -⟩
                · rw [e]; simp
                · rw [e]
                  simp only
                  split <;> simp
              · simp
    · intro pos hp hf
      rw [compound]
      split
      · rw [if_neg (by omega)]
        obtain ⟨b, e⟩ := getElem?_some_of_lt buf (pos - 1) (by omega)
        rw [e]
        simp only
        split <;> simp
      · obtain ⟨id, e⟩ := getElem?_some_of_lt buf pos (by omega)
        rw [e]
        simp only
        split
        · simp
        · split
          · simp
          · obtain ⟨b0, e0⟩ := getElem?_some_of_lt buf (pos + 1) (by omega)
            obtain ⟨b1, e1⟩ := getElem?_some_of_lt buf (pos + 1 + 1) (by omega)
            rw [e0, e1]
            simp only
            split
            · simp
            · rename_i hle
              have h1 := hb.1 id (pos + 1 + 2 + be16 b0 b1) (by omega)
              have h2 := ihs id (pos + 1 + 2 + be16 b0 b1) (by omega) (by omega)
              cases hs : scan buf f id (pos + 1 + 2 + be16 b0 b1) with
              | ok p1 =>
                rw [hs] at h1
                simp only [Res.InBounds] at h1
                exact ihc p1 h1.2 (by omega)
              | fail e c => simp
              | crash => simp
              | timeout => exact absurd hs h2

theorem Res.returned_of {lo hi : Nat} {r : Res} (h : r.InBounds lo hi) (ht : r ≠ .timeout) :
    r.Returned := by
  cases r
  · trivial
  · trivial
  · exact h
  · exact absurd rfl ht

/-- The scan that `checkValid` starts, on a buffer that passed its entry check, returns with
its cursor inside the buffer. -/
theorem scan_root_returns (buf : List Byte) (hne : 0 < buf.length) (id : Byte) :
    (scan buf (buf.length + 2) id 0).Returned
      ∧ (scan buf (buf.length + 2) id 0).InBounds 0 buf.length := by
  have hb := (scan_compound_inBounds buf hne (buf.length + 2)).1 id 0 (Nat.zero_le _)
  have ht := (scan_compound_ne_timeout buf hne (buf.length + 2)).1 id 0 (Nat.zero_le _)
    (by omega)
  exact ⟨Res.returned_of hb ht, hb⟩

/-- Unfolding of `checkValid` on a buffer that passes the entry check. -/
theorem checkValid_eq_scan (buf : List Byte) (h4 : 4 ≤ buf.length)
    (h0 : buf[0]? = some tagCompound) :
    checkValid buf = scan buf (buf.length + 2) tagCompound 0 := by
  unfold checkValid
  rw [if_neg (by rw [h0]; simp; omega), h0]

/-- Unfolding of `checkValid` on a buffer that fails the entry check. -/
theorem checkValid_eq_entry (buf : List Byte)
    (h : buf.length < 4 ∨ buf[0]? ≠ some tagCompound) :
    checkValid buf = .fail .entry 0 := by
  unfold checkValid
  rw [if_pos h]

/-! ### Completeness: the scanner accepts what the grammar derives -/

theorem be16_spec (hi lo : Byte) : be16 hi lo = specLen16 hi lo := be16_eq hi lo

theorem be32_spec (b0 b1 b2 b3 : Byte) : be32 b0 b1 b2 b3 = specCount32 b0 b1 b2 b3 :=
  be32_eq b0 b1 b2 b3

theorem tagPayload_of_spec (id : Byte) (w : Nat) (h : specFixedWidth id = some w) :
    tagPayload id = w ∧ (id = tagByte ∨ id = tagShort ∨ id = tagInt ∨ id = tagLong
      ∨ id = tagFloat ∨ id = tagDouble) := by
  unfold specFixedWidth at h
  split_ifs at h with h1 h2 h3 h4 h5 h6 <;> subst_vars <;> simp at h <;> subst h <;> decide

theorem arrayTagPayload_of_spec (id : Byte) (w : Nat) (h : specElementWidth id = some w) :
    arrayTagPayload id = w ∧ (id = tagByteArray ∨ id = tagIntArray ∨ id = tagLongArray) := by
  unfold specElementWidth at h
  split_ifs at h with h1 h2 h3 <;> subst_vars <;> simp at h <;> subst h <;> decide

theorem getElem?_at0 (pre t : List Byte) (a : Byte) :
    (pre ++ a :: t)[pre.length]? = some a := by
  rw [getElem?_append_len]; simp

theorem getElem?_at1 (pre t : List Byte) (a b : Byte) :
    (pre ++ a :: b :: t)[pre.length + 1]? = some b := by
  rw [getElem?_append_add]; simp

theorem getElem?_at2 (pre t : List Byte) (a b c : Byte) :
    (pre ++ a :: b :: c :: t)[pre.length + 2]? = some c := by
  rw [getElem?_append_add]; simp

theorem getElem?_at3 (pre t : List Byte) (a b c d : Byte) :
    (pre ++ a :: b :: c :: d :: t)[pre.length + 3]? = some d := by
  rw [getElem?_append_add]; simp

/-- The method `read32` on four bytes that are present. -/
theorem read32_append (pre t : List Byte) (b0 b1 b2 b3 : Byte) :
    read32 (pre ++ b0 :: b1 :: b2 :: b3 :: t) pre.length
      = .ok (be32 b0 b1 b2 b3, pre.length + 4) := by
  unfold read32
  rw [if_neg (by simp), getElem?_at0, getElem?_at1, getElem?_at2, getElem?_at3]

theorem append_cons_assoc (pre t : List Byte) (a : Byte) :
    pre ++ a :: t = (pre ++ [a]) ++ t := by simp

/-- Completeness of each scanner method for its category: on any buffer that holds a
well-formed phrase at the cursor, the method either runs out of fuel or succeeds with the
cursor just past the phrase. -/
theorem runCat_complete {c : Cat} {bs : List Byte} (h : WF c bs) :
    ∀ (pre post : List Byte) (fuel : Nat),
      runCat (pre ++ (bs ++ post)) fuel c pre.length = .timeout
        ∨ runCat (pre ++ (bs ++ post)) fuel c pre.length = .ok (pre.length + bs.length) := by
  induction h with
  | fixed id w bs hw hl =>
    intro pre post fuel
    cases fuel with
    | zero => left; simp only [runCat]; rw [scan]
    | succ f =>
      right
      obtain ⟨hp, hk⟩ := tagPayload_of_spec id w hw
      simp only [runCat]
      rw [scan, if_pos hk, if_neg (by simp; omega), hp, hl]
  | string hi lo cs hl =>
    intro pre post fuel
    cases fuel with
    | zero => left; simp only [runCat]; rw [scan]
    | succ f =>
      right
      simp only [runCat]
      rw [scan, if_neg (by decide), if_pos rfl, if_neg (by simp)]
      simp only [List.cons_append]
      rw [getElem?_at0, getElem?_at1]
      simp only
      rw [be16_spec, if_neg (by simp; omega)]
      simp only [List.length_cons]
      rw [hl]
      congr 1
      omega
  | array id w b0 b1 b2 b3 bs hw hl =>
    intro pre post fuel
    cases fuel with
    | zero => left; simp only [runCat]; rw [scan]
    | succ f =>
      right
      obtain ⟨hp, hk⟩ := arrayTagPayload_of_spec id w hw
      simp only [runCat]
      have e : scan (pre ++ (b0 :: b1 :: b2 :: b3 :: bs ++ post)) (f + 1) id pre.length
          = match read32 (pre ++ (b0 :: b1 :: b2 :: b3 :: bs ++ post)) pre.length with
            | .error r => r
            | .ok (length, pos1) =>
              if pos1 + length * arrayTagPayload id
                  > (pre ++ (b0 :: b1 :: b2 :: b3 :: bs ++ post)).length
              then .fail .unexpectedEOF pos1
              else .ok (pos1 + length * arrayTagPayload id) := by
        rw [scan]
        rcases hk with rfl | rfl | rfl <;>
          rw [if_neg (by decide), if_neg (by decide), if_neg (by decide), if_neg (by decide),
            if_pos (by decide)]
      rw [e]
      simp only [List.cons_append]
      rw [read32_append]
      simp only
      rw [be32_spec, hp, if_neg (by simp; omega)]
      simp only [List.length_cons]
      rw [hl]
      congr 1
      omega
  | listEmpty id b0 b1 b2 b3 hz =>
    intro pre post fuel
    cases fuel with
    | zero => left; simp only [runCat]; rw [scan]
    | succ f =>
      right
      simp only [runCat]
      rw [scan, if_neg (by decide), if_neg (by decide), if_pos rfl]
      unfold list
      rw [if_neg (by simp)]
      simp only [List.cons_append]
      rw [getElem?_at0]
      simp only
      rw [append_cons_assoc, ← List.length_singleton id, ← List.length_append, read32_append]
      simp only
      rw [be32_spec, if_pos hz]
      simp
  | listElems id b0 b1 b2 b3 es hid hc _ ih =>
    intro pre post fuel
    cases fuel with
    | zero => left; simp only [runCat]; rw [scan]
    | succ f =>
      simp only [runCat]
      rw [scan, if_neg (by decide), if_neg (by decide), if_pos rfl]
      unfold list
      rw [if_neg (by simp)]
      simp only [List.cons_append]
      rw [getElem?_at0]
      simp only
      have e1 : pre ++ id :: b0 :: b1 :: b2 :: b3 :: (es ++ post)
          = (pre ++ [id]) ++ b0 :: b1 :: b2 :: b3 :: (es ++ post) := by simp
      have e2 : pre.length + 1 = (pre ++ [id]).length := by simp
      rw [e1, e2, read32_append]
      simp only
      rw [be32_spec, if_neg (by simp [hid, hc])]
      have e3 : (pre ++ [id]) ++ b0 :: b1 :: b2 :: b3 :: (es ++ post)
          = (pre ++ [id, b0, b1, b2, b3]) ++ (es ++ post) := by simp
      have e4 : (pre ++ [id]).length + 4 = (pre ++ [id, b0, b1, b2, b3]).length := by simp
      have h1 := ih (pre ++ [id, b0, b1, b2, b3]) post f
      simp only [runCat] at h1
      rw [e3, e4]
      rcases h1 with h1 | h1
      · exact Or.inl h1
      · right
        rw [h1]
        congr 1
        simp
        omega
  | compound bs _ ih =>
    intro pre post fuel
    cases fuel with
    | zero => left; simp only [runCat]; rw [scan]
    | succ f =>
      simp only [runCat]
      rw [scan, if_neg (by decide), if_neg (by decide), if_neg (by decide), if_pos rfl]
      exact ih pre post f
  | elemsNil id =>
    intro pre post fuel
    right
    simp [runCat, listLoop]
  | elemsCons id n v rest _ _ ihv ihr =>
    intro pre post fuel
    simp only [runCat]
    rw [listLoop]
    have h1 := ihv pre (rest ++ post) fuel
    simp only [runCat] at h1
    rw [List.append_assoc]
    rcases h1 with h1 | h1
    · left; rw [h1]
    · rw [h1]
      simp only
      have h2 := ihr (pre ++ v) post fuel
      simp only [runCat, List.append_assoc, List.length_append] at h2
      rcases h2 with h2 | h2
      · exact Or.inl h2
      · right
        rw [h2]
        congr 1
        simp
        omega
  | bodyEnd =>
    intro pre post fuel
    cases fuel with
    | zero => left; simp only [runCat]; rw [compound]
    | succ f =>
      right
      simp only [runCat]
      rw [compound, if_neg (by simp)]
      simp only [List.cons_append]
      rw [getElem?_at0]
      simp
  | bodyEntry id hi lo name v rest hid hl _ _ ihv ihr =>
    intro pre post fuel
    cases fuel with
    | zero => left; simp only [runCat]; rw [compound]
    | succ f =>
      simp only [runCat]
      rw [compound, if_neg (by simp)]
      simp only [List.cons_append]
      rw [getElem?_at0]
      simp only
      rw [if_neg hid, if_neg (by simp; omega), getElem?_at1]
      have e2 : pre.length + 1 + 1 = pre.length + 2 := rfl
      rw [e2, getElem?_at2]
      simp only
      rw [be16_spec, if_neg (by simp; omega)]
      have e3 : pre ++ id :: hi :: lo :: (name ++ (v ++ rest) ++ post)
          = (pre ++ id :: hi :: lo :: name) ++ (v ++ (rest ++ post)) := by simp
      have e4 : pre.length + 1 + 2 + specLen16 hi lo = (pre ++ id :: hi :: lo :: name).length := by
        simp; omega
      have h1 := ihv (pre ++ id :: hi :: lo :: name) (rest ++ post) f
      simp only [runCat] at h1
      rw [e3, e4]
      rcases h1 with h1 | h1
      · left; rw [h1]
      · rw [h1]
        simp only
        have e5 : (pre ++ id :: hi :: lo :: name) ++ (v ++ (rest ++ post))
            = (pre ++ id :: hi :: lo :: name ++ v) ++ (rest ++ post) := by simp
        have e6 : (pre ++ id :: hi :: lo :: name).length + v.length
            = (pre ++ id :: hi :: lo :: name ++ v).length := by simp; omega
        have h2 := ihr (pre ++ id :: hi :: lo :: name ++ v) post f
        simp only [runCat] at h2
        rw [e5, e6]
        rcases h2 with h2 | h2
        · exact Or.inl h2
        · right
          rw [h2]
          congr 1
          simp
          omega

/-! ### Shape of well-formed phrases -/

/-- A compound body ends with its End byte. -/
theorem WF_body_last {c : Cat} {bs : List Byte} (h : WF c bs) :
    c = .body → ∃ init, bs = init ++ [tagEnd] := by
  induction h with
  | bodyEnd => intro _; exact ⟨[], rfl⟩
  | bodyEntry id hi lo name v rest _ _ _ _ _ ihr =>
    intro _
    obtain ⟨init, e⟩ := ihr rfl
    exact ⟨id :: hi :: lo :: (name ++ (v ++ init)), by simp [e]⟩
  | _ => intro hc; cases hc

/-- Inversion of the grammar at a compound body. -/
theorem WF_body_inv {bs : List Byte} (h : WF .body bs) :
    bs = [tagEnd] ∨ ∃ id hi lo name v rest, id ≠ tagEnd ∧ name.length = specLen16 hi lo
      ∧ WF (.value id) v ∧ WF .body rest ∧ bs = id :: hi :: lo :: (name ++ (v ++ rest)) := by
  cases h with
  | bodyEnd => exact Or.inl rfl
  | bodyEntry id hi lo name v rest hid hl hv hr =>
    exact Or.inr ⟨id, hi, lo, name, v, rest, hid, hl, hv, hr, rfl⟩

/-- A value of kind Byte is one byte long. -/
theorem WF_byte_length {c : Cat} {v : List Byte} (h : WF c v) (hc : c = .value tagByte) :
    v.length = 1 := by
  cases h with
  | fixed id w bs hw hl =>
    have hid : id = tagByte := Cat.value.inj hc
    subst hid
    have : w = 1 := by simpa [specFixedWidth] using hw.symm
    omega
  | string hi lo cs hl => exact absurd (Cat.value.inj hc) (by decide)
  | array id w b0 b1 b2 b3 bs hw hl =>
    have hid : id = tagByte := Cat.value.inj hc
    subst hid
    unfold specElementWidth at hw
    rw [if_neg (by decide), if_neg (by decide), if_neg (by decide)] at hw
    cases hw
  | listEmpty id b0 b1 b2 b3 hz => exact absurd (Cat.value.inj hc) (by decide)
  | listElems id b0 b1 b2 b3 es hid hn he => exact absurd (Cat.value.inj hc) (by decide)
  | compound bs hb => exact absurd (Cat.value.inj hc) (by decide)
  | elemsNil id => cases hc
  | elemsCons id n v rest hv hr => cases hc
  | bodyEnd => cases hc
  | bodyEntry id hi lo name v rest hid hl hv hr => cases hc

/-! ### Unknown kind bytes -/

/-- The method `scan` on a kind byte above 12: the unknown-tag error at the cursor. -/
theorem scan_unknown (buf : List Byte) (fuel : Nat) (id : Byte) (pos : Nat)
    (hid : 12 < id.val) : scan buf (fuel + 1) id pos = .fail (.unknownTag pos) pos := by
  have hne : ∀ k : Byte, k.val ≤ 12 → id ≠ k := fun k hk e => by subst e; omega
  rw [scan, if_neg (by rintro (h | h | h | h | h | h) <;> exact hne _ (by decide) h),
    if_neg (hne _ (by decide)), if_neg (hne _ (by decide)), if_neg (hne _ (by decide)),
    if_neg (by rintro (h | h | h) <;> exact hne _ (by decide) h)]

/-- The method `compound` at an entry whose kind byte is above 12 and whose name is present. -/
theorem compound_unknown (pre post name : List Byte) (id hi lo : Byte) (fuel : Nat)
    (hid : 12 < id.val) (hl : name.length = specLen16 hi lo) :
    compound (pre ++ id :: hi :: lo :: (name ++ post)) (fuel + 2) pre.length
      = .fail (.unknownTag (pre.length + 3 + name.length)) (pre.length + 3 + name.length) := by
  have hne : id ≠ tagEnd := fun e => by subst e; simp [tagEnd] at hid
  rw [compound, if_neg (by simp), getElem?_at0]
  simp only
  rw [if_neg hne, if_neg (by simp; omega), getElem?_at1]
  have e2 : pre.length + 1 + 1 = pre.length + 2 := rfl
  rw [e2, getElem?_at2]
  simp only
  rw [be16_spec, ← hl, if_neg (by simp; omega), scan_unknown _ _ _ _ hid]

/-! ### The cases of `scan` -/

theorem scan_fixed (buf : List Byte) (fuel : Nat) (id : Byte) (pos : Nat)
    (h : id = tagByte ∨ id = tagShort ∨ id = tagInt ∨ id = tagLong ∨ id = tagFloat
      ∨ id = tagDouble) :
    scan buf (fuel + 1) id pos
      = if pos + tagPayload id > buf.length then .fail .unexpectedEOF pos
        else .ok (pos + tagPayload id) := by
  rw [scan, if_pos h]

theorem scan_string (buf : List Byte) (fuel : Nat) (pos : Nat) :
    scan buf (fuel + 1) tagString pos
      = if pos + 2 > buf.length then .fail .unexpectedEOF pos
        else
          match buf[pos]?, buf[pos + 1]? with
          | some b0, some b1 =>
            if pos + 2 + be16 b0 b1 > buf.length then .fail .unexpectedEOF (pos + 2)
            else .ok (pos + 2 + be16 b0 b1)
          | _, _ => .crash := by
  rw [scan, if_neg (by decide), if_pos rfl]

theorem scan_list (buf : List Byte) (fuel : Nat) (pos : Nat) :
    scan buf (fuel + 1) tagList pos = list (scan buf fuel) buf pos := by
  rw [scan, if_neg (by decide), if_neg (by decide), if_pos rfl]

theorem scan_compound (buf : List Byte) (fuel : Nat) (pos : Nat) :
    scan buf (fuel + 1) tagCompound pos = compound buf fuel pos := by
  rw [scan, if_neg (by decide), if_neg (by decide), if_neg (by decide), if_pos rfl]

theorem scan_array (buf : List Byte) (fuel : Nat) (id : Byte) (pos : Nat)
    (h : id = tagByteArray ∨ id = tagIntArray ∨ id = tagLongArray) :
    scan buf (fuel + 1) id pos
      = match read32 buf pos with
        | .error r => r
        | .ok (length, pos1) =>
          if pos1 + length * arrayTagPayload id > buf.length then .fail .unexpectedEOF pos1
          else .ok (pos1 + length * arrayTagPayload id) := by
  rw [scan]
  rcases h with rfl | rfl | rfl <;>
    rw [if_neg (by decide), if_neg (by decide), if_neg (by decide), if_neg (by decide),
      if_pos (by decide)]

theorem scan_not_known (buf : List Byte) (fuel : Nat) (id : Byte) (pos : Nat)
    (h : ¬ KnownKind id) : scan buf (fuel + 1) id pos = .fail (.unknownTag pos) pos := by
  unfold KnownKind at h
  rw [scan, if_neg (by tauto), if_neg (by tauto), if_neg (by tauto), if_neg (by tauto),
    if_neg (by tauto)]

/-- A kind byte on which `scan` succeeds is a known kind. -/
theorem scan_ok_known {buf : List Byte} {fuel : Nat} {id : Byte} {pos c : Nat}
    (h : scan buf fuel id pos = .ok c) : KnownKind id := by
  cases fuel with
  | zero => rw [scan] at h; cases h
  | succ f =>
    by_contra hk
    rw [scan_not_known buf f id pos hk] at h
    cases h

theorem tagPayload_pos (id : Byte)
    (h : id = tagByte ∨ id = tagShort ∨ id = tagInt ∨ id = tagLong ∨ id = tagFloat
      ∨ id = tagDouble) : 1 ≤ tagPayload id := by
  rcases h with rfl | rfl | rfl | rfl | rfl | rfl <;> decide

/-! ### The scanner at the end of the buffer -/

theorem compound_atEnd (P : List Byte) (hP : 0 < P.length) (fuel : Nat) :
    (compound P fuel P.length).AtEnd P.length := by
  cases fuel with
  | zero => left; rw [compound]
  | succ f =>
    rw [compound, if_pos (by omega), if_neg (by omega)]
    obtain ⟨b, e⟩ := getElem?_some_of_lt P (P.length - 1) (by omega)
    rw [e]
    simp only
    split
    · exact Or.inr (Or.inl rfl)
    · exact Or.inr (Or.inr ⟨_, rfl⟩)

theorem scan_atEnd (P : List Byte) (hP : 0 < P.length) (fuel : Nat) (id : Byte)
    (hk : KnownKind id) : (scan P fuel id P.length).AtEnd P.length := by
  cases fuel with
  | zero => left; rw [scan]
  | succ f =>
    rcases hk with h | rfl | rfl | rfl | h
    · have := tagPayload_pos id h
      rw [scan_fixed _ _ _ _ h, if_pos (by omega)]
      exact Or.inr (Or.inr ⟨_, rfl⟩)
    · rw [scan_string, if_pos (by omega)]
      exact Or.inr (Or.inr ⟨_, rfl⟩)
    · rw [scan_list]
      unfold list
      rw [if_pos (by omega)]
      exact Or.inr (Or.inr ⟨_, rfl⟩)
    · rw [scan_compound]
      exact compound_atEnd P hP f
    · rw [scan_array _ _ _ _ h, read32_eof _ _ (by omega)]
      exact Or.inr (Or.inr ⟨_, rfl⟩)

theorem listLoop_atEnd (step : Nat → Res) (n : Nat) (h : (step n).AtEnd n) :
    ∀ k, (listLoop step k n).AtEnd n := by
  intro k
  induction k with
  | zero => exact Or.inr (Or.inl rfl)
  | succ k ih =>
    rw [listLoop]
    rcases h with h | h | ⟨c, h⟩
    · rw [h]; exact Or.inl rfl
    · rw [h]; exact ih
    · rw [h]; exact Or.inr (Or.inr ⟨c, rfl⟩)

/-! ### Truncating the buffer -/

theorem read32_trunc (B P : List Byte) (n pos : Nat) (hPl : P.length = n) (hn : n ≤ B.length)
    (hPg : ∀ i, i < n → P[i]? = B[i]?) (h : pos + 4 ≤ n) : read32 P pos = read32 B pos := by
  unfold read32
  rw [if_neg (by omega), if_neg (by omega), hPg pos (by omega), hPg (pos + 1) (by omega),
    hPg (pos + 2) (by omega), hPg (pos + 3) (by omega)]

theorem listLoop_trunc (n hi : Nat) (hn : n ≤ hi) (sB sP : Nat → Res)
    (hb : ∀ p, p ≤ hi → (sB p).InBounds p hi)
    (hs : ∀ p, p ≤ n → Res.Trunc n (sB p) (sP p))
    (he : (∃ p c, sB p = .ok c) → (sP n).AtEnd n) :
    ∀ k p, p ≤ n → Res.Trunc n (listLoop sB k p) (listLoop sP k p) := by
  intro k
  induction k with
  | zero =>
    intro p hp c hc
    rw [listLoop] at hc ⊢
    cases hc
    exact Or.inr (Or.inl ⟨hp, rfl⟩)
  | succ k ih =>
    intro p hp c hc
    rw [listLoop] at hc ⊢
    cases hsb : sB p with
    | ok c1 =>
      rw [hsb] at hc
      simp only at hc
      have hb1 := hb p (by omega)
      rw [hsb] at hb1
      simp only [Res.InBounds] at hb1
      have hb2 := listLoop_inBounds sB hi hb k c1 hb1.2
      rw [hc] at hb2
      simp only [Res.InBounds] at hb2
      rcases hs p hp c1 hsb with h | ⟨h1, h⟩ | ⟨h1, h | h | ⟨c2, h⟩⟩
      · rw [h]; exact Or.inl rfl
      · rw [h]; exact ih c1 h1 c hc
      · rw [h]; exact Or.inl rfl
      · rw [h]
        exact Or.inr (Or.inr ⟨by omega, listLoop_atEnd sP n (he ⟨p, c1, hsb⟩) k⟩)
      · rw [h]
        exact Or.inr (Or.inr ⟨by omega, Or.inr (Or.inr ⟨c2, rfl⟩)⟩)
    | fail e c1 => rw [hsb] at hc; cases hc
    | crash => rw [hsb] at hc; cases hc
    | timeout => rw [hsb] at hc; cases hc

theorem list_trunc (B P : List Byte) (n : Nat) (hPl : P.length = n) (hn : n ≤ B.length)
    (hPg : ∀ i, i < n → P[i]? = B[i]?) (sB sP : Byte → Nat → Res)
    (hb : ∀ id p, p ≤ B.length → (sB id p).InBounds p B.length)
    (hs : ∀ id p, p ≤ n → Res.Trunc n (sB id p) (sP id p))
    (he : ∀ id, (∃ p c, sB id p = .ok c) → (sP id n).AtEnd n) :
    ∀ pos, pos ≤ n → Res.Trunc n (list sB B pos) (list sP P pos) := by
  intro pos hp c hc
  unfold list at hc ⊢
  by_cases h1 : pos + 1 > B.length
  · rw [if_pos h1] at hc; cases hc
  · rw [if_neg h1] at hc
    obtain ⟨id, e0⟩ := getElem?_some_of_lt B pos (by omega)
    rw [e0] at hc
    simp only at hc
    rcases read32_cases B (pos + 1) with e | ⟨v, e, hle, -⟩
    · rw [e] at hc; cases hc
    · rw [e] at hc
      simp only at hc
      have hc5 : pos + 5 ≤ c := by
        by_cases hz : id = tagEnd ∨ v = 0
        · rw [if_pos hz] at hc
          cases hc
          omega
        · rw [if_neg hz] at hc
          have hb2 := listLoop_inBounds (sB id) B.length (hb id) v (pos + 1 + 4) hle
          rw [hc] at hb2
          simp only [Res.InBounds] at hb2
          omega
      by_cases g1 : pos + 1 > P.length
      · rw [if_pos g1]
        exact Or.inr (Or.inr ⟨by omega, Or.inr (Or.inr ⟨_, rfl⟩)⟩)
      · rw [if_neg g1, hPg pos (by omega), e0]
        simp only
        by_cases g2 : pos + 1 + 4 ≤ n
        · rw [read32_trunc B P n (pos + 1) hPl hn hPg g2, e]
          simp only
          by_cases hz : id = tagEnd ∨ v = 0
          · rw [if_pos hz] at hc ⊢
            cases hc
            exact Or.inr (Or.inl ⟨g2, rfl⟩)
          · rw [if_neg hz] at hc ⊢
            exact listLoop_trunc n B.length hn (sB id) (sP id) (hb id) (hs id) (he id) v
              (pos + 1 + 4) g2 c hc
        · rw [read32_eof P (pos + 1) (by omega)]
          exact Or.inr (Or.inr ⟨by omega, Or.inr (Or.inr ⟨_, rfl⟩)⟩)

/-- Inversion of a successful turn of the `compound` loop. -/
theorem compound_ok_inv (B : List Byte) (f pos c : Nat) (hp : pos ≤ B.length)
    (h0 : 0 < B.length) (hc : compound B (f + 1) pos = .ok c) :
    (pos = B.length ∧ c = pos ∧ B[pos - 1]? = some tagEnd)
      ∨ (pos < B.length ∧ B[pos]? = some tagEnd ∧ c = pos + 1)
      ∨ ∃ id b0 b1 c1, pos + 1 + 2 ≤ B.length ∧ B[pos]? = some id ∧ id ≠ tagEnd
          ∧ B[pos + 1]? = some b0 ∧ B[pos + 1 + 1]? = some b1
          ∧ pos + 1 + 2 + be16 b0 b1 ≤ B.length
          ∧ scan B f id (pos + 1 + 2 + be16 b0 b1) = .ok c1 ∧ compound B f c1 = .ok c := by
  rw [compound] at hc
  by_cases h1 : pos + 1 > B.length
  · rw [if_pos h1, if_neg (by omega)] at hc
    obtain ⟨b, e⟩ := getElem?_some_of_lt B (pos - 1) (by omega)
    rw [e] at hc
    simp only at hc
    by_cases hb : b = tagEnd
    · rw [if_pos hb] at hc
      cases hc
      exact Or.inl ⟨by omega, rfl, by rw [e, hb]⟩
    · rw [if_neg hb] at hc; cases hc
  · rw [if_neg h1] at hc
    obtain ⟨id, e0⟩ := getElem?_some_of_lt B pos (by omega)
    rw [e0] at hc
    simp only at hc
    by_cases hE : id = tagEnd
    · rw [if_pos hE] at hc
      cases hc
      exact Or.inr (Or.inl ⟨by omega, by rw [e0, hE], rfl⟩)
    · rw [if_neg hE] at hc
      by_cases h2 : pos + 1 + 2 > B.length
      · rw [if_pos h2] at hc; cases hc
      · rw [if_neg h2] at hc
        obtain ⟨b0, e1⟩ := getElem?_some_of_lt B (pos + 1) (by omega)
        obtain ⟨b1, e2⟩ := getElem?_some_of_lt B (pos + 1 + 1) (by omega)
        rw [e1, e2] at hc
        simp only at hc
        by_cases h3 : pos + 1 + 2 + be16 b0 b1 > B.length
        · rw [if_pos h3] at hc; cases hc
        · rw [if_neg h3] at hc
          cases hs : scan B f id (pos + 1 + 2 + be16 b0 b1) with
          | ok c1 =>
            rw [hs] at hc
            exact Or.inr (Or.inr ⟨id, b0, b1, c1, by omega, e0, hE, e1, e2, by omega, hs, hc⟩)
          | fail e c1 => rw [hs] at hc; cases hc
          | crash => rw [hs] at hc; cases hc
          | timeout => rw [hs] at hc; cases hc

/-- Simulation: a successful run on `B` and the run on its first `P.length` bytes `P` agree
until the cursor reaches the end of `P`; from there the run on `P` succeeds without moving,
fails with the unexpected-end-of-data error, or is out of fuel. -/
theorem scan_compound_trunc (B P : List Byte) (hn : P.length ≤ B.length)
    (hPg : ∀ i, i < P.length → P[i]? = B[i]?) (h0 : 0 < P.length) :
    ∀ f, (∀ fP id pos, pos ≤ P.length →
          Res.Trunc P.length (scan B f id pos) (scan P fP id pos))
      ∧ (∀ fP pos, pos ≤ P.length →
          Res.Trunc P.length (compound B f pos) (compound P fP pos)) := by
  intro f
  induction f with
  | zero =>
    refine ⟨fun _ _ _ _ c hc => ?_, fun _ _ _ c hc => ?_⟩
    · rw [scan] at hc; cases hc
    · rw [compound] at hc; cases hc
  | succ f ih =>
    have hbB := scan_compound_inBounds B (by omega) f
    constructor
    · intro fP id pos hp c hc
      cases fP with
      | zero => left; rw [scan]
      | succ fP =>
        by_cases hk : KnownKind id
        · rcases hk with h | rfl | rfl | rfl | h
          · rw [scan_fixed _ _ _ _ h] at hc ⊢
            by_cases h1 : pos + tagPayload id > B.length
            · rw [if_pos h1] at hc; cases hc
            · rw [if_neg h1] at hc
              cases hc
              by_cases g1 : pos + tagPayload id > P.length
              · rw [if_pos g1]
                exact Or.inr (Or.inr ⟨by omega, Or.inr (Or.inr ⟨_, rfl⟩)⟩)
              · rw [if_neg g1]
                exact Or.inr (Or.inl ⟨by omega, rfl⟩)
          · rw [scan_string] at hc ⊢
            by_cases h1 : pos + 2 > B.length
            · rw [if_pos h1] at hc; cases hc
            · rw [if_neg h1] at hc
              obtain ⟨b0, e0⟩ := getElem?_some_of_lt B pos (by omega)
              obtain ⟨b1, e1⟩ := getElem?_some_of_lt B (pos + 1) (by omega)
              rw [e0, e1] at hc
              simp only at hc
              by_cases h2 : pos + 2 + be16 b0 b1 > B.length
              · rw [if_pos h2] at hc; cases hc
              · rw [if_neg h2] at hc
                cases hc
                by_cases g1 : pos + 2 > P.length
                · rw [if_pos g1]
                  exact Or.inr (Or.inr ⟨by omega, Or.inr (Or.inr ⟨_, rfl⟩)⟩)
                · rw [if_neg g1, hPg pos (by omega), hPg (pos + 1) (by omega), e0, e1]
                  simp only
                  by_cases g2 : pos + 2 + be16 b0 b1 > P.length
                  · rw [if_pos g2]
                    exact Or.inr (Or.inr ⟨by omega, Or.inr (Or.inr ⟨_, rfl⟩)⟩)
                  · rw [if_neg g2]
                    exact Or.inr (Or.inl ⟨by omega, rfl⟩)
          · rw [scan_list] at hc ⊢
            exact list_trunc B P P.length rfl hn hPg (scan B f) (scan P fP) hbB.1
              (fun id p hp1 => ih.1 fP id p hp1)
              (fun id ⟨_, _, h⟩ => scan_atEnd P h0 fP id (scan_ok_known h)) pos hp c hc
          · rw [scan_compound] at hc ⊢
            exact ih.2 fP pos hp c hc
          · rw [scan_array _ _ _ _ h] at hc ⊢
            rcases read32_cases B pos with e | ⟨v, e, hle, -⟩
            · rw [e] at hc; cases hc
            · rw [e] at hc
              simp only at hc
              by_cases h1 : pos + 4 + v * arrayTagPayload id > B.length
              · rw [if_pos h1] at hc; cases hc
              · rw [if_neg h1] at hc
                cases hc
                by_cases g2 : pos + 4 ≤ P.length
                · rw [read32_trunc B P P.length pos rfl hn hPg g2, e]
                  simp only
                  by_cases g3 : pos + 4 + v * arrayTagPayload id > P.length
                  · rw [if_pos g3]
                    exact Or.inr (Or.inr ⟨by omega, Or.inr (Or.inr ⟨_, rfl⟩)⟩)
                  · rw [if_neg g3]
                    exact Or.inr (Or.inl ⟨by omega, rfl⟩)
                · rw [read32_eof P pos (by omega)]
                  exact Or.inr (Or.inr ⟨by omega, Or.inr (Or.inr ⟨_, rfl⟩)⟩)
        · rw [scan_not_known B f id pos hk] at hc; cases hc
    · intro fP pos hp c hc
      cases fP with
      | zero => left; rw [compound]
      | succ fP =>
        rcases compound_ok_inv B f pos c (by omega) (by omega) hc with
          ⟨h1, h2, h3⟩ | ⟨h1, h2, h3⟩ | ⟨id, b0, b1, c1, h1, e0, hE, e1, e2, h3, hs, hr⟩
        · have hpe : pos = P.length := by omega
          rw [compound, if_pos (by omega), if_neg (by omega), hPg (pos - 1) (by omega), h3]
          simp only
          rw [if_pos trivial, h2]
          exact Or.inr (Or.inl ⟨hp, rfl⟩)
        · by_cases g1 : pos = P.length
          · rw [g1]
            exact Or.inr (Or.inr ⟨by omega, compound_atEnd P h0 (fP + 1)⟩)
          · rw [compound, if_neg (by omega), hPg pos (by omega), h2]
            simp only
            rw [if_pos trivial, h3]
            exact Or.inr (Or.inl ⟨by omega, rfl⟩)
        · have hb1 := hbB.1 id (pos + 1 + 2 + be16 b0 b1) h3
          rw [hs] at hb1
          simp only [Res.InBounds] at hb1
          have hb2 := hbB.2 c1 hb1.2
          rw [hr] at hb2
          simp only [Res.InBounds] at hb2
          by_cases g1 : pos = P.length
          · rw [g1]
            exact Or.inr (Or.inr ⟨by omega, compound_atEnd P h0 (fP + 1)⟩)
          · rw [compound, if_neg (by omega), hPg pos (by omega), e0]
            simp only
            rw [if_neg hE]
            by_cases g2 : pos + 1 + 2 > P.length
            · rw [if_pos g2]
              exact Or.inr (Or.inr ⟨by omega, Or.inr (Or.inr ⟨_, rfl⟩)⟩)
            · rw [if_neg g2, hPg (pos + 1) (by omega), hPg (pos + 1 + 1) (by omega), e1, e2]
              simp only
              by_cases g3 : pos + 1 + 2 + be16 b0 b1 > P.length
              · rw [if_pos g3]
                exact Or.inr (Or.inr ⟨by omega, Or.inr (Or.inr ⟨_, rfl⟩)⟩)
              · rw [if_neg g3]
                rcases ih.1 fP id (pos + 1 + 2 + be16 b0 b1) (by omega) c1 hs with
                  h | ⟨k1, h⟩ | ⟨k1, h | h | ⟨c2, h⟩⟩
                · rw [h]; exact Or.inl rfl
                · rw [h]; exact ih.2 fP c1 k1 c hr
                · rw [h]; exact Or.inl rfl
                · rw [h]
                  exact Or.inr (Or.inr ⟨by omega, compound_atEnd P h0 fP⟩)
                · rw [h]
                  exact Or.inr (Or.inr ⟨by omega, Or.inr (Or.inr ⟨c2, rfl⟩)⟩)

/-! ### More fuel does not change a result -/

theorem listLoop_fuel_mono (sA sB : Nat → Res)
    (h : ∀ p, sA p ≠ .timeout → sB p = sA p) :
    ∀ n p, listLoop sA n p ≠ .timeout → listLoop sB n p = listLoop sA n p := by
  intro n
  induction n with
  | zero => intro p _; rw [listLoop, listLoop]
  | succ n ih =>
    intro p hnt
    rw [listLoop] at hnt
    rw [listLoop, listLoop]
    cases hs : sA p with
    | timeout => rw [hs] at hnt; exact absurd rfl hnt
    | ok p1 =>
      rw [hs] at hnt
      rw [h p (by rw [hs]; simp), hs]
      exact ih p1 hnt
    | fail e c => rw [h p (by rw [hs]; simp), hs]
    | crash => rw [h p (by rw [hs]; simp), hs]

theorem list_fuel_mono (sA sB : Byte → Nat → Res) (buf : List Byte) (pos : Nat)
    (h : ∀ id p, sA id p ≠ .timeout → sB id p = sA id p)
    (hnt : list sA buf pos ≠ .timeout) : list sB buf pos = list sA buf pos := by
  unfold list at hnt ⊢
  by_cases h1 : pos + 1 > buf.length
  · simp only [if_pos h1]
  · simp only [if_neg h1] at hnt ⊢
    cases e0 : buf[pos]? with
    | none => simp only
    | some id =>
      rw [e0] at hnt
      simp only at hnt ⊢
      cases er : read32 buf (pos + 1) with
      | error r => simp only
      | ok vp =>
        obtain ⟨v, p1⟩ := vp
        rw [er] at hnt
        simp only at hnt ⊢
        by_cases hz : id = tagEnd ∨ v = 0
        · simp only [if_pos hz]
        · simp only [if_neg hz] at hnt ⊢
          exact listLoop_fuel_mono (sA id) (sB id) (h id) v p1 hnt

theorem scan_compound_fuel_mono (buf : List Byte) :
    ∀ f, (∀ id pos, scan buf f id pos ≠ .timeout →
          scan buf (f + 1) id pos = scan buf f id pos)
      ∧ (∀ pos, compound buf f pos ≠ .timeout →
          compound buf (f + 1) pos = compound buf f pos) := by
  intro f
  induction f with
  | zero =>
    refine ⟨fun id pos h => ?_, fun pos h => ?_⟩
    · rw [scan] at h; exact absurd rfl h
    · rw [compound] at h; exact absurd rfl h
  | succ f ih =>
    constructor
    · intro id pos hnt
      by_cases hk : KnownKind id
      · rcases hk with h | rfl | rfl | rfl | h
        · rw [scan_fixed _ (f + 1) _ _ h, scan_fixed _ f _ _ h]
        · rw [scan_string _ (f + 1), scan_string _ f]
        · rw [scan_list _ f] at hnt
          rw [scan_list _ (f + 1), scan_list _ f]
          exact list_fuel_mono (scan buf f) (scan buf (f + 1)) buf pos ih.1 hnt
        · rw [scan_compound _ f] at hnt
          rw [scan_compound _ (f + 1), scan_compound _ f]
          exact ih.2 pos hnt
        · rw [scan_array _ (f + 1) _ _ h, scan_array _ f _ _ h]
      · rw [scan_not_known _ (f + 1) _ _ hk, scan_not_known _ f _ _ hk]
    · intro pos hnt
      rw [compound] at hnt
      conv_lhs => rw [compound]
      conv_rhs => rw [compound]
      by_cases h1 : pos + 1 > buf.length
      · simp only [if_pos h1]
      · simp only [if_neg h1] at hnt ⊢
        cases e0 : buf[pos]? with
        | none => simp only
        | some id =>
          rw [e0] at hnt
          simp only at hnt ⊢
          by_cases hE : id = tagEnd
          · simp only [if_pos hE]
          · simp only [if_neg hE] at hnt ⊢
            by_cases h2 : pos + 1 + 2 > buf.length
            · simp only [if_pos h2]
            · simp only [if_neg h2] at hnt ⊢
              cases e1 : buf[pos + 1]? with
              | none => simp only
              | some b0 =>
                cases e2 : buf[pos + 1 + 1]? with
                | none => simp only
                | some b1 =>
                  rw [e1, e2] at hnt
                  simp only at hnt ⊢
                  by_cases h3 : pos + 1 + 2 + be16 b0 b1 > buf.length
                  · simp only [if_pos h3]
                  · simp only [if_neg h3] at hnt ⊢
                    cases hs : scan buf f id (pos + 1 + 2 + be16 b0 b1) with
                    | timeout => rw [hs] at hnt; exact absurd rfl hnt
                    | ok p1 =>
                      rw [hs] at hnt
                      rw [ih.1 id _ (by rw [hs]; simp), hs]
                      exact ih.2 p1 hnt
                    | fail e c => rw [ih.1 id _ (by rw [hs]; simp), hs]
                    | crash => rw [ih.1 id _ (by rw [hs]; simp), hs]

/-- A result that is not a timeout is the result for every larger fuel. -/
theorem scan_fuel_add (buf : List Byte) (f : Nat) (id : Byte) (pos : Nat)
    (hnt : scan buf f id pos ≠ .timeout) : ∀ k, scan buf (f + k) id pos = scan buf f id pos := by
  intro k
  induction k with
  | zero => rfl
  | succ k ih =>
    rw [← Nat.add_assoc, (scan_compound_fuel_mono buf (f + k)).1 id pos (by rw [ih]; exact hnt),
      ih]

/-! ### One turn of the `compound` loop at a given offset -/

theorem lt_of_getElem? {buf : List Byte} {i : Nat} {b : Byte} (h : buf[i]? = some b) :
    i < buf.length := by
  by_contra hn
  rw [List.getElem?_eq_none (by omega)] at h
  cases h

/-- The buffer ends inside the two length bytes of the entry's name. -/
theorem compound_name_len_eof (buf : List Byte) (f pos : Nat) (id : Byte)
    (e0 : buf[pos]? = some id) (hE : id ≠ tagEnd) (h : buf.length < pos + 1 + 2) :
    compound buf (f + 1) pos = .fail .unexpectedEOF (pos + 1) := by
  have hlt := lt_of_getElem? e0
  rw [compound, if_neg (by omega), e0]
  simp only
  rw [if_neg hE, if_pos (by omega)]

/-- The buffer ends inside the bytes of the entry's name. -/
theorem compound_name_eof (buf : List Byte) (f pos : Nat) (id b0 b1 : Byte)
    (e0 : buf[pos]? = some id) (hE : id ≠ tagEnd) (e1 : buf[pos + 1]? = some b0)
    (e2 : buf[pos + 1 + 1]? = some b1) (h : buf.length < pos + 1 + 2 + be16 b0 b1) :
    compound buf (f + 1) pos = .fail .unexpectedEOF (pos + 1 + 2) := by
  have hlt := lt_of_getElem? e0
  have hlt2 := lt_of_getElem? e2
  rw [compound, if_neg (by omega), e0]
  simp only
  rw [if_neg hE, if_neg (by omega), e1, e2]
  simp only
  rw [if_pos (by omega)]

/-- The entry's name is inside the buffer and its kind byte is above 12. -/
theorem compound_unknown_at (buf : List Byte) (f pos : Nat) (id b0 b1 : Byte)
    (e0 : buf[pos]? = some id) (h12 : 12 < id.val) (e1 : buf[pos + 1]? = some b0)
    (e2 : buf[pos + 1 + 1]? = some b1) (h : pos + 1 + 2 + be16 b0 b1 ≤ buf.length) :
    compound buf (f + 2) pos
      = .fail (.unknownTag (pos + 1 + 2 + be16 b0 b1)) (pos + 1 + 2 + be16 b0 b1) := by
  have hE : id ≠ tagEnd := fun e => by subst e; simp [tagEnd] at h12
  have hlt := lt_of_getElem? e0
  rw [compound, if_neg (by omega), e0]
  simp only
  rw [if_neg hE, if_neg (by omega), e1, e2]
  simp only
  rw [if_neg (by omega), scan_unknown _ _ _ _ h12]

/-- A loop turn that reads a kind byte above 12 fails, whatever the rest of the buffer is. -/
theorem compound_two_unknown (buf : List Byte) (pos : Nat) (id : Byte)
    (e0 : buf[pos]? = some id) (h12 : 12 < id.val) :
    ∃ e c, compound buf 2 pos = .fail e c := by
  have hE : id ≠ tagEnd := fun e => by subst e; simp [tagEnd] at h12
  by_cases h1 : buf.length < pos + 1 + 2
  · exact ⟨_, _, compound_name_len_eof buf 1 pos id e0 hE h1⟩
  · obtain ⟨b0, e1⟩ := getElem?_some_of_lt buf (pos + 1) (by omega)
    obtain ⟨b1, e2⟩ := getElem?_some_of_lt buf (pos + 1 + 1) (by omega)
    by_cases h2 : buf.length < pos + 1 + 2 + be16 b0 b1
    · exact ⟨_, _, compound_name_eof buf 1 pos id b0 b1 e0 hE e1 e2 h2⟩
    · exact ⟨_, _, compound_unknown_at buf 0 pos id b0 b1 e0 h12 e1 e2 (by omega)⟩

/-! ### The recorded run: same results, and what a recorded kind byte above 12 entails -/

theorem listLoopT_fst (sT : Nat → Res × List Nat) (s : Nat → Res) (h : ∀ p, (sT p).1 = s p) :
    ∀ n p, (listLoopT sT n p).1 = listLoop s n p := by
  intro n
  induction n with
  | zero => intro p; rw [listLoopT, listLoop]
  | succ n ih =>
    intro p
    rw [listLoopT, listLoop, ← h p]
    cases hs : sT p with
    | mk r t =>
      cases r with
      | ok p1 => exact ih p1
      | fail e c => rfl
      | crash => rfl
      | timeout => rfl

theorem listT_fst (sT : Byte → Nat → Res × List Nat) (s : Byte → Nat → Res)
    (h : ∀ id p, (sT id p).1 = s id p) (buf : List Byte) (pos : Nat) :
    (listT sT buf pos).1 = list s buf pos := by
  unfold listT list
  by_cases h1 : pos + 1 > buf.length
  · simp only [if_pos h1]
  · simp only [if_neg h1]
    cases e0 : buf[pos]? with
    | none => rfl
    | some id =>
      simp only
      cases er : read32 buf (pos + 1) with
      | error r => rfl
      | ok vp =>
        obtain ⟨v, p1⟩ := vp
        simp only
        by_cases hz : id = tagEnd ∨ v = 0
        · simp only [if_pos hz]
        · simp only [if_neg hz]
          exact listLoopT_fst (sT id) (s id) (h id) v p1

/-- The recorded run returns what `scan` and `compound` return. -/
theorem scanT_compoundT_fst (buf : List Byte) :
    ∀ f, (∀ id pos, (scanT buf f id pos).1 = scan buf f id pos)
      ∧ (∀ pos, (compoundT buf f pos).1 = compound buf f pos) := by
  intro f
  induction f with
  | zero =>
    refine ⟨fun id pos => ?_, fun pos => ?_⟩
    · rw [scanT, scan]
    · rw [compoundT, compound]
  | succ f ih =>
    constructor
    · intro id pos
      rw [scanT]
      by_cases hl : id = tagList
      · subst hl
        rw [if_pos rfl, scan_list]
        exact listT_fst (scanT buf f) (scan buf f) ih.1 buf pos
      · rw [if_neg hl]
        by_cases hc : id = tagCompound
        · subst hc
          rw [if_pos rfl, scan_compound]
          exact ih.2 pos
        · rw [if_neg hc]
    · intro pos
      rw [compoundT]
      conv_rhs => rw [compound]
      by_cases h1 : pos + 1 > buf.length
      · simp only [if_pos h1]
        rw [compound, if_pos h1]
      · simp only [if_neg h1]
        cases e0 : buf[pos]? with
        | none => rfl
        | some id =>
          simp only
          by_cases hE : id = tagEnd
          · simp only [if_pos hE]
          · simp only [if_neg hE]
            by_cases h2 : pos + 1 + 2 > buf.length
            · simp only [if_pos h2]
            · simp only [if_neg h2]
              cases e1 : buf[pos + 1]? with
              | none => rfl
              | some b0 =>
                cases e2 : buf[pos + 1 + 1]? with
                | none => rfl
                | some b1 =>
                  simp only
                  by_cases h3 : pos + 1 + 2 + be16 b0 b1 > buf.length
                  · simp only [if_pos h3]
                  · simp only [if_neg h3]
                    rw [← ih.1 id (pos + 1 + 2 + be16 b0 b1)]
                    cases hs : scanT buf f id (pos + 1 + 2 + be16 b0 b1) with
                    | mk r t =>
                      cases r with
                      | ok p1 => exact ih.2 p1
                      | fail e c => rfl
                      | crash => rfl
                      | timeout => rfl

theorem Blames_nil (buf : List Byte) (r : Res) : Blames buf (r, []) :=
  Or.inr (fun p hp => absurd hp (List.not_mem_nil p))

/-- A run that succeeded recorded no kind byte above 12. -/
theorem Blames_ok_clean {buf : List Byte} {c : Nat} {t : List Nat} (h : Blames buf (.ok c, t))
    (p : Nat) (hp : p ∈ t) (id : Byte) (e0 : buf[p]? = some id) : ¬ 12 < id.val := by
  intro h12
  rcases h with h | h
  · cases h
  · obtain ⟨e, c1, hc⟩ := compound_two_unknown buf p id e0 h12
    have h1 := (h p hp id e0 h12).1
    rw [hc] at h1
    cases h1

theorem Blames_seq {buf : List Byte} {c : Nat} {t t2 : List Nat} {r : Res}
    (h1 : Blames buf (.ok c, t)) (h2 : Blames buf (r, t2)) : Blames buf (r, t ++ t2) := by
  rcases h2 with h2 | h2
  · exact Or.inl h2
  · refine Or.inr (fun p hp id e0 h12 => ?_)
    rcases List.mem_append.1 hp with hp | hp
    · exact absurd h12 (Blames_ok_clean h1 p hp id e0)
    · obtain ⟨hr, before, hb⟩ := h2 p hp id e0 h12
      refine ⟨hr, t ++ before, ?_⟩
      show t ++ t2 = t ++ before ++ [p]
      rw [List.append_assoc]
      exact congrArg (t ++ ·) hb

theorem Blames_cons {buf : List Byte} {pos : Nat} {id : Byte} {t : List Nat} {r : Res}
    (e0 : buf[pos]? = some id) (hk : ¬ 12 < id.val) (h : Blames buf (r, t)) :
    Blames buf (r, pos :: t) := by
  rcases h with h | h
  · exact Or.inl h
  · refine Or.inr (fun p hp id1 e1 h12 => ?_)
    rcases List.mem_cons.1 hp with hp | hp
    · subst hp
      rw [e0] at e1
      cases e1
      exact absurd h12 hk
    · obtain ⟨hr, before, hb⟩ := h p hp id1 e1 h12
      exact ⟨hr, pos :: before, congrArg (pos :: ·) hb⟩

theorem Blames_single {buf : List Byte} {pos : Nat} {r : Res}
    (h : ∀ id : Byte, buf[pos]? = some id → 12 < id.val → r = compound buf 2 pos) :
    Blames buf (r, [pos]) := by
  refine Or.inr (fun p hp id e0 h12 => ?_)
  have hp1 : p = pos := List.mem_singleton.1 hp
  subst hp1
  exact ⟨h id e0 h12, [], rfl⟩

/-- The recorded scan of a kind byte above 12 records nothing more. -/
theorem scanT_unknown (buf : List Byte) (f : Nat) (id : Byte) (pos : Nat) (h12 : 12 < id.val) :
    scanT buf f id pos = (.timeout, [])
      ∨ scanT buf f id pos = (.fail (.unknownTag pos) pos, []) := by
  cases f with
  | zero => left; rw [scanT]
  | succ f =>
    right
    have hl : id ≠ tagList := fun e => by rw [e] at h12; exact absurd h12 (by decide)
    have hc : id ≠ tagCompound := fun e => by rw [e] at h12; exact absurd h12 (by decide)
    rw [scanT, if_neg hl, if_neg hc, scan_unknown buf f id pos h12]

theorem listLoopT_blames (buf : List Byte) (sT : Nat → Res × List Nat)
    (h : ∀ p, Blames buf (sT p)) : ∀ n p, Blames buf (listLoopT sT n p) := by
  intro n
  induction n with
  | zero => intro p; rw [listLoopT]; exact Blames_nil buf _
  | succ n ih =>
    intro p
    rw [listLoopT]
    have hp := h p
    cases hs : sT p with
    | mk r t =>
      rw [hs] at hp
      cases r with
      | ok p1 => exact Blames_seq hp (ih p1)
      | fail e c => exact hp
      | crash => exact hp
      | timeout => exact hp

theorem listT_blames (buf : List Byte) (sT : Byte → Nat → Res × List Nat)
    (h : ∀ id p, Blames buf (sT id p)) (pos : Nat) : Blames buf (listT sT buf pos) := by
  unfold listT
  by_cases h1 : pos + 1 > buf.length
  · simp only [if_pos h1]
    exact Blames_nil buf _
  · simp only [if_neg h1]
    cases e0 : buf[pos]? with
    | none => exact Blames_nil buf _
    | some id =>
      simp only
      cases er : read32 buf (pos + 1) with
      | error r => exact Blames_nil buf _
      | ok vp =>
        obtain ⟨v, p1⟩ := vp
        simp only
        by_cases hz : id = tagEnd ∨ v = 0
        · simp only [if_pos hz]
          exact Blames_nil buf _
        · simp only [if_neg hz]
          exact listLoopT_blames buf (sT id) (h id) v p1

/-- Every recorded run blames the loop turn that read a kind byte above 12. -/
theorem scanT_compoundT_blames (buf : List Byte) :
    ∀ f, (∀ id pos, Blames buf (scanT buf f id pos))
      ∧ (∀ pos, Blames buf (compoundT buf f pos)) := by
  intro f
  induction f with
  | zero =>
    refine ⟨fun id pos => ?_, fun pos => ?_⟩
    · rw [scanT]; exact Or.inl rfl
    · rw [compoundT]; exact Or.inl rfl
  | succ f ih =>
    constructor
    · intro id pos
      rw [scanT]
      by_cases hl : id = tagList
      · rw [if_pos hl]
        exact listT_blames buf (scanT buf f) ih.1 pos
      · rw [if_neg hl]
        by_cases hc : id = tagCompound
        · rw [if_pos hc]
          exact ih.2 pos
        · rw [if_neg hc]
          exact Blames_nil buf _
    · intro pos
      rw [compoundT]
      by_cases h1 : pos + 1 > buf.length
      · simp only [if_pos h1]
        exact Blames_nil buf _
      · simp only [if_neg h1]
        obtain ⟨id, e0⟩ := getElem?_some_of_lt buf pos (by omega)
        rw [e0]
        simp only
        by_cases hE : id = tagEnd
        · simp only [if_pos hE]
          refine Blames_single (fun id1 e1 h12 => ?_)
          rw [e0] at e1
          cases e1
          rw [hE] at h12
          exact absurd h12 (by decide)
        · simp only [if_neg hE]
          by_cases h2 : pos + 1 + 2 > buf.length
          · simp only [if_pos h2]
            refine Blames_single (fun id1 e1 h12 => ?_)
            rw [e0] at e1
            cases e1
            exact (compound_name_len_eof buf 1 pos id e0 hE (by omega)).symm
          · simp only [if_neg h2]
            obtain ⟨b0, e1⟩ := getElem?_some_of_lt buf (pos + 1) (by omega)
            obtain ⟨b1, e2⟩ := getElem?_some_of_lt buf (pos + 1 + 1) (by omega)
            rw [e1, e2]
            simp only
            by_cases h3 : pos + 1 + 2 + be16 b0 b1 > buf.length
            · simp only [if_pos h3]
              refine Blames_single (fun id1 e3 h12 => ?_)
              rw [e0] at e3
              cases e3
              exact (compound_name_eof buf 1 pos id b0 b1 e0 hE e1 e2 (by omega)).symm
            · simp only [if_neg h3]
              by_cases h12 : 12 < id.val
              · rcases scanT_unknown buf f id (pos + 1 + 2 + be16 b0 b1) h12 with hs | hs
                · rw [hs]
                  exact Or.inl rfl
                · rw [hs]
                  refine Blames_single (fun id1 e3 _ => ?_)
                  exact (compound_unknown_at buf 0 pos id b0 b1 e0 h12 e1 e2
                    (by omega)).symm
              · have hq := ih.1 id (pos + 1 + 2 + be16 b0 b1)
                cases hs : scanT buf f id (pos + 1 + 2 + be16 b0 b1) with
                | mk r t =>
                  rw [hs] at hq
                  cases r with
                  | ok p1 => exact Blames_cons e0 h12 (Blames_seq hq (ih.2 p1))
                  | fail e c => exact Blames_cons e0 h12 hq
                  | crash => exact Blames_cons e0 h12 hq
                  | timeout => exact Blames_cons e0 h12 hq

/-- The run that `checkValid` starts, with its record: its result is the result of
`checkValid`, and a recorded offset with a kind byte above 12 is the last one recorded and decides
the result. -/
theorem checkValid_blames (buf : List Byte) (h4 : 4 ≤ buf.length)
    (h0 : buf[0]? = some tagCompound) (p : Nat) (hp : p ∈ kindReads buf) (id : Byte)
    (e0 : buf[p]? = some id) (h12 : 12 < id.val) :
    checkValid buf = compound buf 2 p ∧ ∃ before, kindReads buf = before ++ [p] := by
  have hf := (scanT_compoundT_fst buf (buf.length + 2)).1 tagCompound 0
  have hb := (scanT_compoundT_blames buf (buf.length + 2)).1 tagCompound 0
  have hr := (scan_root_returns buf (by omega) tagCompound).1
  rw [checkValid_eq_scan buf h4 h0, ← hf]
  rw [← hf] at hr
  rcases hb with hb | hb
  · rw [hb] at hr
    exact absurd hr (fun h => h)
  · exact hb p hp id e0 h12

/-! ### The record of the tests that found the end: same results -/

theorem read32S_fst (buf : List Byte) (pos : Nat) :
    (match read32S buf pos with
      | .error r => Except.error r.1
      | .ok v => Except.ok v) = read32 buf pos := by
  unfold read32S read32
  by_cases h : pos + 4 > buf.length
  · simp only [if_pos h]
  · simp only [if_neg h]
    obtain ⟨b0, b1, b2, b3, e0, e1, e2, e3, -⟩ := read32_ok buf pos (by omega)
    rw [e0, e1, e2, e3]

theorem listLoopS_fst (sT : Nat → Res × List PastEnd) (s : Nat → Res)
    (h : ∀ p, (sT p).1 = s p) : ∀ n p, (listLoopS sT n p).1 = listLoop s n p := by
  intro n
  induction n with
  | zero => intro p; rw [listLoopS, listLoop]
  | succ n ih =>
    intro p
    rw [listLoopS, listLoop, ← h p]
    cases hs : sT p with
    | mk r t =>
      cases r with
      | ok p1 => exact ih p1
      | fail e c => rfl
      | crash => rfl
      | timeout => rfl

theorem listS_fst (sT : Byte → Nat → Res × List PastEnd) (s : Byte → Nat → Res)
    (h : ∀ id p, (sT id p).1 = s id p) (buf : List Byte) (pos : Nat) :
    (listS sT buf pos).1 = list s buf pos := by
  unfold listS list
  by_cases h1 : pos + 1 > buf.length
  · simp only [if_pos h1]
  · simp only [if_neg h1]
    cases e0 : buf[pos]? with
    | none => rfl
    | some id =>
      simp only
      rw [← read32S_fst buf (pos + 1)]
      cases er : read32S buf (pos + 1) with
      | error r => rfl
      | ok vp =>
        obtain ⟨v, p1⟩ := vp
        simp only
        by_cases hz : id = tagEnd ∨ v = 0
        · simp only [if_pos hz]
        · simp only [if_neg hz]
          exact listLoopS_fst (sT id) (s id) (h id) v p1

/-- The run with the record of the tests returns what `scan` and `compound` return. -/
theorem scanS_compoundS_fst (buf : List Byte) :
    ∀ f, (∀ id pos, (scanS buf f id pos).1 = scan buf f id pos)
      ∧ (∀ pos, (compoundS buf f pos).1 = compound buf f pos) := by
  intro f
  induction f with
  | zero =>
    refine ⟨fun id pos => ?_, fun pos => ?_⟩
    · rw [scanS, scan]
    · rw [compoundS, compound]
  | succ f ih =>
    constructor
    · intro id pos
      rw [scanS, scan]
      by_cases hf : id = tagByte ∨ id = tagShort ∨ id = tagInt ∨ id = tagLong ∨ id = tagFloat
          ∨ id = tagDouble
      · simp only [if_pos hf]
        by_cases h1 : pos + tagPayload id > buf.length
        · simp only [if_pos h1]
        · simp only [if_neg h1]
      · simp only [if_neg hf]
        by_cases hs : id = tagString
        · simp only [if_pos hs]
          by_cases h1 : pos + 2 > buf.length
          · simp only [if_pos h1]
          · simp only [if_neg h1]
            obtain ⟨b0, e0⟩ := getElem?_some_of_lt buf pos (by omega)
            obtain ⟨b1, e1⟩ := getElem?_some_of_lt buf (pos + 1) (by omega)
            rw [e0, e1]
            simp only
            by_cases h2 : pos + 2 + be16 b0 b1 > buf.length
            · simp only [if_pos h2]
            · simp only [if_neg h2]
        · simp only [if_neg hs]
          by_cases hl : id = tagList
          · simp only [if_pos hl]
            exact listS_fst (scanS buf f) (scan buf f) ih.1 buf pos
          · simp only [if_neg hl]
            by_cases hc : id = tagCompound
            · simp only [if_pos hc]
              exact ih.2 pos
            · simp only [if_neg hc]
              by_cases ha : id = tagByteArray ∨ id = tagIntArray ∨ id = tagLongArray
              · simp only [if_pos ha]
                rw [← read32S_fst buf pos]
                cases er : read32S buf pos with
                | error r => rfl
                | ok vp =>
                  obtain ⟨v, p1⟩ := vp
                  simp only
                  by_cases h1 : p1 + v * arrayTagPayload id > buf.length
                  · simp only [if_pos h1]
                  · simp only [if_neg h1]
              · simp only [if_neg ha]
    · intro pos
      rw [compoundS, compound]
      by_cases h1 : pos + 1 > buf.length
      · simp only [if_pos h1]
        by_cases hz : pos = 0
        · simp only [if_pos hz]
        · simp only [if_neg hz]
          cases e0 : buf[pos - 1]? with
          | none => rfl
          | some b =>
            simp only
            by_cases hE : b = tagEnd
            · simp only [if_pos hE]
            · simp only [if_neg hE]
      · simp only [if_neg h1]
        cases e0 : buf[pos]? with
        | none => rfl
        | some id =>
          simp only
          by_cases hE : id = tagEnd
          · simp only [if_pos hE]
          · simp only [if_neg hE]
            by_cases h2 : pos + 1 + 2 > buf.length
            · simp only [if_pos h2]
            · simp only [if_neg h2]
              cases e1 : buf[pos + 1]? with
              | none => rfl
              | some b0 =>
                cases e2 : buf[pos + 1 + 1]? with
                | none => rfl
                | some b1 =>
                  simp only
                  by_cases h3 : pos + 1 + 2 + be16 b0 b1 > buf.length
                  · simp only [if_pos h3]
                  · simp only [if_neg h3]
                    rw [← ih.1 id (pos + 1 + 2 + be16 b0 b1)]
                    cases hs : scanS buf f id (pos + 1 + 2 + be16 b0 b1) with
                    | mk r t =>
                      cases r with
                      | ok p1 => exact ih.2 p1
                      | fail e c => rfl
                      | crash => rfl
                      | timeout => rfl

/-! ### The record of the tests that found the end: what each recorded test entails -/

theorem Surfaces_nil (buf : List Byte) (r : Res) : Surfaces buf (r, []) :=
  Or.inr (fun ev hev => absurd hev (List.not_mem_nil ev))

theorem Surfaces_single {buf : List Byte} {ev : PastEnd} {r : Res} (hs : ev.Sound buf)
    (h : ev.Fatal buf → r = .fail .unexpectedEOF ev.pos) : Surfaces buf (r, [ev]) := by
  refine Or.inr (fun ev1 hev => ?_)
  have e1 : ev1 = ev := List.mem_singleton.1 hev
  subst e1
  exact ⟨hs, fun hf => ⟨h hf, [], rfl⟩⟩

theorem Surfaces_seq {buf : List Byte} {c : Nat} {t t2 : List PastEnd} {r : Res}
    (h1 : Surfaces buf (.ok c, t)) (h2 : Surfaces buf (r, t2)) : Surfaces buf (r, t ++ t2) := by
  rcases h2 with h2 | h2
  · exact Or.inl h2
  · rcases h1 with h1 | h1
    · cases h1
    · refine Or.inr (fun ev hev => ?_)
      rcases List.mem_append.1 hev with hev | hev
      · refine ⟨(h1 ev hev).1, fun hf => ?_⟩
        have h3 := ((h1 ev hev).2 hf).1
        cases h3
      · refine ⟨(h2 ev hev).1, fun hf => ?_⟩
        obtain ⟨hr, before, hb⟩ := (h2 ev hev).2 hf
        refine ⟨hr, t ++ before, ?_⟩
        show t ++ t2 = t ++ before ++ [ev]
        rw [List.append_assoc]
        exact congrArg (t ++ ·) hb

theorem read32S_surfaces (buf : List Byte) (pos : Nat) (r : Res × List PastEnd)
    (h : read32S buf pos = .error r) : Surfaces buf r := by
  unfold read32S at h
  by_cases h1 : pos + 4 > buf.length
  · rw [if_pos h1] at h
    cases h
    exact Surfaces_single (show buf.length < pos + 4 by omega) (fun _ => rfl)
  · rw [if_neg h1] at h
    obtain ⟨b0, b1, b2, b3, e0, e1, e2, e3, -⟩ := read32_ok buf pos (by omega)
    rw [e0, e1, e2, e3] at h
    cases h

theorem listLoopS_surfaces (buf : List Byte) (sT : Nat → Res × List PastEnd)
    (h : ∀ p, Surfaces buf (sT p)) : ∀ n p, Surfaces buf (listLoopS sT n p) := by
  intro n
  induction n with
  | zero => intro p; rw [listLoopS]; exact Surfaces_nil buf _
  | succ n ih =>
    intro p
    rw [listLoopS]
    have hp := h p
    cases hs : sT p with
    | mk r t =>
      rw [hs] at hp
      cases r with
      | ok p1 => exact Surfaces_seq hp (ih p1)
      | fail e c => exact hp
      | crash => exact hp
      | timeout => exact hp

theorem listS_surfaces (buf : List Byte) (sT : Byte → Nat → Res × List PastEnd)
    (h : ∀ id p, Surfaces buf (sT id p)) (pos : Nat) : Surfaces buf (listS sT buf pos) := by
  unfold listS
  by_cases h1 : pos + 1 > buf.length
  · simp only [if_pos h1]
    exact Surfaces_single (show buf.length < pos + 1 by omega) (fun _ => rfl)
  · simp only [if_neg h1]
    cases e0 : buf[pos]? with
    | none => exact Surfaces_nil buf _
    | some id =>
      simp only
      cases er : read32S buf (pos + 1) with
      | error r => exact read32S_surfaces buf (pos + 1) r er
      | ok vp =>
        obtain ⟨v, p1⟩ := vp
        simp only
        by_cases hz : id = tagEnd ∨ v = 0
        · simp only [if_pos hz]
          exact Surfaces_nil buf _
        · simp only [if_neg hz]
          exact listLoopS_surfaces buf (sT id) (h id) v p1

/-- Every run satisfies `Surfaces`. -/
theorem scanS_compoundS_surfaces (buf : List Byte) :
    ∀ f, (∀ id pos, Surfaces buf (scanS buf f id pos))
      ∧ (∀ pos, Surfaces buf (compoundS buf f pos)) := by
  intro f
  induction f with
  | zero =>
    refine ⟨fun id pos => ?_, fun pos => ?_⟩
    · rw [scanS]; exact Or.inl rfl
    · rw [compoundS]; exact Or.inl rfl
  | succ f ih =>
    constructor
    · intro id pos
      rw [scanS]
      by_cases hf : id = tagByte ∨ id = tagShort ∨ id = tagInt ∨ id = tagLong ∨ id = tagFloat
          ∨ id = tagDouble
      · simp only [if_pos hf]
        by_cases h1 : pos + tagPayload id > buf.length
        · simp only [if_pos h1]
          exact Surfaces_single (show buf.length < pos + tagPayload id by omega) (fun _ => rfl)
        · simp only [if_neg h1]
          exact Surfaces_nil buf _
      · simp only [if_neg hf]
        by_cases hs : id = tagString
        · simp only [if_pos hs]
          by_cases h1 : pos + 2 > buf.length
          · simp only [if_pos h1]
            exact Surfaces_single (show buf.length < pos + 2 by omega) (fun _ => rfl)
          · simp only [if_neg h1]
            obtain ⟨b0, e0⟩ := getElem?_some_of_lt buf pos (by omega)
            obtain ⟨b1, e1⟩ := getElem?_some_of_lt buf (pos + 1) (by omega)
            rw [e0, e1]
            simp only
            by_cases h2 : pos + 2 + be16 b0 b1 > buf.length
            · simp only [if_pos h2]
              exact Surfaces_single (show buf.length < pos + 2 + be16 b0 b1 by omega)
                (fun _ => rfl)
            · simp only [if_neg h2]
              exact Surfaces_nil buf _
        · simp only [if_neg hs]
          by_cases hl : id = tagList
          · simp only [if_pos hl]
            exact listS_surfaces buf (scanS buf f) ih.1 pos
          · simp only [if_neg hl]
            by_cases hc : id = tagCompound
            · simp only [if_pos hc]
              exact ih.2 pos
            · simp only [if_neg hc]
              by_cases ha : id = tagByteArray ∨ id = tagIntArray ∨ id = tagLongArray
              · simp only [if_pos ha]
                cases er : read32S buf pos with
                | error r => exact read32S_surfaces buf pos r er
                | ok vp =>
                  obtain ⟨v, p1⟩ := vp
                  simp only
                  by_cases h1 : p1 + v * arrayTagPayload id > buf.length
                  · simp only [if_pos h1]
                    exact Surfaces_single
                      (show buf.length < p1 + v * arrayTagPayload id by omega) (fun _ => rfl)
                  · simp only [if_neg h1]
                    exact Surfaces_nil buf _
              · simp only [if_neg ha]
                exact Surfaces_nil buf _
    · intro pos
      rw [compoundS]
      by_cases h1 : pos + 1 > buf.length
      · simp only [if_pos h1]
        by_cases hz : pos = 0
        · simp only [if_pos hz]
          exact Surfaces_nil buf _
        · simp only [if_neg hz]
          cases e0 : buf[pos - 1]? with
          | none => exact Surfaces_nil buf _
          | some b =>
            simp only
            have hsound : (PastEnd.loopHead pos).Sound buf :=
              ⟨by omega, by omega, b, e0⟩
            by_cases hE : b = tagEnd
            · simp only [if_pos hE]
              refine Surfaces_single hsound (fun hfat => ?_)
              exact absurd (by rw [e0, hE]) hfat
            · simp only [if_neg hE]
              exact Surfaces_single hsound (fun _ => rfl)
      · simp only [if_neg h1]
        obtain ⟨id, e0⟩ := getElem?_some_of_lt buf pos (by omega)
        rw [e0]
        simp only
        by_cases hE : id = tagEnd
        · simp only [if_pos hE]
          exact Surfaces_nil buf _
        · simp only [if_neg hE]
          by_cases h2 : pos + 1 + 2 > buf.length
          · simp only [if_pos h2]
            exact Surfaces_single (show buf.length < pos + 1 + 2 by omega) (fun _ => rfl)
          · simp only [if_neg h2]
            obtain ⟨b0, e1⟩ := getElem?_some_of_lt buf (pos + 1) (by omega)
            obtain ⟨b1, e2⟩ := getElem?_some_of_lt buf (pos + 1 + 1) (by omega)
            rw [e1, e2]
            simp only
            by_cases h3 : pos + 1 + 2 + be16 b0 b1 > buf.length
            · simp only [if_pos h3]
              exact Surfaces_single (show buf.length < pos + 1 + 2 + be16 b0 b1 by omega)
                (fun _ => rfl)
            · simp only [if_neg h3]
              have hq := ih.1 id (pos + 1 + 2 + be16 b0 b1)
              cases hs : scanS buf f id (pos + 1 + 2 + be16 b0 b1) with
              | mk r t =>
                rw [hs] at hq
                cases r with
                | ok p1 => exact Surfaces_seq hq (ih.2 p1)
                | fail e c => exact hq
                | crash => exact hq
                | timeout => exact hq

/-- The run that `checkValid` starts, with its record of the tests that found the end. -/
theorem checkValid_surfaces (buf : List Byte) (h4 : 4 ≤ buf.length)
    (h0 : buf[0]? = some tagCompound) :
    (scanS buf (buf.length + 2) tagCompound 0).1 = checkValid buf
      ∧ ∀ ev ∈ pastEnds buf, ev.Sound buf
          ∧ (ev.Fatal buf → checkValid buf = .fail .unexpectedEOF ev.pos
              ∧ ∃ before, pastEnds buf = before ++ [ev]) := by
  have hf := (scanS_compoundS_fst buf (buf.length + 2)).1 tagCompound 0
  have hb := (scanS_compoundS_surfaces buf (buf.length + 2)).1 tagCompound 0
  have hr := (scan_root_returns buf (by omega) tagCompound).1
  rw [checkValid_eq_scan buf h4 h0, ← hf]
  rw [← hf] at hr
  refine ⟨rfl, ?_⟩
  rcases hb with hb | hb
  · rw [hb] at hr
    exact absurd hr (fun h => h)
  · exact hb

/-- The head of the loop of `compound` with the cursor at the end of a non-empty buffer. -/
theorem compound_loop_head (buf : List Byte) (fuel : Nat) (b : Byte) (hne : 0 < buf.length)
    (e : buf[buf.length - 1]? = some b) :
    compound buf (fuel + 1) buf.length
      = if b = tagEnd then .ok buf.length else .fail .unexpectedEOF buf.length := by
  rw [compound, if_pos (by omega), if_neg (by omega), e]

/-- A well-formed root compound has at least four bytes and ends with its End byte. -/
theorem WFRoot_last {buf : List Byte} (h : WFRoot buf) :
    4 ≤ buf.length ∧ buf[buf.length - 1]? = some tagEnd := by
  obtain ⟨hi, lo, name, body, -, hb, rfl⟩ := h
  obtain ⟨init, hinit⟩ := WF_body_last hb rfl
  subst hinit
  have e : tagCompound :: hi :: lo :: (name ++ (init ++ [tagEnd]))
      = (tagCompound :: hi :: lo :: (name ++ init)) ++ [tagEnd] := by simp
  rw [e]
  refine ⟨by simp; omega, ?_⟩
  generalize tagCompound :: hi :: lo :: (name ++ init) = front
  have hl : (front ++ [tagEnd]).length - 1 = front.length := by simp
  rw [hl]
  exact getElem?_at0 front [] tagEnd

/-! ### The claims about the structural validator -/

/-- C1 (the claim fails on the code): `checkValid` returns no error on the seven bytes
`0A 00 00 01 00 00 00` (a root compound with an empty name whose only entry is a Byte tag with an
empty name and payload 0, and no End byte), although no prefix of that buffer is a well-formed
root compound: at the end of the buffer `compound` takes the last byte consumed, here the payload
of the Byte tag, for the End byte. -/
theorem checkValid_accepts_unterminated :
    checkValid [10, 0, 0, 1, 0, 0, 0] = .ok 7 ∧ ¬ StartsWithRoot [10, 0, 0, 1, 0, 0, 0] := by
  refine ⟨by decide, ?_⟩
  rintro ⟨root, rest, ⟨hi, lo, name, body, hl, hb, rfl⟩, e⟩
  simp only [List.cons_append, List.cons.injEq] at e
  obtain ⟨-, rfl, rfl, e⟩ := e
  have hn : name = [] := List.length_eq_zero.mp (by rw [hl]; rfl)
  subst hn
  rcases WF_body_inv hb with rfl | ⟨id, hi, lo, name, v, tl, -, hl, hv, ht, rfl⟩
  · simp only [List.nil_append, List.cons_append, List.cons.injEq] at e
    exact absurd e.1.symm (by decide)
  · simp only [List.nil_append, List.cons_append, List.cons.injEq] at e
    obtain ⟨rfl, rfl, rfl, e⟩ := e
    have hn : name = [] := List.length_eq_zero.mp (by rw [hl]; rfl)
    subst hn
    have h1 := WF_byte_length hv rfl
    obtain ⟨init, rfl⟩ := WF_body_last ht rfl
    have h2 := congrArg List.length e
    simp at h2
    omega

/-- C2: a byte buffer that is exactly one well-formed root compound (Compound kind byte, name
String, entries, closing End byte, every declared length and count fully present) is accepted:
`checkValid` returns no error, with the cursor at the end of the buffer.  Hence an error is
reported only for a buffer that is not such a root compound. -/
theorem checkValid_complete (buf : List Byte) (h : WFRoot buf) :
    checkValid buf = .ok buf.length := by
  obtain ⟨hi, lo, name, body, hl, hb, rfl⟩ := h
  obtain ⟨init, hinit⟩ := WF_body_last hb rfl
  have hlen : 4 ≤ (tagCompound :: hi :: lo :: (name ++ body)).length := by
    simp [hinit]; omega
  have hret := (scan_root_returns (tagCompound :: hi :: lo :: (name ++ body)) (by omega)
    tagCompound).1
  rw [checkValid_eq_scan _ hlen (by simp)]
  have key : scan (tagCompound :: hi :: lo :: (name ++ body))
        ((tagCompound :: hi :: lo :: (name ++ body)).length + 2) tagCompound 0 = .timeout
      ∨ scan (tagCompound :: hi :: lo :: (name ++ body))
        ((tagCompound :: hi :: lo :: (name ++ body)).length + 2) tagCompound 0
        = .ok (tagCompound :: hi :: lo :: (name ++ body)).length := by
    generalize hB : tagCompound :: hi :: lo :: (name ++ body) = B at hlen ⊢
    obtain ⟨n, hn⟩ : ∃ n, B.length = n + 1 := ⟨B.length - 1, by omega⟩
    have g0 : B[0]? = some tagCompound := by rw [← hB]; simp
    have g1 : B[0 + 1]? = some hi := by rw [← hB]; simp
    have g2 : B[0 + 1 + 1]? = some lo := by rw [← hB]; simp
    have glast : B[B.length - 1]? = some tagEnd := by
      have e : B = (tagCompound :: hi :: lo :: (name ++ init)) ++ [tagEnd] := by
        rw [← hB, hinit]; simp
      have e1 : B.length - 1 = (tagCompound :: hi :: lo :: (name ++ init)).length := by
        rw [e]; simp
        omega
      rw [e1, e, getElem?_at0]
    rw [scan, if_neg (by decide), if_neg (by decide), if_neg (by decide), if_pos rfl,
      compound, if_neg (by omega), g0]
    simp only
    rw [if_neg (by decide), if_neg (by omega), g1, g2]
    simp only
    rw [be16_spec, ← hl, if_neg (by rw [← hB]; simp; omega)]
    have h1 := runCat_complete (WF.compound body hb) (tagCompound :: hi :: lo :: name) []
      B.length
    simp only [runCat, List.append_nil, List.cons_append] at h1
    rw [hB] at h1
    have e4 : (tagCompound :: hi :: lo :: name).length = 0 + 1 + 2 + name.length := by
      simp; omega
    rw [e4] at h1
    rcases h1 with h1 | h1
    · left; rw [h1]
    · right
      rw [h1]
      simp only
      have e5 : 0 + 1 + 2 + name.length + body.length = B.length := by
        rw [← hB]; simp; omega
      rw [e5]
      rw [hn, compound, ← hn, if_pos (by omega), if_neg (by omega), glast]
      simp
  rcases key with key | key
  · rw [key] at hret; exact absurd hret (by simp [Res.Returned])
  · exact key

/-- Witness of C2: the 18 bytes of a root compound holding a Byte and a List of two Bytes. -/
theorem checkValid_complete_witness :
    WFRoot [10, 0, 0, 1, 0, 0, 5, 9, 0, 0, 1, 0, 0, 0, 2, 7, 8, 0]
      ∧ checkValid [10, 0, 0, 1, 0, 0, 5, 9, 0, 0, 1, 0, 0, 0, 2, 7, 8, 0] = .ok 18 :=
  have hw : WFRoot [10, 0, 0, 1, 0, 0, 5, 9, 0, 0, 1, 0, 0, 0, 2, 7, 8, 0] :=
    ⟨0, 0, [], [1, 0, 0, 5, 9, 0, 0, 1, 0, 0, 0, 2, 7, 8, 0], rfl,
      WF.bodyEntry 1 0 0 [] [5] [9, 0, 0, 1, 0, 0, 0, 2, 7, 8, 0] (by decide) rfl
        (WF.fixed 1 1 [5] (by decide) rfl)
        (WF.bodyEntry 9 0 0 [] [1, 0, 0, 0, 2, 7, 8] [0] (by decide) rfl
          (WF.listElems 1 0 0 0 2 [7, 8] (by decide) (by decide)
            (WF.elemsCons 1 1 [7] [8] (WF.fixed 1 1 [7] (by decide) rfl)
              (WF.elemsCons 1 0 [8] [] (WF.fixed 1 1 [8] (by decide) rfl) (WF.elemsNil 1))))
          WF.bodyEnd),
      rfl⟩
  ⟨hw, checkValid_complete _ hw⟩

/-- C3: a buffer shorter than 4 bytes, or whose first byte is not the Compound kind, is rejected
with the entry-precondition error, whatever its bytes are; that error is neither the
unexpected-end-of-data error nor an unknown-tag error. -/
theorem checkValid_root_requirement (buf : List Byte)
    (h : buf.length < 4 ∨ buf[0]? ≠ some tagCompound) :
    checkValid buf = .fail .entry 0 ∧ ScanError.entry ≠ ScanError.unexpectedEOF
      ∧ ∀ p, ScanError.entry ≠ ScanError.unknownTag p :=
  ⟨checkValid_eq_entry buf h, by simp, by simp⟩

/-- Witness of C3: five bytes that do not start with the Compound kind. -/
theorem checkValid_root_requirement_witness :
    (([1, 2, 3, 4, 5] : List Byte).length < 4
        ∨ ([1, 2, 3, 4, 5] : List Byte)[0]? ≠ some tagCompound)
      ∧ checkValid [1, 2, 3, 4, 5] = .fail .entry 0 :=
  ⟨Or.inr (by decide), (checkValid_root_requirement [1, 2, 3, 4, 5] (Or.inr (by decide))).1⟩

/-- C5: in every scanner state with five bytes `id b0 b1 b2 b3` at the cursor, if the element
kind `id` is End, or the big-endian count `b0 b1 b2 b3` is 0 (for any `id`), then scanning a
List value succeeds and leaves the cursor exactly 5 further, whatever bytes `post` follow. -/
theorem list_empty_shortcut (pre post : List Byte) (id b0 b1 b2 b3 : Byte) (fuel : Nat)
    (h : id = tagEnd ∨ specCount32 b0 b1 b2 b3 = 0) :
    scan (pre ++ id :: b0 :: b1 :: b2 :: b3 :: post) (fuel + 1) tagList pre.length
      = .ok (pre.length + 5) := by
  have h1 := runCat_complete (WF.listEmpty id b0 b1 b2 b3 h) pre post (fuel + 1)
  simp only [runCat, List.cons_append, List.nil_append, List.length_cons, List.length_nil]
    at h1
  rcases h1 with h1 | h1
  · rw [scan, if_neg (by decide), if_neg (by decide), if_pos rfl] at h1
    unfold list at h1
    rw [if_neg (by simp), getElem?_at0] at h1
    simp only at h1
    rw [append_cons_assoc, ← List.length_singleton id, ← List.length_append, read32_append]
      at h1
    simp only at h1
    rw [be32_spec, if_pos h] at h1
    cases h1
  · exact h1

/-- Witness of C5: a list header of kind End with count 7, followed by other bytes. -/
theorem list_empty_shortcut_witness :
    ((0 : Byte) = tagEnd ∨ specCount32 0 0 0 7 = 0)
      ∧ scan ([10, 0, 0, 9, 0, 0] ++ 0 :: 0 :: 0 :: 0 :: 7 :: [1, 2, 3]) (0 + 1) tagList
          ([10, 0, 0, 9, 0, 0] : List Byte).length
        = .ok (([10, 0, 0, 9, 0, 0] : List Byte).length + 5) :=
  ⟨Or.inl rfl, list_empty_shortcut [10, 0, 0, 9, 0, 0] [1, 2, 3] 0 0 0 0 7 0 (Or.inl rfl)⟩

/-- C6 (the claim fails on the code): `0A 00 00 00` is a well-formed document, a root compound
with an empty name and no entries.  The nested `compound` reads the End byte and returns with the
cursor at 4, the end of the buffer; the loop of the outer `compound` then finds
`s.at+1 > len(s.buf)`, the read of the next kind byte would pass the end, and it returns nil, not
the unexpected-end-of-data error; `checkValid` returns nil. -/
theorem compound_at_end_returns_nil :
    WFRoot [10, 0, 0, 0]
      ∧ compound [10, 0, 0, 0] 3 3 = .ok 4
      ∧ ([10, 0, 0, 0] : List Byte).length < 4 + 1
      ∧ compound [10, 0, 0, 0] 4 4 = .ok 4
      ∧ pastEnds [10, 0, 0, 0] = [.loopHead 4]
      ∧ checkValid [10, 0, 0, 0] = .ok 4 :=
  ⟨⟨0, 0, [], [0], rfl, WF.bodyEnd, rfl⟩, by decide, by decide, by decide, by decide,
    by decide⟩

/-- C6 as amended: on a buffer accepted by the entry check of `checkValid`, the scan returns (it
neither indexes out of range nor runs out of fuel) with its cursor inside the buffer; from every
state with the cursor inside the buffer, each of `scan`, `list` and `compound` ends without an
out-of-range index and with `pos ≤ cursor ≤ len(buf)`, the read of `buf[at-1]` at the end of the
buffer included.  Every test `s.at+n > len(s.buf)` that holds during the scan (`pastEnds`), other
than the one at the head of the loop of `compound`, ends the scan: `checkValid` returns the
unexpected-end-of-data error with the cursor at the test.  The test at the head of the loop of
`compound` reads `buf[at-1]` inside the buffer; when that byte is not `0x00` it ends the scan in
the same way, and on a well-formed document `compound` returns nil there. -/
theorem cursor_safety (buf : List Byte) (h4 : 4 ≤ buf.length)
    (h0 : buf[0]? = some tagCompound) :
    (checkValid buf).Returned ∧ (checkValid buf).InBounds 0 buf.length
      ∧ (∀ fuel id pos, pos ≤ buf.length →
          (scan buf fuel id pos).InBounds pos buf.length
          ∧ (list (scan buf fuel) buf pos).InBounds pos buf.length
          ∧ (compound buf fuel pos).InBounds pos buf.length)
      ∧ (scanS buf (buf.length + 2) tagCompound 0).1 = checkValid buf
      ∧ (∀ pos n, PastEnd.read pos n ∈ pastEnds buf →
          buf.length < pos + n ∧ checkValid buf = .fail .unexpectedEOF pos
            ∧ ∃ before, pastEnds buf = before ++ [.read pos n])
      ∧ (∀ pos, PastEnd.loopHead pos ∈ pastEnds buf →
          buf.length < pos + 1 ∧ 0 < pos ∧ ∃ b, buf[pos - 1]? = some b
            ∧ (b ≠ tagEnd → checkValid buf = .fail .unexpectedEOF pos
                ∧ ∃ before, pastEnds buf = before ++ [.loopHead pos]))
      ∧ (WFRoot buf → ∀ fuel, compound buf (fuel + 1) buf.length = .ok buf.length) := by
  have hne : 0 < buf.length := by omega
  have hs := checkValid_surfaces buf h4 h0
  refine ⟨?_, ?_, ?_, hs.1, ?_, ?_, ?_⟩
  · rw [checkValid_eq_scan buf h4 h0]
    exact (scan_root_returns buf hne tagCompound).1
  · rw [checkValid_eq_scan buf h4 h0]
    exact (scan_root_returns buf hne tagCompound).2
  · intro fuel id pos hp
    have hb := scan_compound_inBounds buf hne fuel
    exact ⟨hb.1 id pos hp, list_inBounds (scan buf fuel) buf hb.1 pos hp, hb.2 pos hp⟩
  · intro pos n hev
    obtain ⟨h1, h2⟩ := hs.2 _ hev
    exact ⟨h1, h2 trivial⟩
  · intro pos hev
    obtain ⟨⟨h1, hpos, b, e⟩, h2⟩ := hs.2 _ hev
    refine ⟨h1, hpos, b, e, fun hb => h2 ?_⟩
    show buf[pos - 1]? ≠ some tagEnd
    rw [e]
    exact fun h => hb (Option.some.inj h)
  · intro hw fuel
    rw [compound_loop_head buf fuel tagEnd hne (WFRoot_last hw).2, if_pos rfl]

/-- Witness of C6 as amended: a root compound whose Byte entry has no payload; the test of
`scan` for the payload byte holds at cursor 6 and `checkValid` returns the error there. -/
theorem cursor_safety_witness :
    (4 ≤ ([10, 0, 0, 1, 0, 0] : List Byte).length
        ∧ ([10, 0, 0, 1, 0, 0] : List Byte)[0]? = some tagCompound
        ∧ PastEnd.read 6 1 ∈ pastEnds [10, 0, 0, 1, 0, 0])
      ∧ (checkValid [10, 0, 0, 1, 0, 0]).Returned
      ∧ checkValid [10, 0, 0, 1, 0, 0] = .fail .unexpectedEOF 6 :=
  ⟨⟨by decide, by decide, by decide⟩,
    (cursor_safety [10, 0, 0, 1, 0, 0] (by decide) (by decide)).1,
    ((cursor_safety [10, 0, 0, 1, 0, 0] (by decide) (by decide)).2.2.2.2.1 6 1
      (by decide)).2.1⟩

/-- C7 (the claim fails on the code): on the four bytes `0A 00 00 0D` the compound scan reads the
entry kind byte 13 at offset 3, and `checkValid` fails with the unexpected-end-of-data error, not
with the unknown-tag error: the entry's name is read before the kind byte is looked at. -/
theorem unknown_kind_truncated_name :
    ([10, 0, 0, 13] : List Byte)[3]? = some 13
      ∧ compound [10, 0, 0, 13] 5 3 = .fail .unexpectedEOF 4
      ∧ checkValid [10, 0, 0, 13] = .fail .unexpectedEOF 4 := by
  decide

/-- C7 as amended: for every buffer accepted by the entry check of `checkValid` and every
offset `p` at which the compound scan reads an entry kind byte `id` above 12 (`p ∈ kindReads
buf`), that kind byte is the last one the scan reads, and `checkValid` fails: with the
unknown-tag error carrying the offset just past the entry's name when the two length bytes `hi lo`
and the name are inside the buffer, whatever bytes follow; with the unexpected-end-of-data error
when the buffer ends inside the two length bytes or inside the name. -/
theorem checkValid_unknown_kind (buf : List Byte) (p : Nat) (id : Byte)
    (h4 : 4 ≤ buf.length) (h0 : buf[0]? = some tagCompound) (hp : p ∈ kindReads buf)
    (e0 : buf[p]? = some id) (h12 : 12 < id.val) :
    (scanT buf (buf.length + 2) tagCompound 0).1 = checkValid buf
      ∧ (∃ before, kindReads buf = before ++ [p])
      ∧ (∀ hi lo, buf[p + 1]? = some hi → buf[p + 1 + 1]? = some lo →
          p + 1 + 2 + specLen16 hi lo ≤ buf.length →
          checkValid buf = .fail (.unknownTag (p + 1 + 2 + specLen16 hi lo))
            (p + 1 + 2 + specLen16 hi lo))
      ∧ (buf.length < p + 1 + 2 → checkValid buf = .fail .unexpectedEOF (p + 1))
      ∧ (∀ hi lo, buf[p + 1]? = some hi → buf[p + 1 + 1]? = some lo →
          buf.length < p + 1 + 2 + specLen16 hi lo →
          checkValid buf = .fail .unexpectedEOF (p + 1 + 2)) := by
  have hE : id ≠ tagEnd := fun e => by rw [e] at h12; exact absurd h12 (by decide)
  obtain ⟨hc, hlast⟩ := checkValid_blames buf h4 h0 p hp id e0 h12
  refine ⟨?_, hlast, ?_, ?_, ?_⟩
  · rw [checkValid_eq_scan buf h4 h0]
    exact (scanT_compoundT_fst buf (buf.length + 2)).1 tagCompound 0
  · intro hi lo e1 e2 hl
    rw [hc, ← be16_spec]
    exact compound_unknown_at buf 0 p id hi lo e0 h12 e1 e2 (by rw [be16_spec]; exact hl)
  · intro hl
    rw [hc]
    exact compound_name_len_eof buf 1 p id e0 hE hl
  · intro hi lo e1 e2 hl
    rw [hc]
    exact compound_name_eof buf 1 p id hi lo e0 hE e1 e2 (by rw [be16_spec]; exact hl)

/-- Witness of C7 as amended: a root compound whose second entry has kind byte 13 (at offset 7)
and an empty name; the unknown-tag error carries offset 10. -/
theorem checkValid_unknown_kind_witness :
    (4 ≤ ([10, 0, 0, 1, 0, 0, 5, 13, 0, 0, 9] : List Byte).length
        ∧ ([10, 0, 0, 1, 0, 0, 5, 13, 0, 0, 9] : List Byte)[0]? = some tagCompound
        ∧ 7 ∈ kindReads [10, 0, 0, 1, 0, 0, 5, 13, 0, 0, 9]
        ∧ ([10, 0, 0, 1, 0, 0, 5, 13, 0, 0, 9] : List Byte)[7]? = some 13
        ∧ 12 < (13 : Byte).val)
      ∧ checkValid [10, 0, 0, 1, 0, 0, 5, 13, 0, 0, 9] = .fail (.unknownTag 10) 10 :=
  ⟨⟨by decide, by decide, by decide, by decide, by decide⟩,
    (checkValid_unknown_kind [10, 0, 0, 1, 0, 0, 5, 13, 0, 0, 9] 7 13 (by decide) (by decide)
      (by decide) (by decide) (by decide)).2.2.1 0 0 (by decide) (by decide) (by decide)⟩

/-- C4: if `checkValid` succeeds on `B`, then on every strict prefix of `B` of length at least 4
it either succeeds or fails with the unexpected-end-of-data error; it never fails with the
unknown-tag error. -/
theorem truncation_monotone (B : List Byte) (n c : Nat) (hB : checkValid B = .ok c)
    (h4 : 4 ≤ n) (hn : n < B.length) :
    ((∃ c1, checkValid (B.take n) = .ok c1)
        ∨ ∃ c1, checkValid (B.take n) = .fail .unexpectedEOF c1)
      ∧ ∀ p c1, checkValid (B.take n) ≠ .fail (.unknownTag p) c1 := by
  have hB0 : B[0]? = some tagCompound := by
    by_contra h
    rw [checkValid_eq_entry B (Or.inr h)] at hB
    cases hB
  have hPl : (B.take n).length = n := by rw [List.length_take]; omega
  have hPg : ∀ i, i < (B.take n).length → (B.take n)[i]? = B[i]? := by
    intro i hi
    rw [hPl] at hi
    exact List.getElem?_take_of_lt hi
  have hP0 : (B.take n)[0]? = some tagCompound := by
    rw [hPg 0 (by omega), hB0]
  rw [checkValid_eq_scan B (by omega) hB0] at hB
  have hret := (scan_root_returns (B.take n) (by omega) tagCompound).1
  have key := (scan_compound_trunc B (B.take n) (by omega) hPg (by omega)
    (B.length + 2)).1 ((B.take n).length + 2) tagCompound 0 (Nat.zero_le _) c hB
  rw [checkValid_eq_scan (B.take n) (by omega) hP0]
  have main : (∃ c1, scan (B.take n) ((B.take n).length + 2) tagCompound 0 = .ok c1)
      ∨ ∃ c1, scan (B.take n) ((B.take n).length + 2) tagCompound 0
        = .fail .unexpectedEOF c1 := by
    rcases key with h | ⟨_, h⟩ | ⟨_, h | h | ⟨c2, h⟩⟩
    · rw [h] at hret; exact absurd hret (by simp [Res.Returned])
    · exact Or.inl ⟨_, h⟩
    · rw [h] at hret; exact absurd hret (by simp [Res.Returned])
    · exact Or.inl ⟨_, h⟩
    · exact Or.inr ⟨_, h⟩
  refine ⟨main, ?_⟩
  intro p c1 h
  rcases main with ⟨c2, h2⟩ | ⟨c2, h2⟩ <;> rw [h2] at h <;> cases h

/-- Witness of C4: a root compound holding one Byte tag, cut after 6 of its 8 bytes. -/
theorem truncation_monotone_witness :
    (checkValid [10, 0, 0, 1, 0, 0, 5, 0] = .ok 8 ∧ 4 ≤ 6
        ∧ 6 < ([10, 0, 0, 1, 0, 0, 5, 0] : List Byte).length)
      ∧ ((∃ c1, checkValid (([10, 0, 0, 1, 0, 0, 5, 0] : List Byte).take 6) = .ok c1)
        ∨ ∃ c1, checkValid (([10, 0, 0, 1, 0, 0, 5, 0] : List Byte).take 6)
          = .fail .unexpectedEOF c1) :=
  ⟨⟨by decide, by decide, by decide⟩,
    (truncation_monotone [10, 0, 0, 1, 0, 0, 5, 0] 6 8 (by decide) (by decide) (by decide)).1⟩

/-- C15 (the claim fails on the code): the four count bytes `FF FF FF FF` are -1 as a signed
number, so a check of `remaining ≥ c * elementWidth` with the signed count would pass; `read32`
yields `int(uint32(..))`, which is 4294967295, and the ByteArray scan fails with the
unexpected-end-of-data error. -/
theorem array_count_not_signed :
    specSignedCount32 255 255 255 255 = -1
      ∧ specSignedCount32 255 255 255 255 * 1
          ≤ ((([255, 255, 255, 255] : List Byte).length - (0 + 4) : Nat) : Int)
      ∧ read32 [255, 255, 255, 255] 0 = .ok (4294967295, 4)
      ∧ scan [255, 255, 255, 255] 1 tagByteArray 0 = .fail .unexpectedEOF 4 :=
  ⟨by decide, by decide, rfl, by decide⟩

/-- C15 as amended: for each of the kinds ByteArray, IntArray and LongArray (element width `w`
= 1, 4, 8), `scan` fails with the unexpected-end-of-data error and an unchanged cursor when
fewer than 4 bytes remain; otherwise it reads the next 4 bytes as a big-endian 32-bit count `c`
that is never negative (`0 ≤ c < 2^32`), succeeds exactly when `c * w` bytes remain after the
count field, advancing the cursor by `4 + c * w`, and fails with the unexpected-end-of-data
error (cursor after the count field) when they do not. -/
theorem array_scan (fuel : Nat) (id : Byte) (w : Nat) (hw : specElementWidth id = some w) :
    (w = 1 ∨ w = 4 ∨ w = 8)
      ∧ (∀ (buf : List Byte) (pos : Nat), buf.length < pos + 4 →
          scan buf (fuel + 1) id pos = .fail .unexpectedEOF pos)
      ∧ ∀ (pre rest : List Byte) (b0 b1 b2 b3 : Byte),
          specCount32 b0 b1 b2 b3 < 4294967296
          ∧ (specCount32 b0 b1 b2 b3 * w ≤ rest.length →
              scan (pre ++ b0 :: b1 :: b2 :: b3 :: rest) (fuel + 1) id pre.length
                = .ok (pre.length + 4 + specCount32 b0 b1 b2 b3 * w))
          ∧ (rest.length < specCount32 b0 b1 b2 b3 * w →
              scan (pre ++ b0 :: b1 :: b2 :: b3 :: rest) (fuel + 1) id pre.length
                = .fail .unexpectedEOF (pre.length + 4))
          ∧ ((∃ c, scan (pre ++ b0 :: b1 :: b2 :: b3 :: rest) (fuel + 1) id pre.length = .ok c)
              ↔ specCount32 b0 b1 b2 b3 * w ≤ rest.length) := by
  obtain ⟨hp, hk⟩ := arrayTagPayload_of_spec id w hw
  have hw3 : w = 1 ∨ w = 4 ∨ w = 8 := by
    rcases hk with rfl | rfl | rfl
    · left; rw [← hp]; decide
    · right; left; rw [← hp]; decide
    · right; right; rw [← hp]; decide
  refine ⟨hw3, ?_, ?_⟩
  · intro buf pos h
    rw [scan_array _ _ _ _ hk, read32_eof buf pos h]
  · intro pre rest b0 b1 b2 b3
    have hlt : specCount32 b0 b1 b2 b3 < 4294967296 := by
      rw [← be32_spec]; exact be32_lt b0 b1 b2 b3
    have hyes : specCount32 b0 b1 b2 b3 * w ≤ rest.length →
        scan (pre ++ b0 :: b1 :: b2 :: b3 :: rest) (fuel + 1) id pre.length
          = .ok (pre.length + 4 + specCount32 b0 b1 b2 b3 * w) := by
      intro h
      rw [scan_array _ _ _ _ hk, read32_append]
      simp only
      rw [be32_spec, hp, if_neg (by simp; omega)]
    have hno : rest.length < specCount32 b0 b1 b2 b3 * w →
        scan (pre ++ b0 :: b1 :: b2 :: b3 :: rest) (fuel + 1) id pre.length
          = .fail .unexpectedEOF (pre.length + 4) := by
      intro h
      rw [scan_array _ _ _ _ hk, read32_append]
      simp only
      rw [be32_spec, hp, if_pos (by simp; omega)]
    refine ⟨hlt, hyes, hno, ?_⟩
    constructor
    · rintro ⟨c, hc⟩
      by_contra hn
      rw [hno (by omega)] at hc
      cases hc
    · intro h
      exact ⟨_, hyes h⟩

/-- Witness of C15 as amended: an IntArray of two elements after one earlier byte. -/
theorem array_scan_witness :
    specElementWidth tagIntArray = some 4
      ∧ scan ([9] ++ 0 :: 0 :: 0 :: 2 :: [1, 2, 3, 4, 5, 6, 7, 8, 0]) (0 + 1) tagIntArray
          ([9] : List Byte).length
        = .ok (([9] : List Byte).length + 4 + specCount32 0 0 0 2 * 4) :=
  ⟨by decide, ((array_scan 0 tagIntArray 4 (by decide)).2.2 [9] [1, 2, 3, 4, 5, 6, 7, 8, 0]
    0 0 0 2).2.1 (by decide)⟩

/-- C16: for each of the kinds Byte, Short, Int, Long, Float, Double, of width `w` = 1, 2, 4,
8, 4, 8, and every scanner state with the cursor inside the buffer, `scan` succeeds if and
only if `len(buf) - at ≥ w`; on success the cursor advances by exactly `w`, and otherwise
`scan` returns the unexpected-end-of-data error with the cursor unchanged. -/
theorem fixed_width_scan (buf : List Byte) (fuel : Nat) (id : Byte) (w pos : Nat)
    (hw : specFixedWidth id = some w) (hp : pos ≤ buf.length) :
    tagPayload id = w
      ∧ (w ≤ buf.length - pos → scan buf (fuel + 1) id pos = .ok (pos + w))
      ∧ (buf.length - pos < w → scan buf (fuel + 1) id pos = .fail .unexpectedEOF pos)
      ∧ ((∃ c, scan buf (fuel + 1) id pos = .ok c) ↔ w ≤ buf.length - pos) := by
  obtain ⟨hpw, hk⟩ := tagPayload_of_spec id w hw
  have hyes : w ≤ buf.length - pos → scan buf (fuel + 1) id pos = .ok (pos + w) := by
    intro h
    rw [scan_fixed _ _ _ _ hk, hpw, if_neg (by omega)]
  have hno : buf.length - pos < w → scan buf (fuel + 1) id pos = .fail .unexpectedEOF pos := by
    intro h
    rw [scan_fixed _ _ _ _ hk, hpw, if_pos (by omega)]
  refine ⟨hpw, hyes, hno, ?_⟩
  constructor
  · rintro ⟨c, hc⟩
    by_contra hn
    rw [hno (by omega)] at hc
    cases hc
  · intro h
    exact ⟨_, hyes h⟩

/-- Witness of C16: the kinds and their widths, and a Long scanned with exactly 8 bytes
left. -/
theorem fixed_width_scan_witness :
    (specFixedWidth tagByte = some 1 ∧ specFixedWidth tagShort = some 2
        ∧ specFixedWidth tagInt = some 4 ∧ specFixedWidth tagLong = some 8
        ∧ specFixedWidth tagFloat = some 4 ∧ specFixedWidth tagDouble = some 8
        ∧ 2 ≤ ([0, 0, 1, 2, 3, 4, 5, 6, 7, 8] : List Byte).length)
      ∧ scan [0, 0, 1, 2, 3, 4, 5, 6, 7, 8] (0 + 1) tagLong 2 = .ok (2 + 8) :=
  ⟨by decide,
    (fixed_width_scan [0, 0, 1, 2, 3, 4, 5, 6, 7, 8] 0 tagLong 8 2 (by decide) (by decide)).2.1
      (by decide)⟩

/-- C19: for every byte buffer `checkValid` terminates, with success or with an error.  From
every state with the cursor inside the buffer, `scan` and `compound` return once the fuel
exceeds the number of remaining bytes by 2 (by 1 for `compound`): each nested call and each turn
of the `compound` loop comes after a strict advance of the cursor; the list loop returns for
every count with that same fuel, since it is bounded by its count.  Fuel beyond that bound does
not change the result of `checkValid`. -/
theorem checkValid_terminates (buf : List Byte) :
    (checkValid buf).Returned
      ∧ (∀ fuel id pos, 0 < buf.length → pos ≤ buf.length → buf.length + 2 ≤ fuel + pos →
          (scan buf fuel id pos).Returned)
      ∧ (∀ fuel pos, 0 < buf.length → pos ≤ buf.length → buf.length + 1 ≤ fuel + pos →
          (compound buf fuel pos).Returned)
      ∧ (∀ fuel id n pos, 0 < buf.length → pos ≤ buf.length → buf.length + 2 ≤ fuel + pos →
          (listLoop (scan buf fuel id) n pos).Returned)
      ∧ (4 ≤ buf.length → buf[0]? = some tagCompound →
          ∀ k, scan buf (buf.length + 2 + k) tagCompound 0 = checkValid buf) := by
  refine ⟨?_, ?_, ?_, ?_, ?_⟩
  · by_cases h : buf.length < 4 ∨ buf[0]? ≠ some tagCompound
    · rw [checkValid_eq_entry buf h]
      trivial
    · have h4 : 4 ≤ buf.length := by
        by_contra hn
        exact h (Or.inl (by omega))
      have h0 : buf[0]? = some tagCompound := by
        by_contra hn
        exact h (Or.inr hn)
      rw [checkValid_eq_scan buf h4 h0]
      exact (scan_root_returns buf (by omega) tagCompound).1
  · intro fuel id pos hne hp hf
    exact Res.returned_of ((scan_compound_inBounds buf hne fuel).1 id pos hp)
      ((scan_compound_ne_timeout buf hne fuel).1 id pos hp hf)
  · intro fuel pos hne hp hf
    exact Res.returned_of ((scan_compound_inBounds buf hne fuel).2 pos hp)
      ((scan_compound_ne_timeout buf hne fuel).2 pos hp hf)
  · intro fuel id n pos hne hp hf
    exact Res.returned_of
      (listLoop_inBounds (scan buf fuel id) buf.length
        ((scan_compound_inBounds buf hne fuel).1 id) n pos hp)
      (listLoop_ne_timeout (scan buf fuel id) pos buf.length
        ((scan_compound_inBounds buf hne fuel).1 id)
        (fun p hl hp1 => (scan_compound_ne_timeout buf hne fuel).1 id p hp1 (by omega))
        n pos (Nat.le_refl _) hp)
  · intro h4 h0 k
    rw [checkValid_eq_scan buf h4 h0]
    exact scan_fuel_add buf (buf.length + 2) tagCompound 0
      ((scan_compound_ne_timeout buf (by omega) (buf.length + 2)).1 tagCompound 0
        (Nat.zero_le _) (by omega)) k

/-- Witness of C19: a root compound whose list of 256 Compound elements ends with the buffer
after the first element; the remaining 255 turns of the list loop do not move the cursor. -/
theorem checkValid_terminates_witness :
    (4 ≤ ([10, 0, 0, 9, 0, 0, 10, 0, 0, 1, 0, 0] : List Byte).length
        ∧ ([10, 0, 0, 9, 0, 0, 10, 0, 0, 1, 0, 0] : List Byte)[0]? = some tagCompound)
      ∧ (checkValid [10, 0, 0, 9, 0, 0, 10, 0, 0, 1, 0, 0]).Returned
      ∧ scan [10, 0, 0, 9, 0, 0, 10, 0, 0, 1, 0, 0]
          (([10, 0, 0, 9, 0, 0, 10, 0, 0, 1, 0, 0] : List Byte).length + 2 + 5) tagCompound 0
        = checkValid [10, 0, 0, 9, 0, 0, 10, 0, 0, 1, 0, 0] :=
  ⟨⟨by decide, by decide⟩,
    (checkValid_terminates [10, 0, 0, 9, 0, 0, 10, 0, 0, 1, 0, 0]).1,
    (checkValid_terminates [10, 0, 0, 9, 0, 0, 10, 0, 0, 1, 0, 0]).2.2.2.2 (by decide)
      (by decide) 5⟩

end nbt

namespace protocol

/-! ### The buffer -/

theorem Buffer.Grow_data (b : Buffer) (n : Nat) : (b.Grow n).data = b.data := by
  unfold Buffer.Grow
  split <;> rfl

theorem Buffer.Grow_spare (b : Buffer) (n : Nat) : n ≤ (b.Grow n).spare.length := by
  unfold Buffer.Grow
  split
  · assumption
  · simp only [List.length_replicate, Buffer.Len, Buffer.Cap]
    omega

theorem Buffer.Grow_of_le (b : Buffer) (n : Nat) (h : n ≤ b.spare.length) : b.Grow n = b := by
  unfold Buffer.Grow
  rw [if_pos h]

theorem Buffer.Write_data (b : Buffer) (p : List Byte) : (b.Write p).data = b.data ++ p := by
  unfold Buffer.Write
  simp only [Buffer.Grow_data]

theorem Buffer.Write_of_le (b : Buffer) (p : List Byte) (h : p.length ≤ b.spare.length) :
    b.Write p = { data := b.data ++ p, spare := b.spare.drop p.length } := by
  unfold Buffer.Write
  rw [Buffer.Grow_of_le b p.length h]

theorem Buffer.slice_mid (b : Buffer) (A w R : List Byte) (h : b.store = A ++ (w ++ R)) :
    b.slice A.length (A.length + w.length) = some w := by
  have hc : b.Cap = (A ++ (w ++ R)).length := by
    rw [← h]; simp [Buffer.Cap, Buffer.store]
  unfold Buffer.slice
  rw [if_pos ⟨by omega, by rw [hc]; simp⟩, h, List.take_append, List.take_left',
    List.drop_left]
  rfl

theorem Buffer.truncate_split (old T : List Byte) (k : Nat) (hk : k ≤ T.length) :
    Buffer.Truncate { data := (old ++ T).take (old.length + k),
                      spare := (old ++ T).drop (old.length + k) }
        (Buffer.Len { data := (old ++ T).take (old.length + k),
                      spare := (old ++ T).drop (old.length + k) } - k)
      = some { data := old, spare := T } := by
  rw [List.take_append, List.drop_append]
  have hl : Buffer.Len { data := old ++ T.take k, spare := T.drop k } - k = old.length := by
    simp [Buffer.Len, Nat.min_eq_left hk]
  rw [hl]
  unfold Buffer.Truncate
  rw [if_pos (by simp [Buffer.Len])]
  simp

/-- The backpatch of `Encode` (`Grow`, `copy`, `Truncate`) on a buffer that holds `old ++ w`:
the logical contents are `old` again, and the storage after them holds `headerSize` free bytes
followed by `w`. -/
theorem backpatch (old w S : List Byte) (hs : Nat) (h : hs ≤ S.length) :
    ∃ X R, X.length = hs
      ∧ (Buffer.copyAt { data := old ++ w, spare := S } (old.length + hs) w).Truncate
          ((Buffer.copyAt { data := old ++ w, spare := S } (old.length + hs) w).Len - w.length)
        = some { data := old, spare := X ++ (w ++ R) } := by
  refine ⟨(w ++ S).take hs, S.drop hs, by simp; omega, ?_⟩
  have hk : min (Buffer.Cap { data := old ++ w, spare := S } - (old.length + hs)) w.length
      = w.length := by
    simp [Buffer.Cap]; omega
  have hst : (Buffer.store { data := old ++ w, spare := S }).take (old.length + hs)
        ++ w.take w.length
        ++ (Buffer.store { data := old ++ w, spare := S }).drop (old.length + hs + w.length)
      = old ++ ((w ++ S).take hs ++ (w ++ S.drop hs)) := by
    have e1 : old.length + hs + w.length = old.length + (w.length + hs) := by omega
    simp only [Buffer.store, List.append_assoc, List.take_append, List.take_length, e1,
      List.drop_append]
  unfold Buffer.copyAt
  rw [hk, hst]
  have hl : Buffer.Len { data := old ++ w, spare := S } = old.length + w.length := by
    simp [Buffer.Len]
  rw [hl]
  exact Buffer.truncate_split old _ w.length (by simp; omega)

/-! ### Varints -/

theorem writeVarIntLoop_data (b : Buffer) (ux : Nat) :
    (writeVarIntLoop b ux).data = b.data ++ varIntBytes ux := by
  induction b, ux using writeVarIntLoop.induct with
  | case1 b ux h ih =>
    rw [writeVarIntLoop, if_pos h, ih]
    conv_rhs => rw [varIntBytes, if_pos h]
    simp [Buffer.WriteByte, Buffer.Write_data]
  | case2 b ux h =>
    rw [writeVarIntLoop, if_neg h, varIntBytes, if_neg h]
    simp [Buffer.WriteByte, Buffer.Write_data]

theorem writeVarIntLoop_of_le (b : Buffer) (ux : Nat)
    (hl : (varIntBytes ux).length ≤ b.spare.length) :
    writeVarIntLoop b ux
      = { data := b.data ++ varIntBytes ux, spare := b.spare.drop (varIntBytes ux).length } := by
  induction b, ux using writeVarIntLoop.induct with
  | case1 b ux h ih =>
    rw [varIntBytes, if_pos h] at hl
    simp only [List.length_cons] at hl
    have hw : b.WriteByte ((Fin.ofNat (ux &&& 0x7F) : Byte) ||| 0x80)
        = { data := b.data ++ [(Fin.ofNat (ux &&& 0x7F) : Byte) ||| 0x80],
            spare := b.spare.drop 1 } :=
      Buffer.Write_of_le b _ (by simp; omega)
    rw [writeVarIntLoop, if_pos h, ih (by rw [hw]; simp; omega), hw]
    conv_rhs => rw [varIntBytes, if_pos h]
    simp [Nat.add_comm]
  | case2 b ux h =>
    rw [varIntBytes, if_neg h] at hl
    rw [writeVarIntLoop, if_neg h, varIntBytes, if_neg h]
    exact Buffer.Write_of_le b _ hl

theorem varIntBytes_length_le (k : Nat) : ∀ ux, ux < 128 ^ (k + 1) →
    (varIntBytes ux).length ≤ k + 1 := by
  induction k with
  | zero =>
    intro ux h
    rw [varIntBytes, if_neg (by omega)]
    simp
  | succ k ih =>
    intro ux h
    rw [varIntBytes]
    split
    · have h2 : ux >>> 7 < 128 ^ (k + 1) := by
        rw [Nat.shiftRight_eq_div_pow]
        apply Nat.div_lt_of_lt_mul
        rw [pow_succ] at h
        omega
      have := ih _ h2
      simp only [List.length_cons]
      omega
    · simp

theorem varIntBytes_length_pos (ux : Nat) : 1 ≤ (varIntBytes ux).length := by
  rw [varIntBytes]
  split <;> simp

/-- The bytes `writeVarInt` appends, whatever the storage. -/
theorem writeVarInt_data (b : Buffer) (n : Int) :
    (writeVarInt b n).data = b.data ++ varInt n :=
  writeVarIntLoop_data b _

/-- The function `writeVarInt` when the storage has room: no reallocation. -/
theorem writeVarInt_of_le (b : Buffer) (n : Int) (hl : (varInt n).length ≤ b.spare.length) :
    writeVarInt b n
      = { data := b.data ++ varInt n, spare := b.spare.drop (varInt n).length } :=
  writeVarIntLoop_of_le b _ hl

/-- A varint is at most 5 bytes long. -/
theorem varInt_length_le (n : Int) : (varInt n).length ≤ 5 := by
  unfold varInt
  apply varIntBytes_length_le 4
  have : (n % 4294967296).toNat < 4294967296 := by omega
  norm_num
  omega

/-- The varint of a length up to 2,097,151 is at most 3 bytes long. -/
theorem varInt_length_le_three (n : Nat) (h : n ≤ 2097151) :
    (varInt (n : Int)).length ≤ 3 := by
  unfold varInt
  apply varIntBytes_length_le 2
  have : ((n : Int) % 4294967296).toNat = n := by omega
  rw [this]
  norm_num
  omega

theorem Buffer.eta (b : Buffer) : b = Buffer.mk b.data b.spare := by
  cases b; rfl

/-! ### `Encode` after its backpatch -/

/-- With no error from the packet writer, `Encode` reaches its threshold test with the logical
buffer `old` restored and, in the storage, `headerSize` free bytes `X` followed by the packet
bytes `w`. -/
theorem Encode_backpatched (enc : Encoder) (pw : PacketWriter) (pk : Packet)
    (h1 : (pw.VarInt pk.ID).err = none) (h2 : pk.Encode.err = none) :
    ∃ X R, X.length = enc.headerSize
      ∧ enc.Encode pw pk
        = if enc.threshold ≠ -1
              ∧ enc.threshold ≤ (((pw.VarInt pk.ID).out ++ pk.Encode.out).length : Int) then
            Encoder.compress
              { enc with buf := { data := enc.buf.data,
                                  spare := X ++ (((pw.VarInt pk.ID).out ++ pk.Encode.out) ++ R) } }
              ((pw.VarInt pk.ID).out ++ pk.Encode.out)
          else
            match (Encoder.writeHeader
                { enc with buf := { data := enc.buf.data,
                                    spare := X ++ (((pw.VarInt pk.ID).out ++ pk.Encode.out) ++ R) } }
                (((pw.VarInt pk.ID).out ++ pk.Encode.out).length : Nat)
                (if enc.threshold ≠ -1 then 0 else -1)).buf.slice
                (enc.buf.data.length + enc.headerSize)
                (enc.buf.data.length + enc.headerSize
                  + ((pw.VarInt pk.ID).out ++ pk.Encode.out).length) with
            | none => none
            | some p =>
              some ({ (Encoder.writeHeader
                  { enc with buf := { data := enc.buf.data,
                                      spare := X ++ (((pw.VarInt pk.ID).out ++ pk.Encode.out)
                                        ++ R) } }
                  (((pw.VarInt pk.ID).out ++ pk.Encode.out).length : Nat)
                  (if enc.threshold ≠ -1 then 0 else -1)) with
                buf := (Encoder.writeHeader
                  { enc with buf := { data := enc.buf.data,
                                      spare := X ++ (((pw.VarInt pk.ID).out ++ pk.Encode.out)
                                        ++ R) } }
                  (((pw.VarInt pk.ID).out ++ pk.Encode.out).length : Nat)
                  (if enc.threshold ≠ -1 then 0 else -1)).buf.Write p }, none) := by
  generalize ha : (pw.VarInt pk.ID).out = a at *
  generalize hc : pk.Encode.out = c at *
  have hd : (((enc.buf.Write a).Write c).Grow enc.headerSize).data = enc.buf.data ++ (a ++ c) := by
    rw [Buffer.Grow_data, Buffer.Write_data, Buffer.Write_data, List.append_assoc]
  have hsp := Buffer.Grow_spare ((enc.buf.Write a).Write c) enc.headerSize
  obtain ⟨X, R, hX, hbp⟩ := backpatch enc.buf.data (a ++ c)
    (((enc.buf.Write a).Write c).Grow enc.headerSize).spare enc.headerSize hsp
  refine ⟨X, R, hX, ?_⟩
  have e3 : ((enc.buf.Write a).Write c).Grow enc.headerSize
      = Buffer.mk (enc.buf.data ++ (a ++ c))
          (((enc.buf.Write a).Write c).Grow enc.headerSize).spare := by
    have e := Buffer.eta (((enc.buf.Write a).Write c).Grow enc.headerSize)
    rw [hd] at e
    exact e
  have eLen : ((enc.buf.Write a).Write c).Len - enc.buf.Len = (a ++ c).length := by
    simp [Buffer.Len, Buffer.Write_data]
  have es1 : Buffer.slice (Buffer.mk (enc.buf.data ++ (a ++ c))
        (((enc.buf.Write a).Write c).Grow enc.headerSize).spare)
      enc.buf.data.length (enc.buf.data.length + (a ++ c).length) = some (a ++ c) :=
    Buffer.slice_mid _ enc.buf.data (a ++ c)
      (((enc.buf.Write a).Write c).Grow enc.headerSize).spare (by simp [Buffer.store])
  unfold Encoder.Encode
  simp only [ha, hc, h1, h2, eLen]
  rw [e3]
  have eL : enc.buf.Len = enc.buf.data.length := rfl
  have es0 : Buffer.slice (Buffer.mk (enc.buf.data ++ (a ++ c))
        (((enc.buf.Write a).Write c).Grow enc.headerSize).spare)
      (enc.buf.data.length + enc.headerSize)
      (Buffer.Cap (Buffer.mk (enc.buf.data ++ (a ++ c))
        (((enc.buf.Write a).Write c).Grow enc.headerSize).spare))
      = some (((Buffer.store (Buffer.mk (enc.buf.data ++ (a ++ c))
          (((enc.buf.Write a).Write c).Grow enc.headerSize).spare)).take
            (Buffer.Cap (Buffer.mk (enc.buf.data ++ (a ++ c))
              (((enc.buf.Write a).Write c).Grow enc.headerSize).spare))).drop
          (enc.buf.data.length + enc.headerSize)) := by
    unfold Buffer.slice
    rw [if_pos ⟨by simp [Buffer.Cap]; omega, Nat.le_refl _⟩]
  have es5 : Buffer.slice (Buffer.mk enc.buf.data (X ++ (a ++ c ++ R)))
      (enc.buf.data.length + enc.headerSize)
      (enc.buf.data.length + enc.headerSize + (a ++ c).length) = some (a ++ c) := by
    have h := Buffer.slice_mid (Buffer.mk enc.buf.data (X ++ (a ++ c ++ R)))
      (enc.buf.data ++ X) (a ++ c) R (by simp [Buffer.store])
    rw [List.length_append, hX] at h
    exact h
  simp only [eL]
  rw [es0, es1]
  simp only
  rw [hbp]
  simp only
  split
  · rw [es5]
  · rfl

/-! ### The header and the tail of `Encode` -/

theorem writeHeader_data (enc : Encoder) (pkLen dataLen : Int) :
    (enc.writeHeader pkLen dataLen).buf.data
      = enc.buf.data ++ (if dataLen ≠ -1 then varInt pkLen ++ varInt dataLen else varInt pkLen) := by
  unfold Encoder.writeHeader
  split
  · simp only [writeVarInt_data, List.append_assoc]
  · simp only [writeVarInt_data]

/-- The method `writeHeader` when the storage has room for the header: no reallocation, the
header overwrites the first bytes of the storage. -/
theorem writeHeader_of_le (enc : Encoder) (pkLen dataLen : Int)
    (h : (if dataLen ≠ -1 then varInt pkLen ++ varInt dataLen else varInt pkLen).length
      ≤ enc.buf.spare.length) :
    (enc.writeHeader pkLen dataLen).buf
      = { data := enc.buf.data
            ++ (if dataLen ≠ -1 then varInt pkLen ++ varInt dataLen else varInt pkLen),
          spare := enc.buf.spare.drop
            (if dataLen ≠ -1 then varInt pkLen ++ varInt dataLen else varInt pkLen).length } := by
  unfold Encoder.writeHeader
  split
  · rename_i hd
    rw [if_pos hd] at h
    simp only [List.length_append] at h
    simp only
    rw [writeVarInt_of_le enc.buf pkLen (by omega), writeVarInt_of_le _ dataLen (by simp; omega)]
    simp [Nat.add_comm]
  · rename_i hd
    rw [if_neg hd] at h
    simp only
    rw [writeVarInt_of_le enc.buf pkLen h]

theorem writeHeader_fields (enc : Encoder) (pkLen dataLen : Int) :
    (enc.writeHeader pkLen dataLen).cipher = enc.cipher
      ∧ (enc.writeHeader pkLen dataLen).compressor = enc.compressor
      ∧ (enc.writeHeader pkLen dataLen).threshold = enc.threshold
      ∧ (enc.writeHeader pkLen dataLen).headerSize = enc.headerSize := by
  unfold Encoder.writeHeader
  split <;> exact ⟨rfl, rfl, rfl, rfl⟩

/-- The branch of `Encode` that does not compress: when the header fits in the reserved
`headerSize` bytes, the buffer ends up as `old ++ header ++ w`. -/
theorem Encode_plain (enc : Encoder) (pw : PacketWriter) (pk : Packet)
    (h1 : (pw.VarInt pk.ID).err = none) (h2 : pk.Encode.err = none)
    (hthr : ¬ (enc.threshold ≠ -1
      ∧ enc.threshold ≤ (((pw.VarInt pk.ID).out ++ pk.Encode.out).length : Int)))
    (hfit : (if (if enc.threshold ≠ -1 then (0 : Int) else -1) ≠ -1
        then varInt (((pw.VarInt pk.ID).out ++ pk.Encode.out).length : Nat)
          ++ varInt (if enc.threshold ≠ -1 then (0 : Int) else -1)
        else varInt (((pw.VarInt pk.ID).out ++ pk.Encode.out).length : Nat)).length
      ≤ enc.headerSize) :
    ∃ enc1, enc.Encode pw pk = some (enc1, none)
      ∧ enc1.buf.data = enc.buf.data
        ++ (if (if enc.threshold ≠ -1 then (0 : Int) else -1) ≠ -1
            then varInt (((pw.VarInt pk.ID).out ++ pk.Encode.out).length : Nat)
              ++ varInt (if enc.threshold ≠ -1 then (0 : Int) else -1)
            else varInt (((pw.VarInt pk.ID).out ++ pk.Encode.out).length : Nat))
        ++ ((pw.VarInt pk.ID).out ++ pk.Encode.out) := by
  obtain ⟨X, R, hX, hE⟩ := Encode_backpatched enc pw pk h1 h2
  generalize hw : (pw.VarInt pk.ID).out ++ pk.Encode.out = w at *
  generalize hD : (if enc.threshold ≠ -1 then (0 : Int) else -1) = D at *
  generalize hH : (if D ≠ -1 then varInt (w.length : Nat) ++ varInt D
    else varInt (w.length : Nat)) = H at *
  rw [hE, if_neg hthr]
  have hb := writeHeader_of_le
    { enc with buf := { data := enc.buf.data, spare := X ++ (w ++ R) } } (w.length : Nat) D
    (by rw [hH]; simp; omega)
  rw [hH] at hb
  simp only at hb
  have hst : Buffer.store (Buffer.mk (enc.buf.data ++ H) ((X ++ (w ++ R)).drop H.length))
      = (enc.buf.data ++ H ++ X.drop H.length) ++ (w ++ R) := by
    simp only [Buffer.store]
    rw [List.drop_append_of_le_length (by omega)]
    simp
  have hsl := Buffer.slice_mid _ _ w R hst
  have hA : (enc.buf.data ++ H ++ X.drop H.length).length
      = enc.buf.data.length + enc.headerSize := by
    simp; omega
  rw [hA] at hsl
  rw [hb, hsl]
  exact ⟨_, rfl, by simp [Buffer.Write_data]⟩

theorem varInt_zero : varInt 0 = [0] := by
  unfold varInt
  rw [varIntBytes]
  decide

theorem varInt_one : varInt 1 = [1] := by
  unfold varInt
  rw [varIntBytes]
  decide

theorem varInt_three : varInt 3 = [3] := by
  unfold varInt
  rw [varIntBytes]
  decide

/-! ### The claims about the packet framer -/

/-- C8: with compression disabled (threshold -1, headerSize 3) and a buffer holding `old`, for
every packet whose writer output `w` (the opcode varint followed by the payload) is at most
2,097,151 bytes long and reports no error, `Encode` returns nil and leaves the buffer equal to
`old ++ varint(len w) ++ w`.  In particular, on a fresh encoder, opcode 0x01 with the payload
`0A 0B` leaves exactly the bytes `03 01 0A 0B`. -/
theorem Encode_uncompressed_layout :
    (∀ (enc : Encoder) (pw : PacketWriter) (pk : Packet),
        enc.threshold = -1 → enc.headerSize = 3 →
        (pw.VarInt pk.ID).err = none → pk.Encode.err = none →
        ((pw.VarInt pk.ID).out ++ pk.Encode.out).length ≤ 2097151 →
        ∃ enc1, enc.Encode pw pk = some (enc1, none)
          ∧ enc1.buf.data = enc.buf.data
            ++ varInt (((pw.VarInt pk.ID).out ++ pk.Encode.out).length : Nat)
            ++ ((pw.VarInt pk.ID).out ++ pk.Encode.out))
      ∧ ∃ enc1, NewEncoder.Encode specWriter { ID := 1, Encode := { out := [0x0A, 0x0B], err := none } }
          = some (enc1, none)
        ∧ enc1.buf.data = [0x03, 0x01, 0x0A, 0x0B] := by
  have gen : ∀ (enc : Encoder) (pw : PacketWriter) (pk : Packet),
      enc.threshold = -1 → enc.headerSize = 3 →
      (pw.VarInt pk.ID).err = none → pk.Encode.err = none →
      ((pw.VarInt pk.ID).out ++ pk.Encode.out).length ≤ 2097151 →
      ∃ enc1, enc.Encode pw pk = some (enc1, none)
        ∧ enc1.buf.data = enc.buf.data
          ++ varInt (((pw.VarInt pk.ID).out ++ pk.Encode.out).length : Nat)
          ++ ((pw.VarInt pk.ID).out ++ pk.Encode.out) := by
    intro enc pw pk ht hh h1 h2 hl
    have hfit := varInt_length_le_three _ hl
    obtain ⟨enc1, he, hd⟩ := Encode_plain enc pw pk h1 h2 (by simp [ht])
      (by simp only [ht, ne_eq, not_true_eq_false, if_false]; omega)
    refine ⟨enc1, he, ?_⟩
    rw [hd]
    simp only [ht, ne_eq, not_true_eq_false, if_false]
  refine ⟨gen, ?_⟩
  obtain ⟨enc1, he, hd⟩ := gen NewEncoder specWriter
    { ID := 1, Encode := { out := [0x0A, 0x0B], err := none } } rfl rfl rfl rfl
    (by simp [specWriter, varInt_one])
  refine ⟨enc1, he, ?_⟩
  have hn : NewEncoder.buf.data = [] := rfl
  rw [hd, hn]
  simp [specWriter, varInt_one, varInt_three]

/-- Witness of C8: a fresh encoder and the packet with opcode 0x7F and payload `01 02 03`. -/
theorem Encode_uncompressed_layout_witness :
    (NewEncoder.threshold = -1 ∧ NewEncoder.headerSize = 3)
      ∧ ∃ enc1, NewEncoder.Encode specWriter
            { ID := 127, Encode := { out := [1, 2, 3], err := none } } = some (enc1, none)
          ∧ enc1.buf.data = [4, 127, 1, 2, 3] := by
  refine ⟨⟨rfl, rfl⟩, ?_⟩
  have e127 : varInt 127 = [127] := by unfold varInt; rw [varIntBytes]; decide
  have e4 : varInt 4 = [4] := by unfold varInt; rw [varIntBytes]; decide
  obtain ⟨enc1, he, hd⟩ := Encode_uncompressed_layout.1 NewEncoder specWriter
    { ID := 127, Encode := { out := [1, 2, 3], err := none } } rfl rfl rfl rfl
    (by simp [specWriter, e127])
  refine ⟨enc1, he, ?_⟩
  have hn : NewEncoder.buf.data = [] := rfl
  rw [hd, hn]
  simp [specWriter, e127, e4]

/-- C9: on an encoder on which `EnableCompression(t)` was called with `t ≠ -1`, whose buffer
holds `old`, for every packet whose writer output `w` succeeds with `len w < t`, `Encode` returns
nil and leaves the buffer equal to `old ++ varint(len w) ++ [0x00] ++ w`. -/
theorem Encode_under_threshold_layout (enc0 : Encoder) (z : Compressor) (t : Int)
    (pw : PacketWriter) (pk : Packet) (ht : t ≠ -1)
    (h1 : (pw.VarInt pk.ID).err = none) (h2 : pk.Encode.err = none)
    (hl : (((pw.VarInt pk.ID).out ++ pk.Encode.out).length : Int) < t) :
    ∃ enc1, (enc0.EnableCompression z t).Encode pw pk = some (enc1, none)
      ∧ enc1.buf.data = enc0.buf.data
        ++ varInt (((pw.VarInt pk.ID).out ++ pk.Encode.out).length : Nat) ++ [0x00]
        ++ ((pw.VarInt pk.ID).out ++ pk.Encode.out) := by
  have hT : (enc0.EnableCompression z t).threshold = t := rfl
  have hS : (enc0.EnableCompression z t).headerSize = 8 := rfl
  have hB : (enc0.EnableCompression z t).buf = enc0.buf := rfl
  have h5 := varInt_length_le (((pw.VarInt pk.ID).out ++ pk.Encode.out).length : Nat)
  obtain ⟨enc1, he, hd⟩ := Encode_plain (enc0.EnableCompression z t) pw pk h1 h2
    (by rw [hT]; intro h; omega)
    (by
      rw [hT, hS]
      simp only [ne_eq, ht, not_false_eq_true, if_true]
      rw [if_pos (by decide), List.length_append, varInt_zero]
      simp only [List.length_singleton]
      omega)
  refine ⟨enc1, he, ?_⟩
  rw [hd, hT, hB]
  simp only [ne_eq, ht, not_false_eq_true, if_true]
  rw [if_pos (by decide), varInt_zero]
  simp

/-- Witness of C9: threshold 256 and a four-byte packet. -/
theorem Encode_under_threshold_layout_witness :
    ((256 : Int) ≠ -1
        ∧ (((specWriter.VarInt 1).out ++ [1, 2, 3]).length : Int) < 256)
      ∧ ∃ enc1, (NewEncoder.EnableCompression (Compressor.mk (fun p => ZResult.mk none none p))
              256).Encode specWriter
            { ID := 1, Encode := { out := [1, 2, 3], err := none } } = some (enc1, none)
          ∧ enc1.buf.data = [4, 0, 1, 1, 2, 3] := by
  have e4 : varInt 4 = [4] := by unfold varInt; rw [varIntBytes]; decide
  have hlt : (((specWriter.VarInt 1).out ++ [1, 2, 3]).length : Int) < 256 := by
    simp [specWriter, varInt_one]
  refine ⟨⟨by decide, hlt⟩, ?_⟩
  obtain ⟨enc1, he, hd⟩ := Encode_under_threshold_layout NewEncoder
    (Compressor.mk (fun p => ZResult.mk none none p)) 256 specWriter
    { ID := 1, Encode := { out := [1, 2, 3], err := none } } (by decide) rfl rfl hlt
  refine ⟨enc1, he, ?_⟩
  have hn : NewEncoder.buf.data = [] := rfl
  rw [hd, hn]
  simp [specWriter, varInt_one, e4]

/-- C10: on an encoder with threshold `t ≠ -1` and a compressor, whose buffer holds `old`, for
every packet whose writer output `w` succeeds with `len w ≥ t` (`len w = t` included), when the
compressor reports no error `Encode` returns nil and leaves the buffer equal to
`old ++ varint(len c + varIntSize(len w)) ++ varint(len w) ++ c`, where `c` is what the
compressor flushed for the input `w`; the uncompressed bytes of `w` are not part of it. -/
theorem Encode_compressed_layout (enc : Encoder) (z : Compressor) (pw : PacketWriter)
    (pk : Packet) (ht : enc.threshold ≠ -1) (hz : enc.compressor = some z)
    (h1 : (pw.VarInt pk.ID).err = none) (h2 : pk.Encode.err = none)
    (hl : enc.threshold ≤ (((pw.VarInt pk.ID).out ++ pk.Encode.out).length : Int))
    (hw : (z.run ((pw.VarInt pk.ID).out ++ pk.Encode.out)).writeErr = none)
    (hf : (z.run ((pw.VarInt pk.ID).out ++ pk.Encode.out)).flushErr = none) :
    ∃ enc1, enc.Encode pw pk = some (enc1, none)
      ∧ enc1.buf.data = enc.buf.data
        ++ varInt ((z.run ((pw.VarInt pk.ID).out ++ pk.Encode.out)).out.length
            + varIntSize (((pw.VarInt pk.ID).out ++ pk.Encode.out).length : Nat))
        ++ varInt (((pw.VarInt pk.ID).out ++ pk.Encode.out).length : Nat)
        ++ (z.run ((pw.VarInt pk.ID).out ++ pk.Encode.out)).out := by
  obtain ⟨X, R, hX, hE⟩ := Encode_backpatched enc pw pk h1 h2
  generalize hwd : (pw.VarInt pk.ID).out ++ pk.Encode.out = w at *
  rw [hE, if_pos ⟨ht, hl⟩]
  unfold Encoder.compress
  simp only [hz, hw, hf]
  refine ⟨_, rfl, ?_⟩
  simp only [Buffer.Write_data, writeHeader_data]
  rw [if_pos (by omega)]
  simp

/-- Witness of C10: threshold 4 and a packet of exactly 4 bytes, with a compressor that puts
the byte `78` in front of its input. -/
theorem Encode_compressed_layout_witness :
    ((NewEncoder.EnableCompression (Compressor.mk (fun p => ZResult.mk none none (0x78 :: p)))
          4).threshold ≠ -1
        ∧ (NewEncoder.EnableCompression (Compressor.mk (fun p => ZResult.mk none none (0x78 :: p)))
          4).threshold ≤ (((specWriter.VarInt 1).out ++ [1, 2, 3]).length : Int))
      ∧ ∃ enc1, (NewEncoder.EnableCompression
              (Compressor.mk (fun p => ZResult.mk none none (0x78 :: p))) 4).Encode specWriter
            { ID := 1, Encode := { out := [1, 2, 3], err := none } } = some (enc1, none)
          ∧ enc1.buf.data = [6, 4, 0x78, 1, 1, 2, 3] := by
  have e4 : varInt 4 = [4] := by unfold varInt; rw [varIntBytes]; decide
  have e6 : varInt 6 = [6] := by unfold varInt; rw [varIntBytes]; decide
  have s4 : varIntSize 4 = 1 := by rw [varIntSize]; decide
  have hle : (NewEncoder.EnableCompression
      (Compressor.mk (fun p => ZResult.mk none none (0x78 :: p))) 4).threshold
      ≤ (((specWriter.VarInt 1).out ++ [1, 2, 3]).length : Int) := by
    simp [specWriter, varInt_one, Encoder.EnableCompression]
  refine ⟨⟨by decide, hle⟩, ?_⟩
  obtain ⟨enc1, he, hd⟩ := Encode_compressed_layout
    (NewEncoder.EnableCompression (Compressor.mk (fun p => ZResult.mk none none (0x78 :: p))) 4)
    (Compressor.mk (fun p => ZResult.mk none none (0x78 :: p))) specWriter
    { ID := 1, Encode := { out := [1, 2, 3], err := none } } (by decide) rfl rfl rfl hle rfl rfl
  refine ⟨enc1, he, ?_⟩
  have hn : (NewEncoder.EnableCompression
      (Compressor.mk (fun p => ZResult.mk none none (0x78 :: p))) 4).buf.data = [] := rfl
  rw [hd, hn]
  simp [specWriter, varInt_one, e4, e6, s4]

/-! ### Varints: width, shape and value -/

theorem byte_hi_val : ∀ a : Fin 128, ((Fin.ofNat a.val : Byte) ||| 0x80).val = a.val + 128 := by
  decide

theorem byte_hi_low : ∀ a : Fin 128, (a.val + 128) &&& 0x7F = a.val := by
  decide

theorem and_7F (ux : Nat) : ux &&& 0x7F = ux % 128 :=
  Nat.and_pow_two_sub_one_eq_mod ux 7

/-- The continuation byte `byte(ux&0x7F) | 0x80`: the low seven bits of `ux` under a set high
bit. -/
theorem contByte_val (ux : Nat) :
    ((Fin.ofNat (ux &&& 0x7F) : Byte) ||| 0x80).val = ux % 128 + 128 := by
  rw [and_7F]
  exact byte_hi_val ⟨ux % 128, Nat.mod_lt _ (by decide)⟩

theorem lastByte_val (ux : Nat) (h : ux < 128) : (Fin.ofNat ux : Byte).val = ux := by
  show ux % 256 = ux
  omega

theorem varIntSize_natCast (ux : Nat) : varIntSize (ux : Int) = (varIntBytes ux).length := by
  induction ux using varIntBytes.induct with
  | case1 ux h ih =>
    have hs : (ux : Int) >>> (7 : Nat) = ((ux >>> 7 : Nat) : Int) := by
      rw [Int.shiftRight_eq_div_pow, Nat.shiftRight_eq_div_pow]
      norm_cast
    rw [varIntSize, if_pos (by omega), hs, ih]
    conv_rhs => rw [varIntBytes, if_pos h]
    simp
  | case2 ux h =>
    rw [varIntSize, if_neg (by omega), varIntBytes, if_neg h]
    simp

theorem specVarIntValue_varIntBytes (ux : Nat) : specVarIntValue (varIntBytes ux) = ux := by
  induction ux using varIntBytes.induct with
  | case1 ux h ih =>
    rw [varIntBytes, if_pos h, specVarIntValue, ih, contByte_val,
      byte_hi_low ⟨ux % 128, Nat.mod_lt _ (by decide)⟩, Nat.shiftRight_eq_div_pow]
    simp only
    omega
  | case2 ux h =>
    rw [varIntBytes, if_neg h, specVarIntValue, specVarIntValue, lastByte_val ux (by omega),
      and_7F]
    omega

theorem specVarIntShape_varIntBytes (ux : Nat) : specVarIntShape (varIntBytes ux) := by
  induction ux using varIntBytes.induct with
  | case1 ux h ih =>
    rw [varIntBytes, if_pos h]
    cases ht : varIntBytes (ux >>> 7) with
    | nil =>
      have := varIntBytes_length_pos (ux >>> 7)
      rw [ht] at this
      simp at this
    | cons c bs =>
      rw [ht] at ih
      refine ⟨?_, ih⟩
      rw [contByte_val]
      omega
  | case2 ux h =>
    rw [varIntBytes, if_neg h]
    show (Fin.ofNat ux : Byte).val < 128
    rw [lastByte_val ux (by omega)]
    omega

theorem specVarIntValue_lt (bs : List Byte) : specVarIntValue bs < 128 ^ bs.length := by
  induction bs with
  | nil => simp [specVarIntValue]
  | cons b bs ih =>
    rw [specVarIntValue, and_7F, List.length_cons, pow_succ]
    have := Nat.mod_lt b.val (show 0 < 128 by decide)
    omega

theorem uint32_of_range (n : Int) (h0 : 0 ≤ n) (h1 : n < 4294967296) :
    ((n % 4294967296).toNat : Int) = n := by
  omega

/-- C11: for every integer `n` with `0 ≤ n < 2^32`, `varIntSize(n)` is the number of bytes
`writeVarInt` appends for `n`; and `varIntSize` yields 1, 1, 2, 2, 3, 3 for
`n = 0, 127, 128, 16383, 16384, 2097151`. -/
theorem varIntSize_width :
    (∀ (n : Int) (b : Buffer), 0 ≤ n → n < 4294967296 →
        (writeVarInt b n).data = b.data ++ varInt n ∧ varIntSize n = (varInt n).length
          ∧ (writeVarInt b n).data.length = b.data.length + varIntSize n)
      ∧ varIntSize 0 = 1 ∧ varIntSize 127 = 1 ∧ varIntSize 128 = 2 ∧ varIntSize 16383 = 2
      ∧ varIntSize 16384 = 3 ∧ varIntSize 2097151 = 3 := by
  refine ⟨?_, ?_, ?_, ?_, ?_, ?_, ?_⟩
  · intro n b h0 h1
    have hs : varIntSize n = (varInt n).length := by
      have e := varIntSize_natCast (n % 4294967296).toNat
      rw [uint32_of_range n h0 h1] at e
      exact e
    refine ⟨writeVarInt_data b n, hs, ?_⟩
    rw [writeVarInt_data, List.length_append, hs]
  · rw [varIntSize, if_neg (by decide)]
  · rw [varIntSize, if_neg (by decide)]
  · rw [varIntSize, if_pos (by decide), varIntSize, if_neg (by decide)]
  · rw [varIntSize, if_pos (by decide), varIntSize, if_neg (by decide)]
  · rw [varIntSize, if_pos (by decide), varIntSize, if_pos (by decide), varIntSize,
      if_neg (by decide)]
  · rw [varIntSize, if_pos (by decide), varIntSize, if_pos (by decide), varIntSize,
      if_neg (by decide)]

/-- Witness of C11: the length 300, a two-byte varint, written to a fresh buffer. -/
theorem varIntSize_width_witness :
    ((0 : Int) ≤ 300 ∧ (300 : Int) < 4294967296)
      ∧ (writeVarInt NewEncoder.buf 300).data.length
        = NewEncoder.buf.data.length + varIntSize 300 :=
  ⟨⟨by decide, by decide⟩,
    (varIntSize_width.1 300 NewEncoder.buf (by decide) (by decide)).2.2⟩

/-- C12: for every integer `n`, `writeVarInt` leaves the earlier bytes of the buffer unchanged
and appends between 1 and 5 bytes; every appended byte but the last has its high bit set, the
last has it clear; the sum of `(b_i AND 0x7F) * 128^i` over the appended bytes is `n mod 2^32`;
and no byte sequence of that shape and value is shorter. -/
theorem writeVarInt_encoding (b : Buffer) (n : Int) :
    (writeVarInt b n).data = b.data ++ varInt n
      ∧ 1 ≤ (varInt n).length ∧ (varInt n).length ≤ 5
      ∧ specVarIntShape (varInt n)
      ∧ (specVarIntValue (varInt n) : Int) = n % 4294967296
      ∧ ∀ bs : List Byte, specVarIntShape bs → (specVarIntValue bs : Int) = n % 4294967296 →
          (varInt n).length ≤ bs.length := by
  refine ⟨writeVarInt_data b n, varIntBytes_length_pos _, varInt_length_le n,
    specVarIntShape_varIntBytes _, ?_, ?_⟩
  · unfold varInt
    rw [specVarIntValue_varIntBytes]
    omega
  · intro bs hs hv
    cases bs with
    | nil => exact absurd hs (by simp [specVarIntShape])
    | cons c t =>
      have hlt := specVarIntValue_lt (c :: t)
      have he : (n % 4294967296).toNat = specVarIntValue (c :: t) := by omega
      unfold varInt
      rw [he]
      exact varIntBytes_length_le t.length _ hlt

/-! ### `Encode` only appends -/

theorem Encode_err_id (enc : Encoder) (pw : PacketWriter) (pk : Packet) (e : Error)
    (h : (pw.VarInt pk.ID).err = some e) :
    enc.Encode pw pk
      = some ({ enc with buf := enc.buf.Write (pw.VarInt pk.ID).out }, some e) := by
  unfold Encoder.Encode
  simp only [h]

theorem Encode_err_body (enc : Encoder) (pw : PacketWriter) (pk : Packet) (e : Error)
    (h1 : (pw.VarInt pk.ID).err = none) (h2 : pk.Encode.err = some e) :
    enc.Encode pw pk
      = some ({ enc with buf := (enc.buf.Write (pw.VarInt pk.ID).out).Write pk.Encode.out },
          some e) := by
  unfold Encoder.Encode
  simp only [h1, h2]

theorem writeHeader_Write_data (enc : Encoder) (pkLen dataLen : Int) (p : List Byte) :
    ((enc.writeHeader pkLen dataLen).buf.Write p).data
      = enc.buf.data
        ++ ((if dataLen ≠ -1 then varInt pkLen ++ varInt dataLen else varInt pkLen) ++ p) := by
  simp only [Buffer.Write_data, writeHeader_data, List.append_assoc]

/-- Whatever `Encode` returns, the buffer afterwards is the old buffer followed by some bytes,
and the cipher is the same. -/
theorem Encode_appends (enc enc1 : Encoder) (pw : PacketWriter) (pk : Packet)
    (r : Option Error) (h : enc.Encode pw pk = some (enc1, r)) :
    (∃ q, enc1.buf.data = enc.buf.data ++ q) ∧ enc1.cipher = enc.cipher := by
  cases h1 : (pw.VarInt pk.ID).err with
  | some e =>
    rw [Encode_err_id enc pw pk e h1] at h
    cases h
    exact ⟨⟨_, Buffer.Write_data _ _⟩, rfl⟩
  | none =>
    cases h2 : pk.Encode.err with
    | some e =>
      rw [Encode_err_body enc pw pk e h1 h2] at h
      cases h
      refine ⟨⟨(pw.VarInt pk.ID).out ++ pk.Encode.out, ?_⟩, rfl⟩
      simp [Buffer.Write_data]
    | none =>
      obtain ⟨X, R, -, hE⟩ := Encode_backpatched enc pw pk h1 h2
      rw [hE] at h
      split at h
      · unfold Encoder.compress at h
        simp only at h
        split at h
        · cases h
        · split at h
          · cases h
            exact ⟨⟨[], by simp⟩, rfl⟩
          · split at h
            · cases h
              exact ⟨⟨[], by simp⟩, rfl⟩
            · cases h
              exact ⟨⟨_, writeHeader_Write_data _ _ _ _⟩, (writeHeader_fields _ _ _).1⟩
      · split at h
        · cases h
        · cases h
          exact ⟨⟨_, writeHeader_Write_data _ _ _ _⟩, (writeHeader_fields _ _ _).1⟩

theorem encodeAll_data (pw : PacketWriter) (pks : List Packet) :
    ∀ (enc enc2 : Encoder) (frames : List (List Byte)),
      Encoder.encodeAll pw enc pks = some (enc2, frames) →
      enc2.buf.data = enc.buf.data ++ frames.flatten ∧ enc2.cipher = enc.cipher := by
  induction pks with
  | nil =>
    intro enc enc2 frames h
    rw [Encoder.encodeAll] at h
    cases h
    simp
  | cons pk pks ih =>
    intro enc enc2 frames h
    rw [Encoder.encodeAll] at h
    cases he : enc.Encode pw pk with
    | none => rw [he] at h; cases h
    | some res =>
      obtain ⟨enc1, r⟩ := res
      cases r with
      | some e => rw [he] at h; cases h
      | none =>
        rw [he] at h
        simp only at h
        cases hr : Encoder.encodeAll pw enc1 pks with
        | none => rw [hr] at h; cases h
        | some res2 =>
          obtain ⟨enc3, fs⟩ := res2
          rw [hr] at h
          simp only [Option.some.injEq, Prod.mk.injEq] at h
          obtain ⟨⟨q, hq⟩, hc⟩ := Encode_appends enc enc1 pw pk none he
          obtain ⟨hd, hc2⟩ := ih enc1 enc3 fs hr
          rw [← h.1, ← h.2]
          refine ⟨?_, hc2.trans hc⟩
          rw [hd, hq]
          simp

/-! ### `Flush` -/

theorem Flush_no_cipher (enc : Encoder) (hc : enc.cipher = none) :
    enc.Flush = (enc.buf.data, { enc with buf := enc.buf.Reset }) := by
  unfold Encoder.Flush
  rw [hc]

theorem Flush_some_cipher (enc : Encoder) (c : CFB8) (hc : enc.cipher = some c) :
    enc.Flush = ((c.XORKeyStream enc.buf.data).1,
      { enc with
        buf := { data := [], spare := (c.XORKeyStream enc.buf.data).1 ++ enc.buf.spare }
        cipher := some (c.XORKeyStream enc.buf.data).2 }) := by
  unfold Encoder.Flush
  rw [hc]

/-- One cipher pass over `A ++ B` is a pass over `A` followed by a pass over `B` that starts
from the state the first pass left. -/
theorem XORKeyStream_append (A B : List Byte) : ∀ c : CFB8,
    (c.XORKeyStream (A ++ B)).1
        = (c.XORKeyStream A).1 ++ ((c.XORKeyStream A).2.XORKeyStream B).1
      ∧ (c.XORKeyStream (A ++ B)).2 = ((c.XORKeyStream A).2.XORKeyStream B).2 := by
  induction A with
  | nil => intro c; simp [CFB8.XORKeyStream]
  | cons x xs ih =>
    intro c
    obtain ⟨h1, h2⟩ := ih { c with state := (c.step c.state x).2 }
    have e1 : ∀ l, (c.XORKeyStream (x :: l)).1
        = (c.step c.state x).1
          :: (CFB8.XORKeyStream { c with state := (c.step c.state x).2 } l).1 := fun _ => rfl
    have e2 : ∀ l, (c.XORKeyStream (x :: l)).2
        = (CFB8.XORKeyStream { c with state := (c.step c.state x).2 } l).2 := fun _ => rfl
    rw [List.cons_append, e1, e2, e1, e2, h1, h2]
    exact ⟨rfl, rfl⟩

/-- C13: on an encoder without a cipher, after a run of `Encode` calls that all returned nil,
`Flush` returns the bytes the buffer held before the run followed by the frames of the calls in
call order (exactly the frames when the run started from an empty buffer), and leaves the
buffer empty, so that a `Flush` right after it returns no bytes. -/
theorem Flush_without_cipher (pw : PacketWriter) (enc enc2 : Encoder) (pks : List Packet)
    (frames : List (List Byte)) (hc : enc.cipher = none)
    (hrun : Encoder.encodeAll pw enc pks = some (enc2, frames)) :
    enc2.Flush.1 = enc.buf.data ++ frames.flatten
      ∧ (enc.buf.data = [] → enc2.Flush.1 = frames.flatten)
      ∧ enc2.Flush.2.buf.data = []
      ∧ enc2.Flush.2.Flush.1 = [] := by
  obtain ⟨hd, hc2⟩ := encodeAll_data pw pks enc enc2 frames hrun
  have hn : enc2.cipher = none := hc2.trans hc
  have hf := Flush_no_cipher enc2 hn
  have hf2 : enc2.Flush.2.Flush = ([], { enc2.Flush.2 with buf := enc2.Flush.2.buf.Reset }) := by
    rw [Flush_no_cipher enc2.Flush.2 (by rw [hf]; exact hn), hf]
    rfl
  refine ⟨by rw [hf]; exact hd, ?_, by rw [hf]; rfl, by rw [hf2]⟩
  intro he
  rw [hf]
  simpa [he] using hd

/-- Witness of C13: a fresh encoder and one packet with opcode 0x01 and payload `0A 0B`. -/
theorem Flush_without_cipher_witness :
    ∃ enc2 frames, (NewEncoder.cipher = none
        ∧ Encoder.encodeAll specWriter NewEncoder
            [{ ID := 1, Encode := { out := [0x0A, 0x0B], err := none } }] = some (enc2, frames))
      ∧ enc2.Flush.1 = [0x03, 0x01, 0x0A, 0x0B] ∧ enc2.Flush.2.Flush.1 = [] := by
  obtain ⟨enc1, he, hd⟩ := Encode_plain NewEncoder specWriter
    { ID := 1, Encode := { out := [0x0A, 0x0B], err := none } } rfl rfl
    (by intro h; exact h.1 rfl)
    (by
      have h3 : NewEncoder.threshold = -1 := rfl
      have hs : NewEncoder.headerSize = 3 := rfl
      rw [h3, hs]
      simp [specWriter, varInt_one, varInt_three])
  have hn : NewEncoder.buf.data = [] := rfl
  have h3 : NewEncoder.threshold = -1 := rfl
  have hd1 : enc1.buf.data = [0x03, 0x01, 0x0A, 0x0B] := by
    rw [hd, hn, h3]
    simp [specWriter, varInt_one, varInt_three]
  have hrun : Encoder.encodeAll specWriter NewEncoder
      [{ ID := 1, Encode := { out := [0x0A, 0x0B], err := none } }]
      = some (enc1, [enc1.buf.data.drop NewEncoder.buf.data.length]) := by
    rw [Encoder.encodeAll, he]
    simp only
    rw [Encoder.encodeAll]
  have hw := Flush_without_cipher specWriter NewEncoder enc1 _ _ rfl hrun
  refine ⟨enc1, _, ⟨rfl, hrun⟩, ?_, hw.2.2.2⟩
  rw [hw.1, hn, hd1]
  rfl

/-- C14: with a cipher `c` installed, let `Flush` be called on a buffer holding `A`, and again
on a later state `mid` whose buffer holds `B` and whose cipher is the one the first `Flush` left
(as it is after any run of `Encode` calls).  Then the two results, concatenated, are one pass
of `c` over `A ++ B`, and the cipher after the second `Flush` is the one that pass leaves:
`Flush` carries the keystream state on and never starts it anew. -/
theorem Flush_cipher_continuity (enc mid : Encoder) (c : CFB8) (hc : enc.cipher = some c)
    (hm : mid.cipher = enc.Flush.2.cipher) :
    enc.Flush.1 ++ mid.Flush.1 = (c.XORKeyStream (enc.buf.data ++ mid.buf.data)).1
      ∧ mid.Flush.2.cipher = some (c.XORKeyStream (enc.buf.data ++ mid.buf.data)).2
      ∧ enc.Flush.2.buf.data = []
      ∧ ∀ (pw : PacketWriter) (pks : List Packet) (enc2 : Encoder) (frames : List (List Byte)),
          Encoder.encodeAll pw enc.Flush.2 pks = some (enc2, frames) →
          enc2.cipher = enc.Flush.2.cipher ∧ enc2.buf.data = frames.flatten := by
  have hf := Flush_some_cipher enc c hc
  have hmc : mid.cipher = some (c.XORKeyStream enc.buf.data).2 := by
    rw [hm, hf]
  have hf2 := Flush_some_cipher mid _ hmc
  obtain ⟨a1, a2⟩ := XORKeyStream_append enc.buf.data mid.buf.data c
  refine ⟨by rw [hf, hf2, a1], by rw [hf2, a2], by rw [hf], ?_⟩
  intro pw pks enc2 frames hrun
  obtain ⟨hd, hc2⟩ := encodeAll_data pw pks enc.Flush.2 enc2 frames hrun
  refine ⟨hc2, ?_⟩
  rw [hd, hf]
  rfl

/-- Witness of C14: a toy cipher that adds each byte to a one-byte register and keeps the
output as the next register; `01 02` is flushed first, `03` second. -/
theorem Flush_cipher_continuity_witness :
    ((Encoder.mk (Buffer.mk [1, 2] [])
          (some (CFB8.mk [7] (fun st x => (x + st.headD 0, [x + st.headD 0])))) none (-1) 3).cipher
        = some (CFB8.mk [7] (fun st x => (x + st.headD 0, [x + st.headD 0]))))
      ∧ (Encoder.mk (Buffer.mk [1, 2] [])
          (some (CFB8.mk [7] (fun st x => (x + st.headD 0, [x + st.headD 0])))) none (-1) 3).Flush.1
        ++ (Encoder.mk (Buffer.mk [3] [])
          (Encoder.mk (Buffer.mk [1, 2] [])
            (some (CFB8.mk [7] (fun st x => (x + st.headD 0, [x + st.headD 0])))) none (-1)
            3).Flush.2.cipher none (-1) 3).Flush.1
        = ((CFB8.mk [7] (fun st x => (x + st.headD 0, [x + st.headD 0]))).XORKeyStream
            ([1, 2] ++ [3])).1 :=
  ⟨rfl, (Flush_cipher_continuity
    (Encoder.mk (Buffer.mk [1, 2] [])
      (some (CFB8.mk [7] (fun st x => (x + st.headD 0, [x + st.headD 0])))) none (-1) 3)
    (Encoder.mk (Buffer.mk [3] [])
      (Encoder.mk (Buffer.mk [1, 2] [])
        (some (CFB8.mk [7] (fun st x => (x + st.headD 0, [x + st.headD 0])))) none (-1)
        3).Flush.2.cipher none (-1) 3)
    (CFB8.mk [7] (fun st x => (x + st.headD 0, [x + st.headD 0]))) rfl rfl).1⟩

/-- C17: when the opcode write, or the packet's own encode step after a successful opcode
write, fails with error `e` after the writer has appended the bytes `q`, `Encode` returns
exactly `e`, writes no header, and leaves the buffer equal to `old ++ q`; the first `len(old)`
bytes and the other fields of the encoder are unchanged. -/
theorem Encode_error_propagation (enc : Encoder) (pw : PacketWriter) (pk : Packet) (e : Error)
    (q : List Byte)
    (h : ((pw.VarInt pk.ID).err = some e ∧ q = (pw.VarInt pk.ID).out)
      ∨ ((pw.VarInt pk.ID).err = none ∧ pk.Encode.err = some e
          ∧ q = (pw.VarInt pk.ID).out ++ pk.Encode.out)) :
    ∃ enc1, enc.Encode pw pk = some (enc1, some e)
      ∧ enc1.buf.data = enc.buf.data ++ q
      ∧ enc1.buf.data.take enc.buf.data.length = enc.buf.data
      ∧ enc1.cipher = enc.cipher ∧ enc1.threshold = enc.threshold
      ∧ enc1.headerSize = enc.headerSize := by
  rcases h with ⟨h1, rfl⟩ | ⟨h1, h2, rfl⟩
  · refine ⟨_, Encode_err_id enc pw pk e h1, ?_, ?_, rfl, rfl, rfl⟩
    · exact Buffer.Write_data _ _
    · simp [Buffer.Write_data]
  · refine ⟨_, Encode_err_body enc pw pk e h1 h2, ?_, ?_, rfl, rfl, rfl⟩
    · simp [Buffer.Write_data]
    · simp [Buffer.Write_data]

/-- Witness of C17: a packet whose own encode step fails with error 5 after writing `09`. -/
theorem Encode_error_propagation_witness :
    (((specWriter.VarInt 1).err = some (Error.mk 5) ∧ [1, 9] = (specWriter.VarInt 1).out)
        ∨ ((specWriter.VarInt 1).err = none
          ∧ (WriteStep.mk [9] (some (Error.mk 5))).err = some (Error.mk 5)
          ∧ [1, 9] = (specWriter.VarInt 1).out ++ (WriteStep.mk [9] (some (Error.mk 5))).out))
      ∧ ∃ enc1, NewEncoder.Encode specWriter (Packet.mk 1 (WriteStep.mk [9] (some (Error.mk 5))))
          = some (enc1, some (Error.mk 5))
        ∧ enc1.buf.data = NewEncoder.buf.data ++ [1, 9] := by
  have hq : ((specWriter.VarInt 1).err = some (Error.mk 5) ∧ [1, 9] = (specWriter.VarInt 1).out)
      ∨ ((specWriter.VarInt 1).err = none
        ∧ (WriteStep.mk [9] (some (Error.mk 5))).err = some (Error.mk 5)
        ∧ [1, 9] = (specWriter.VarInt 1).out ++ (WriteStep.mk [9] (some (Error.mk 5))).out) :=
    Or.inr ⟨rfl, rfl, by simp [specWriter, varInt_one]⟩
  obtain ⟨enc1, he, hd, -⟩ := Encode_error_propagation NewEncoder specWriter
    (Packet.mk 1 (WriteStep.mk [9] (some (Error.mk 5)))) (Error.mk 5) [1, 9] hq
  exact ⟨hq, enc1, he, hd⟩

/-! ### The reserved header space -/

/-- The branch of `Encode` that compresses: the buffer ends up as `old`, the two-field header
and the compressor output. -/
theorem Encode_compress_data (enc : Encoder) (z : Compressor) (pw : PacketWriter) (pk : Packet)
    (ht : enc.threshold ≠ -1) (hz : enc.compressor = some z)
    (h1 : (pw.VarInt pk.ID).err = none) (h2 : pk.Encode.err = none)
    (hl : enc.threshold ≤ (((pw.VarInt pk.ID).out ++ pk.Encode.out).length : Int))
    (hw : (z.run ((pw.VarInt pk.ID).out ++ pk.Encode.out)).writeErr = none)
    (hf : (z.run ((pw.VarInt pk.ID).out ++ pk.Encode.out)).flushErr = none) :
    ∃ enc1, enc.Encode pw pk = some (enc1, none)
      ∧ enc1.buf.data = enc.buf.data
        ++ (varInt ((z.run ((pw.VarInt pk.ID).out ++ pk.Encode.out)).out.length
              + varIntSize (((pw.VarInt pk.ID).out ++ pk.Encode.out).length : Nat))
            ++ varInt (((pw.VarInt pk.ID).out ++ pk.Encode.out).length : Nat))
        ++ (z.run ((pw.VarInt pk.ID).out ++ pk.Encode.out)).out := by
  obtain ⟨X, R, hX, hE⟩ := Encode_backpatched enc pw pk h1 h2
  generalize hwd : (pw.VarInt pk.ID).out ++ pk.Encode.out = w at *
  rw [hE, if_pos ⟨ht, hl⟩]
  unfold Encoder.compress
  simp only [hz, hw, hf]
  refine ⟨_, rfl, ?_⟩
  simp only [Buffer.Write_data, writeHeader_data]
  rw [if_pos (by omega)]

/-- C18: for every packet whose opcode-plus-payload length is at most 2,097,151, the header
`Encode` writes fits in `headerSize`: the one-field header is at most 3 bytes, the header with
the 0 sentinel and the header of the compressed branch are at most 8 bytes.  On an encoder with
compression disabled (`headerSize` 3) or enabled (`headerSize` 8), `Encode` without compression
therefore leaves the shifted packet bytes `w` intact behind the header, and the compressed
branch appends a header of at most `headerSize` bytes. -/
theorem header_space_suffices (enc : Encoder) (pw : PacketWriter) (pk : Packet)
    (h1 : (pw.VarInt pk.ID).err = none) (h2 : pk.Encode.err = none)
    (hl : ((pw.VarInt pk.ID).out ++ pk.Encode.out).length ≤ 2097151)
    (hcfg : (enc.threshold = -1 ∧ enc.headerSize = 3) ∨ enc.headerSize = 8) :
    (varInt (((pw.VarInt pk.ID).out ++ pk.Encode.out).length : Nat)).length ≤ 3
      ∧ (varInt (((pw.VarInt pk.ID).out ++ pk.Encode.out).length : Nat) ++ varInt 0).length ≤ 8
      ∧ (∀ c : List Byte,
          (varInt (c.length + varIntSize (((pw.VarInt pk.ID).out ++ pk.Encode.out).length : Nat))
            ++ varInt (((pw.VarInt pk.ID).out ++ pk.Encode.out).length : Nat)).length ≤ 8)
      ∧ (¬ (enc.threshold ≠ -1
            ∧ enc.threshold ≤ (((pw.VarInt pk.ID).out ++ pk.Encode.out).length : Int)) →
          ∃ enc1 H, enc.Encode pw pk = some (enc1, none) ∧ H.length ≤ enc.headerSize
            ∧ H = (if enc.threshold ≠ -1
                then varInt (((pw.VarInt pk.ID).out ++ pk.Encode.out).length : Nat) ++ varInt 0
                else varInt (((pw.VarInt pk.ID).out ++ pk.Encode.out).length : Nat))
            ∧ enc1.buf.data = enc.buf.data ++ H ++ ((pw.VarInt pk.ID).out ++ pk.Encode.out))
      ∧ (∀ z : Compressor, enc.threshold ≠ -1 → enc.headerSize = 8 →
          enc.threshold ≤ (((pw.VarInt pk.ID).out ++ pk.Encode.out).length : Int) →
          enc.compressor = some z →
          (z.run ((pw.VarInt pk.ID).out ++ pk.Encode.out)).writeErr = none →
          (z.run ((pw.VarInt pk.ID).out ++ pk.Encode.out)).flushErr = none →
          ∃ enc1 H, enc.Encode pw pk = some (enc1, none) ∧ H.length ≤ enc.headerSize
            ∧ enc1.buf.data = enc.buf.data ++ H
                ++ (z.run ((pw.VarInt pk.ID).out ++ pk.Encode.out)).out) := by
  generalize hwd : (pw.VarInt pk.ID).out ++ pk.Encode.out = w at *
  have h3 := varInt_length_le_three w.length hl
  have hz0 : (varInt 0).length = 1 := by rw [varInt_zero]; rfl
  have hA : (varInt (w.length : Nat) ++ varInt 0).length ≤ 8 := by
    rw [List.length_append, hz0]; omega
  have hC : ∀ c : List Byte,
      (varInt (c.length + varIntSize (w.length : Nat)) ++ varInt (w.length : Nat)).length ≤ 8 := by
    intro c
    have h5 := varInt_length_le (c.length + varIntSize (w.length : Nat))
    rw [List.length_append]
    omega
  refine ⟨h3, hA, hC, ?_, ?_⟩
  · intro hthr
    by_cases ht : enc.threshold = -1
    · have hfit : (if (if enc.threshold ≠ -1 then (0 : Int) else -1) ≠ -1
          then varInt (w.length : Nat) ++ varInt (if enc.threshold ≠ -1 then (0 : Int) else -1)
          else varInt (w.length : Nat)).length ≤ enc.headerSize := by
        simp only [ht, ne_eq, not_true_eq_false, if_false]
        rcases hcfg with ⟨-, hs⟩ | hs <;> omega
      subst hwd
      obtain ⟨enc1, he, hd⟩ := Encode_plain enc pw pk h1 h2 hthr hfit
      refine ⟨enc1, _, he, ?_, rfl, ?_⟩
      · simp only [ht, ne_eq, not_true_eq_false, if_false]
        rcases hcfg with ⟨-, hs⟩ | hs <;> omega
      · rw [hd]
        simp only [ht, ne_eq, not_true_eq_false, if_false]
    · have hs : enc.headerSize = 8 := by
        rcases hcfg with ⟨h, -⟩ | hs
        · exact absurd h ht
        · exact hs
      have hfit : (if (if enc.threshold ≠ -1 then (0 : Int) else -1) ≠ -1
          then varInt (w.length : Nat) ++ varInt (if enc.threshold ≠ -1 then (0 : Int) else -1)
          else varInt (w.length : Nat)).length ≤ enc.headerSize := by
        simp only [ne_eq, ht, not_false_eq_true, if_true]
        rw [if_pos (by decide), hs]
        exact hA
      subst hwd
      obtain ⟨enc1, he, hd⟩ := Encode_plain enc pw pk h1 h2 hthr hfit
      refine ⟨enc1, _, he, ?_, rfl, ?_⟩
      · simp only [ne_eq, ht, not_false_eq_true, if_true]
        rw [hs]
        exact hA
      · rw [hd]
        simp only [ne_eq, ht, not_false_eq_true, if_true]
        rw [if_pos (by decide)]
  · intro z ht hs hle hz hw hf
    subst hwd
    obtain ⟨enc1, he, hd⟩ := Encode_compress_data enc z pw pk ht hz h1 h2 hle hw hf
    exact ⟨enc1, _, he, by rw [hs]; exact hC _, hd⟩

/-- Witness of C18: a fresh encoder and the packet with opcode 0x01 and payload `0A 0B`. -/
theorem header_space_suffices_witness :
    (((specWriter.VarInt 1).out ++ [0x0A, 0x0B]).length ≤ 2097151
        ∧ ((NewEncoder.threshold = -1 ∧ NewEncoder.headerSize = 3) ∨ NewEncoder.headerSize = 8))
      ∧ (varInt ((((specWriter.VarInt 1).out ++ [0x0A, 0x0B]).length : Nat) : Int)).length ≤ 3 := by
  have hl : ((specWriter.VarInt 1).out ++ [0x0A, 0x0B]).length ≤ 2097151 := by
    simp [specWriter, varInt_one]
  exact ⟨⟨hl, Or.inl ⟨rfl, rfl⟩⟩,
    (header_space_suffices NewEncoder specWriter (Packet.mk 1 (WriteStep.mk [0x0A, 0x0B] none))
      rfl rfl hl (Or.inl ⟨rfl, rfl⟩)).1⟩

end protocol
